import Mathlib

/-!
# LSDN netmodel core: shallow embedding and verification

This file embeds the model-graph / validation / commit core of the LSDN
library (src/netmodel/lsdn.c) in Lean and proves properties of it.

Conventions of the embedding:
* C pointers become numeric identifiers (`Id`); each allocation draws a fresh
  identifier from `Ctx.next_id`.  The intrusive lists (`networks_list`,
  `virt_list`, `attached_list`, `attached_to_list`, `connected_virt_list`,
  `remote_pa_list`, `pa_view_list`, `virt_view_list`) become the global object
  lists of `Ctx`, with the per-object lists derived by filtering (list
  membership and the corresponding back-pointer are updated together
  everywhere in the C source).
* `assert` failures and the fatal `abort()` calls are modelled as `none`
  (the process dies, there is no resulting state).  Dereferencing an object
  identifier that is not in the graph (possible only for C-level undefined
  behaviour) is also modelled as `none` at API entry points.
* `malloc`/`strdup` results at graph-mutation entry points are explicit
  `Bool` parameters (`true` = allocation succeeded).  Allocation failures
  inside the commit engine abort the process in C; the model lets those
  allocations succeed.
* The nettype-operation vtable calls are recorded as an event trace
  (`Ev`); the `validate_pa`/`validate_virt` driver hooks are modelled as
  absent (they are optional function pointers and no driver is part of the
  core under verification).
* Kernel interface-name resolution (`lsdn_if_resolve`) is an environment
  oracle `Env.resolves`.
-/

namespace LSDN

/-- Lifecycle state of every graph object (`enum lsdn_state`). -/
inductive St where
  | new
  | ok
  | renew
  | delete
deriving DecidableEq, Repr, Inhabited

/-- Error codes (`lsdn_err_t`): OK, NOMEM, DUPLICATE, NOIF, NETLINK, VALIDATE, COMMIT. -/
inductive Err where
  | eOK
  | eNOMEM
  | eDUPLICATE
  | eNOIF
  | eNETLINK
  | eVALIDATE
  | eCOMMIT
deriving DecidableEq, Repr, Inhabited

/-- `renew` (lsdn.c:20): asserts the state is not DELETE (assert failure = `none`);
OK moves to RENEW, NEW and RENEW are left alone. -/
def renew : St → Option St
  | .delete => none
  | .ok => some .renew
  | s => some s

/-- `propagate` (lsdn.c:28): if `src` is slated for renewal and `dst` is OK,
`dst` switches to RENEW too. -/
def propagate (src dst : St) : St :=
  if src = .renew ∧ dst = .ok then .renew else dst

/-- `ack_state` (lsdn.c:734): after a successful (re)commit, NEW and RENEW become OK. -/
def ack_state (s : St) : St :=
  if s = .new ∨ s = .renew then .ok else s

/-- `ack_uncommit` (lsdn.c:740): DELETE needs decommitting; RENEW needs decommitting
and is reset to NEW; OK and NEW do not. Returns (needs-decommit, new state). -/
def ack_uncommit : St → Bool × St
  | .delete => (true, .delete)
  | .renew => (true, .new)
  | s => (false, s)

/-- `should_be_validated` (lsdn.c:558). -/
def should_be_validated (s : St) : Bool :=
  s = .new ∨ s = .renew

/-- `will_be_deleted` (lsdn.c:562). -/
def will_be_deleted (s : St) : Bool :=
  s = .delete

/-- Object identifier (stands for a C object pointer). -/
abbrev Id := Nat

/-- MAC address, abstract (`lsdn_mac_t`; only equality is used by the core). -/
abbrev Mac := Nat

/-- IP address, abstract (`lsdn_ip_t`; only equality is used by the core). -/
abbrev Ip := Nat

/-- `enum lsdn_nettype`. -/
inductive NetType where
  | vxlan
  | vlan
  | direct
deriving DecidableEq, Repr, Inhabited

/-- `enum lsdn_switch`. -/
inductive SwitchType where
  | learning
  | learningE2E
  | staticE2E
deriving DecidableEq, Repr, Inhabited

/-- `struct lsdn_settings` (fields used by the core: lifecycle state, nettype,
switch discipline, the VXLAN UDP port and the presence of user hooks). -/
structure Settings where
  sid : Id
  state : St
  nettype : NetType
  switch_type : SwitchType
  vxlan_port : Nat
  has_user_hooks : Bool
deriving DecidableEq, Repr, Inhabited

/-- `struct lsdn_net` (lsdn.c / lsdn.h): settings back-pointer and tenant network id. -/
structure Net where
  nid : Id
  state : St
  settings : Id
  vnet_id : Nat
deriving DecidableEq, Repr, Inhabited

/-- `struct lsdn_phys`. -/
structure Phys where
  pid : Id
  state : St
  attr_iface : Option String
  attr_ip : Option Ip
  is_local : Bool
  commited_as_local : Bool
deriving DecidableEq, Repr, Inhabited

/-- `struct lsdn_phys_attachment` (PA): the junction of a net and a phys. -/
structure PA where
  aid : Id
  state : St
  net : Id
  phys : Id
  explicitely_attached : Bool
deriving DecidableEq, Repr, Inhabited

/-- `struct lsdn_virt`.  `connected_if`/`committed_if` keep only the interface
name (`lsdn_if` resolution state is the `Env` oracle's business). -/
structure Virt where
  vid : Id
  state : St
  network : Id
  attr_mac : Option Mac
  connected_through : Option Id
  committed_to : Option Id
  connected_if : Option String
  committed_if : Option String
deriving DecidableEq, Repr, Inhabited

/-- `struct lsdn_remote_pa`: the view a local PA keeps of a peer PA.
`rlocal` is the materialising (local) PA, `rremote` the peer PA. -/
structure RemotePA where
  rid : Id
  rlocal : Id
  rremote : Id
deriving DecidableEq, Repr, Inhabited

/-- `struct lsdn_remote_virt`: the view a remote-PA view keeps of a peer virt. -/
structure RemoteVirt where
  rvid : Id
  rv_pa : Id
  rv_virt : Id
deriving DecidableEq, Repr, Inhabited

/-- `struct lsdn_context`: the whole object graph.  `next_id` is the
fresh-identifier source standing for the allocator. -/
structure Ctx where
  settingsL : List Settings
  netsL : List Net
  physL : List Phys
  pasL : List PA
  virtsL : List Virt
  rpasL : List RemotePA
  rvirtsL : List RemoteVirt
  next_id : Id
deriving DecidableEq, Repr, Inhabited

/-- The empty context right after `lsdn_context_new`. -/
def Ctx.empty : Ctx :=
  { settingsL := [], netsL := [], physL := [], pasL := [], virtsL := [],
    rpasL := [], rvirtsL := [], next_id := 0 }

/-! ## Lookups and derived intrusive lists -/

def findSettings (ctx : Ctx) (i : Id) : Option Settings :=
  ctx.settingsL.find? (fun s => s.sid = i)

def findNet (ctx : Ctx) (i : Id) : Option Net :=
  ctx.netsL.find? (fun n => n.nid = i)

def findPhys (ctx : Ctx) (i : Id) : Option Phys :=
  ctx.physL.find? (fun p => p.pid = i)

def findPA (ctx : Ctx) (i : Id) : Option PA :=
  ctx.pasL.find? (fun a => a.aid = i)

def findVirt (ctx : Ctx) (i : Id) : Option Virt :=
  ctx.virtsL.find? (fun v => v.vid = i)

/-- Dereference a settings pointer (total; meaningful when the id is live). -/
def settingsOfD (ctx : Ctx) (i : Id) : Settings :=
  (findSettings ctx i).getD default

def netOfD (ctx : Ctx) (i : Id) : Net :=
  (findNet ctx i).getD default

def physOfD (ctx : Ctx) (i : Id) : Phys :=
  (findPhys ctx i).getD default

def paOfD (ctx : Ctx) (i : Id) : PA :=
  (findPA ctx i).getD default

/-- `net->virt_list`. -/
def virtsOfNet (ctx : Ctx) (n : Id) : List Virt :=
  ctx.virtsL.filter (fun v => v.network = n)

/-- `net->attached_list`. -/
def pasOfNet (ctx : Ctx) (n : Id) : List PA :=
  ctx.pasL.filter (fun a => a.net = n)

/-- `phys->attached_to_list`. -/
def pasOfPhys (ctx : Ctx) (p : Id) : List PA :=
  ctx.pasL.filter (fun a => a.phys = p)

/-- `pa->connected_virt_list`. -/
def connectedVirts (ctx : Ctx) (a : Id) : List Virt :=
  ctx.virtsL.filter (fun v => v.connected_through = some a)

/-- `pa->remote_pa_list`. -/
def remotePAsOfLocal (ctx : Ctx) (a : Id) : List RemotePA :=
  ctx.rpasL.filter (fun r => r.rlocal = a)

/-- `pa->pa_view_list`. -/
def paViewsOfRemote (ctx : Ctx) (a : Id) : List RemotePA :=
  ctx.rpasL.filter (fun r => r.rremote = a)

/-- `rpa->remote_virt_list`. -/
def remoteVirtsOfRpa (ctx : Ctx) (r : Id) : List RemoteVirt :=
  ctx.rvirtsL.filter (fun x => x.rv_pa = r)

/-- `virt->virt_view_list`. -/
def virtViewsOfVirt (ctx : Ctx) (v : Id) : List RemoteVirt :=
  ctx.rvirtsL.filter (fun x => x.rv_virt = v)

/-- `settings->setting_users_list`. -/
def netsOfSettings (ctx : Ctx) (s : Id) : List Net :=
  ctx.netsL.filter (fun n => n.settings = s)

/-! ## Point updates and removals -/

def updSettings (ctx : Ctx) (i : Id) (f : Settings → Settings) : Ctx :=
  { ctx with settingsL := ctx.settingsL.map (fun s => if s.sid = i then f s else s) }

def updNet (ctx : Ctx) (i : Id) (f : Net → Net) : Ctx :=
  { ctx with netsL := ctx.netsL.map (fun n => if n.nid = i then f n else n) }

def updPhys (ctx : Ctx) (i : Id) (f : Phys → Phys) : Ctx :=
  { ctx with physL := ctx.physL.map (fun p => if p.pid = i then f p else p) }

def updPA (ctx : Ctx) (i : Id) (f : PA → PA) : Ctx :=
  { ctx with pasL := ctx.pasL.map (fun a => if a.aid = i then f a else a) }

def updVirt (ctx : Ctx) (i : Id) (f : Virt → Virt) : Ctx :=
  { ctx with virtsL := ctx.virtsL.map (fun v => if v.vid = i then f v else v) }

def removeSettings (ctx : Ctx) (i : Id) : Ctx :=
  { ctx with settingsL := ctx.settingsL.filter (fun s => s.sid ≠ i) }

def removeNet (ctx : Ctx) (i : Id) : Ctx :=
  { ctx with netsL := ctx.netsL.filter (fun n => n.nid ≠ i) }

def removePhys (ctx : Ctx) (i : Id) : Ctx :=
  { ctx with physL := ctx.physL.filter (fun p => p.pid ≠ i) }

def removePA (ctx : Ctx) (i : Id) : Ctx :=
  { ctx with pasL := ctx.pasL.filter (fun a => a.aid ≠ i) }

def removeVirt (ctx : Ctx) (i : Id) : Ctx :=
  { ctx with virtsL := ctx.virtsL.filter (fun v => v.vid ≠ i) }

/-! ## Object creation (`XXX_new`)

Each `_new` entry point allocates (`allocOk` models the `malloc` outcome;
`none` = allocation failed, the entry point returns NULL / NOMEM), links the
object into its owner's list in state NEW, and returns its identifier. -/

/-- Modelled from the spec: the settings constructors (`lsdn_settings_new_vlan`,
`new_vxlan_mcast`, `new_vxlan_e2e`, `new_vxlan_static`, `new_direct`) live in the
per-nettype source files which are not under src/netmodel; per spec §3 and §4.8
they allocate a settings object carrying a network type, a switch discipline and
(for VXLAN) the UDP port, linked into the context's settings list, with the
lifecycle starting at NEW like every graph object. -/
def lsdn_settings_new (ctx : Ctx) (nt : NetType) (sw : SwitchType) (port : Nat)
    (hooks : Bool) (allocOk : Bool) : Option (Id × Ctx) :=
  if allocOk then
    some (ctx.next_id,
      { ctx with
        settingsL := ctx.settingsL ++
          [{ sid := ctx.next_id, state := .new, nettype := nt, switch_type := sw,
             vxlan_port := port, has_user_hooks := hooks }],
        next_id := ctx.next_id + 1 })
  else none

/-- `lsdn_net_new` (lsdn.c:229). -/
def lsdn_net_new (ctx : Ctx) (s : Id) (vnet : Nat) (allocOk : Bool) : Option (Id × Ctx) :=
  if allocOk then
    some (ctx.next_id,
      { ctx with
        netsL := ctx.netsL ++
          [{ nid := ctx.next_id, state := .new, settings := s, vnet_id := vnet }],
        next_id := ctx.next_id + 1 })
  else none

/-- `lsdn_phys_new` (lsdn.c:289). -/
def lsdn_phys_new (ctx : Ctx) (allocOk : Bool) : Option (Id × Ctx) :=
  if allocOk then
    some (ctx.next_id,
      { ctx with
        physL := ctx.physL ++
          [{ pid := ctx.next_id, state := .new, attr_iface := none, attr_ip := none,
             is_local := false, commited_as_local := false }],
        next_id := ctx.next_id + 1 })
  else none

/-- `lsdn_virt_new` (lsdn.c:464). -/
def lsdn_virt_new (ctx : Ctx) (n : Id) (allocOk : Bool) : Option (Id × Ctx) :=
  if allocOk then
    some (ctx.next_id,
      { ctx with
        virtsL := ctx.virtsL ++
          [{ vid := ctx.next_id, state := .new, network := n, attr_mac := none,
             connected_through := none, committed_to := none,
             connected_if := none, committed_if := none }],
        next_id := ctx.next_id + 1 })
  else none

/-! ## Attachment bookkeeping and graph mutations -/

/-- `pa_do_free` (lsdn.c:380): asserts that no virt is connected through the
attachment and that it is not explicitly attached (assert failure = `none`),
then unlinks it from the net's and the phys's attachment lists. -/
def pa_do_free (ctx : Ctx) (a : PA) : Option Ctx :=
  if connectedVirts ctx a.aid ≠ [] then none
  else if a.explicitely_attached then none
  else some (removePA ctx a.aid)

/-- `free_pa_if_possible` (lsdn.c:389): an attachment that is not explicitly
attached and has no connected virts goes through `free_helper`: freed at once
when NEW, otherwise marked DELETE for the decommit sweep. -/
def free_pa_if_possible (ctx : Ctx) (i : Id) : Ctx :=
  match findPA ctx i with
  | none => ctx
  | some a =>
    if connectedVirts ctx a.aid = [] ∧ ¬ a.explicitely_attached then
      if a.state = .new then
        -- free_helper: NEW → pa_do_free; its asserts hold by the guard above
        (pa_do_free ctx a).getD ctx
      else
        updPA ctx i (fun x => { x with state := .delete })
    else ctx

/-- `phys_detach_by_pa` (lsdn.c:401). -/
def phys_detach_by_pa (ctx : Ctx) (i : Id) : Ctx :=
  free_pa_if_possible (updPA ctx i (fun x => { x with explicitely_attached := false })) i

/-- `find_or_create_attachement` (lsdn.c:345): search the phys's attachment
list for the net, else allocate a fresh implicit attachment in state NEW
(`none` = the `malloc` failed). -/
def find_or_create_attachement (ctx : Ctx) (p n : Id) (allocOk : Bool) :
    Option (Id × Ctx) :=
  match (pasOfPhys ctx p).find? (fun a => a.net = n) with
  | some a => some (a.aid, ctx)
  | none =>
    if allocOk then
      some (ctx.next_id,
        { ctx with
          pasL := ctx.pasL ++
            [{ aid := ctx.next_id, state := .new, net := n, phys := p,
               explicitely_attached := false }],
          next_id := ctx.next_id + 1 })
    else none

/-- `lsdn_phys_attach` (lsdn.c:370). -/
def lsdn_phys_attach (ctx : Ctx) (p n : Id) (allocOk : Bool) : Err × Ctx :=
  match find_or_create_attachement ctx p n allocOk with
  | none => (.eNOMEM, ctx)
  | some (a, ctx1) =>
    (.eOK, updPA ctx1 a (fun x => { x with explicitely_attached := true }))

/-- `lsdn_phys_detach` (lsdn.c:407). -/
def lsdn_phys_detach (ctx : Ctx) (p n : Id) : Ctx :=
  match (pasOfPhys ctx p).find? (fun a => a.net = n) with
  | some a => phys_detach_by_pa ctx a.aid
  | none => ctx

/-- `lsdn_phys_set_iface` (lsdn.c:417); `allocOk` is the `strdup` outcome. -/
def lsdn_phys_set_iface (ctx : Ctx) (p : Id) (iface : String) (allocOk : Bool) :
    Option (Err × Ctx) :=
  match findPhys ctx p with
  | none => none
  | some _ =>
    if allocOk then
      some (.eOK, updPhys ctx p (fun x => { x with attr_iface := some iface }))
    else some (.eNOMEM, ctx)

/-- `lsdn_phys_clear_iface` (lsdn.c:427). -/
def lsdn_phys_clear_iface (ctx : Ctx) (p : Id) : Option (Err × Ctx) :=
  match findPhys ctx p with
  | none => none
  | some _ => some (.eOK, updPhys ctx p (fun x => { x with attr_iface := none }))

/-- `lsdn_phys_set_ip` (lsdn.c:433). -/
def lsdn_phys_set_ip (ctx : Ctx) (p : Id) (ip : Ip) (allocOk : Bool) :
    Option (Err × Ctx) :=
  match findPhys ctx p with
  | none => none
  | some _ =>
    if allocOk then
      some (.eOK, updPhys ctx p (fun x => { x with attr_ip := some ip }))
    else some (.eNOMEM, ctx)

/-- `lsdn_phys_claim_local` (lsdn.c:445). -/
def lsdn_phys_claim_local (ctx : Ctx) (p : Id) : Option (Err × Ctx) :=
  match findPhys ctx p with
  | none => none
  | some ph =>
    if ¬ ph.is_local then
      match renew ph.state with
      | none => none
      | some s' =>
        some (.eOK, updPhys ctx p (fun x => { x with state := s', is_local := true }))
    else some (.eOK, ctx)

/-- `lsdn_phys_unclaim_local` (lsdn.c:455). -/
def lsdn_phys_unclaim_local (ctx : Ctx) (p : Id) : Option (Err × Ctx) :=
  match findPhys ctx p with
  | none => none
  | some ph =>
    if ph.is_local then
      match renew ph.state with
      | none => none
      | some s' =>
        some (.eOK, updPhys ctx p (fun x => { x with state := s', is_local := false }))
    else some (.eOK, ctx)

/-- `lsdn_virt_disconnect` (lsdn.c:537): unlink from the attachment's
connected-virt list, clear the pointer, renew the virt. -/
def lsdn_virt_disconnect (ctx : Ctx) (vi : Id) : Option Ctx :=
  match findVirt ctx vi with
  | none => none
  | some v =>
    match v.connected_through with
    | none => some ctx
    | some _ =>
      match renew v.state with
      | none => none
      | some s' =>
        some (updVirt ctx vi (fun x => { x with connected_through := none, state := s' }))

/-- `lsdn_virt_connect` (lsdn.c:518).  `allocA` is the attachment `malloc`
outcome inside `find_or_create_attachement`; `allocName` the outcome of
`lsdn_if_set_name` (modelled from the spec: the `lsdn_if` helpers are not under
src/netmodel; per spec §7.1 setting the interface name copies the string and
can only fail with NOMEM).  Note that when `lsdn_if_set_name` fails after a
fresh implicit attachment was created, the attachment stays linked. -/
def lsdn_virt_connect (ctx : Ctx) (vi p : Id) (iface : String)
    (allocA allocName : Bool) : Option (Err × Ctx) :=
  match findVirt ctx vi with
  | none => none
  | some v =>
    match find_or_create_attachement ctx p v.network allocA with
    | none => some (.eNOMEM, ctx)
    | some (a, ctx1) =>
      if ¬ allocName then some (.eNOMEM, ctx1)
      else
        let ctx2 := updVirt ctx1 vi (fun x => { x with connected_if := some iface })
        match lsdn_virt_disconnect ctx2 vi with
        | none => none
        | some ctx3 =>
          match findVirt ctx3 vi with
          | none => none
          | some v3 =>
            match renew v3.state with
            | none => none
            | some s' =>
              some (.eOK,
                updVirt ctx3 vi (fun x =>
                  { x with connected_through := some a, state := s' }))

/-- `lsdn_virt_set_mac` (lsdn.c:546): duplicates the MAC and stores it.
(The source stores the attribute without renewing the virt's state.) -/
def lsdn_virt_set_mac (ctx : Ctx) (vi : Id) (mac : Mac) (allocOk : Bool) :
    Option (Err × Ctx) :=
  match findVirt ctx vi with
  | none => none
  | some _ =>
    if allocOk then
      some (.eOK, updVirt ctx vi (fun x => { x with attr_mac := some mac }))
    else some (.eNOMEM, ctx)

/-- `virt_do_free` (lsdn.c:481): unlink from the connected-virt list (if
connected) and the net's virt list, then give the attachment a chance to be
garbage collected. -/
def virt_do_free (ctx : Ctx) (v : Virt) : Ctx :=
  match v.connected_through with
  | some a => free_pa_if_possible (removeVirt ctx v.vid) a
  | none => removeVirt ctx v.vid

/-- `lsdn_virt_free` (lsdn.c:496): `free_helper` — NEW objects are freed at
once, anything else is marked DELETE for the decommit sweep. -/
def lsdn_virt_free (ctx : Ctx) (vi : Id) : Option Ctx :=
  match findVirt ctx vi with
  | none => none
  | some v =>
    if v.state = .new then some (virt_do_free ctx v)
    else some (updVirt ctx vi (fun x => { x with state := .delete }))

/-- `phys_do_free` (lsdn.c:307). -/
def phys_do_free (ctx : Ctx) (p : Id) : Ctx :=
  removePhys ctx p

/-- `lsdn_phys_free` (lsdn.c:316): disconnect every virt connected through each
attachment, detach each attachment, then `free_helper` on the phys itself. -/
def lsdn_phys_free (ctx : Ctx) (p : Id) : Option Ctx :=
  match findPhys ctx p with
  | none => none
  | some _ =>
    let paIds := (pasOfPhys ctx p).map (fun a => a.aid)
    match paIds.foldlM (fun c ai =>
        let vIds := (connectedVirts c ai).map (fun v => v.vid)
        match vIds.foldlM (fun c2 vi => lsdn_virt_disconnect c2 vi) c with
        | none => none
        | some c2 => some (phys_detach_by_pa c2 ai)) ctx with
    | none => none
    | some ctx1 =>
      match findPhys ctx1 p with
      | none => none
      | some ph =>
        if ph.state = .new then some (phys_do_free ctx1 p)
        else some (updPhys ctx1 p (fun x => { x with state := .delete }))

/-- `net_do_free` (lsdn.c:249): asserts the net has no attachments and no
virts left, then unlinks it. -/
def net_do_free (ctx : Ctx) (n : Id) : Option Ctx :=
  if pasOfNet ctx n ≠ [] then none
  else if virtsOfNet ctx n ≠ [] then none
  else some (removeNet ctx n)

/-- `lsdn_net_free` (lsdn.c:260): free every virt, detach every attachment,
then `free_helper` on the net. -/
def lsdn_net_free (ctx : Ctx) (n : Id) : Option Ctx :=
  match findNet ctx n with
  | none => none
  | some _ =>
    let vIds := (virtsOfNet ctx n).map (fun v => v.vid)
    match vIds.foldlM (fun c vi => lsdn_virt_free c vi) ctx with
    | none => none
    | some ctx1 =>
      let aIds := (pasOfNet ctx1 n).map (fun a => a.aid)
      let ctx2 := aIds.foldl (fun c ai => phys_detach_by_pa c ai) ctx1
      match findNet ctx2 n with
      | none => none
      | some net =>
        if net.state = .new then net_do_free ctx2 n
        else some (updNet ctx2 n (fun x => { x with state := .delete }))

/-- `settings_do_free` (lsdn.c:211): asserts no net uses the settings, then
unlinks it. -/
def settings_do_free (ctx : Ctx) (s : Id) : Option Ctx :=
  if netsOfSettings ctx s ≠ [] then none
  else some (removeSettings ctx s)

/-- `lsdn_settings_free` (lsdn.c:221): free every net using the settings,
then `free_helper` on the settings object. -/
def lsdn_settings_free (ctx : Ctx) (s : Id) : Option Ctx :=
  match findSettings ctx s with
  | none => none
  | some _ =>
    let nIds := (netsOfSettings ctx s).map (fun n => n.nid)
    match nIds.foldlM (fun c ni => lsdn_net_free c ni) ctx with
    | none => none
    | some ctx1 =>
      match findSettings ctx1 s with
      | none => none
      | some st =>
        if st.state = .new then settings_do_free ctx1 s
        else some (updSettings ctx1 s (fun x => { x with state := .delete }))

/-! ## Validation (`lsdn_validate`, lsdn.c:659) -/

/-- The environment: which kernel interface names resolve (`lsdn_if_resolve`). -/
structure Env where
  resolves : String → Bool

/-- Resolution of an `lsdn_if` by name; an unset name does not resolve. -/
def ifResolves (env : Env) : Option String → Bool
  | none => false
  | some s => env.resolves s

/-- Problem reference types (`lsdn_problem_ref_type`). -/
inductive PRef where
  | rIF (name : Option String)
  | rNET (n : Id)
  | rVIRT (v : Id)
  | rPHYS (p : Id)
  | rATTR (a : String)
  | rNETID (x : Nat)
deriving DecidableEq, Repr

/-- Problem codes (`lsdn_problem_code`). -/
inductive PCode where
  | PHYS_NOT_ATTACHED
  | VIRT_NOIF
  | VIRT_DUPATTR
  | NET_DUPID
  | NET_BAD_NETTYPE
  | PHYS_NOATTR
  | PHYS_DUPATTR
deriving DecidableEq, Repr

/-- One reported problem (`lsdn_problem_report` call). -/
structure Problem where
  code : PCode
  refs : List PRef
deriving DecidableEq, Repr

/-- The state-propagation sub-phase at the top of `lsdn_validate`
(lsdn.c:665-683): phys → its attachments, net → its attachments, then
attachment → its connected virts. -/
def propagatePhase (ctx : Ctx) : Ctx :=
  let ctx1 := { ctx with
    pasL := ctx.pasL.map (fun (a : PA) =>
      { a with state := propagate (physOfD ctx a.phys).state a.state }) }
  let ctx2 := { ctx1 with
    pasL := ctx1.pasL.map (fun (a : PA) =>
      { a with state := propagate (netOfD ctx1 a.net).state a.state }) }
  { ctx2 with
    virtsL := ctx2.virtsL.map (fun (v : Virt) =>
      match v.connected_through with
      | some a => { v with state := propagate (paOfD ctx2 a).state v.state }
      | none => v) }

/-- `report_virts` (lsdn.c:567): every to-be-validated virt connected through
the attachment is reported as PHYS_NOT_ATTACHED. -/
def report_virts (ctx : Ctx) (a : PA) : List Problem :=
  (connectedVirts ctx a.aid).filterMap (fun v =>
    if should_be_validated v.state then
      some { code := .PHYS_NOT_ATTACHED,
             refs := [.rVIRT v.vid, .rNET a.net, .rPHYS a.phys] }
    else none)

/-- `validate_virts_pa` (lsdn.c:581): for explicitly attached local
attachments, each to-be-validated virt's interface must resolve.
(The optional `validate_virt` driver hook is modelled as absent.) -/
def validate_virts_pa (env : Env) (ctx : Ctx) (a : PA) : List Problem :=
  (connectedVirts ctx a.aid).filterMap (fun v =>
    if should_be_validated v.state then
      if a.explicitely_attached ∧ (physOfD ctx a.phys).is_local ∧
          ¬ ifResolves env v.connected_if then
        some { code := .VIRT_NOIF, refs := [.rIF v.connected_if, .rVIRT v.vid] }
      else none
    else none)

/-- `validate_virts_net` (lsdn.c:600): within one net, two distinct
to-be-validated virts with the same MAC attribute are a VIRT_DUPATTR problem. -/
def validate_virts_net (ctx : Ctx) (net : Net) : List Problem :=
  (virtsOfNet ctx net.nid).flatMap (fun v1 =>
    if ¬ should_be_validated v1.state ∨ v1.attr_mac = none then []
    else (virtsOfNet ctx net.nid).flatMap (fun v2 =>
      if v1.vid = v2.vid ∨ ¬ should_be_validated v2.state ∨ v2.attr_mac = none then []
      else if v1.attr_mac = v2.attr_mac then
        [{ code := .VIRT_DUPATTR,
           refs := [.rATTR "mac", .rVIRT v1.vid, .rVIRT v2.vid, .rNET net.nid] }]
      else []))

/-- `cross_validate_networks` (lsdn.c:620): duplicate (nettype, vnet_id), and
a STATIC_E2E VXLAN sharing its UDP port with a non-static VXLAN when both
nets have an attachment on a local phys. -/
def cross_validate_networks (ctx : Ctx) (net1 net2 : Net) : List Problem :=
  let s1 := settingsOfD ctx net1.settings
  let s2 := settingsOfD ctx net2.settings
  let dupid :=
    if s1.nettype = s2.nettype ∧ net1.vnet_id = net2.vnet_id then
      [{ code := .NET_DUPID,
         refs := [.rNET net1.nid, .rNET net2.nid, .rNETID net1.vnet_id] }]
    else []
  let check_nettypes :=
    (pasOfNet ctx net1.nid).any (fun a1 => (physOfD ctx a1.phys).is_local) ∧
    (pasOfNet ctx net2.nid).any (fun a2 => (physOfD ctx a2.phys).is_local)
  let badtype :=
    if check_nettypes ∧ s1.nettype = .vxlan ∧ s2.nettype = .vxlan ∧
        s1.switch_type = .staticE2E ∧ s2.switch_type ≠ .staticE2E ∧
        s1.vxlan_port = s2.vxlan_port then
      [{ code := .NET_BAD_NETTYPE, refs := [.rNET net1.nid, .rNET net2.nid] }]
    else []
  dupid ++ badtype

/-- The checks of `lsdn_validate` (lsdn.c:685-729) in source order, on the
post-propagation context.  The optional `validate_pa` driver hook is modelled
as absent. -/
def validateProblems (env : Env) (ctx : Ctx) : List Problem :=
  (ctx.netsL.flatMap (fun net1 =>
    if will_be_deleted net1.state then []
    else
      validate_virts_net ctx net1 ++
      ctx.netsL.flatMap (fun net2 =>
        if net1.nid ≠ net2.nid ∧ ¬ will_be_deleted net2.state then
          cross_validate_networks ctx net1 net2
        else [])))
  ++ ctx.physL.flatMap (fun p =>
    if will_be_deleted p.state then []
    else
      (pasOfPhys ctx p.pid).flatMap (fun a =>
        if ¬ a.explicitely_attached then report_virts ctx a
        else
          (if p.is_local ∧ p.attr_iface = none then
            [{ code := .PHYS_NOATTR, refs := [.rATTR "iface", .rPHYS p.pid, .rNET a.net] }]
          else [])
          ++ validate_virts_pa env ctx a)
      ++ ctx.physL.flatMap (fun q =>
        if p.pid ≠ q.pid ∧ ¬ will_be_deleted q.state then
          match p.attr_ip, q.attr_ip with
          | some ip1, some ip2 =>
            if ip1 = ip2 then
              [{ code := .PHYS_DUPATTR, refs := [.rATTR "ip", .rPHYS p.pid, .rPHYS q.pid] }]
            else []
          | _, _ => []
        else []))

/-- `lsdn_validate` (lsdn.c:659): propagate states, then run the checks;
returns the post-propagation context and the reported problems (whose number
is the context's `problem_count`). -/
def lsdn_validate (env : Env) (ctx : Ctx) : Ctx × List Problem :=
  let ctx1 := propagatePhase ctx
  (ctx1, validateProblems env ctx1)

/-! ## Commit engine (`lsdn_commit`, lsdn.c:936) -/

/-- Observable calls out of the core: the per-net user startup hooks and the
nettype-operation vtable. -/
inductive Ev where
  | startup_hook (net phys : Id)
  | create_pa (pa : Id)
  | add_virt (virt : Id)
  | add_remote_pa (rpa : Id)
  | add_remote_virt (rv : Id)
  | remove_virt (virt : Id)
  | remove_remote_virt (rv : Id)
  | remove_remote_pa (rpa : Id)
  | destroy_pa (pa : Id)
deriving DecidableEq, Repr

/-- The eight nettype-driver mutation operations (everything except the user
startup hooks). -/
def Ev.isNettypeOp : Ev → Bool
  | .startup_hook _ _ => false
  | _ => true

/-- `trigger_startup_hooks` (lsdn.c:918): for every local phys and every
attachment on it, fire the net's user startup hook when one is registered. -/
def trigger_startup_hooks (ctx : Ctx) : List Ev :=
  ctx.physL.flatMap (fun p =>
    if p.is_local then
      (pasOfPhys ctx p.pid).filterMap (fun a =>
        if (settingsOfD ctx (netOfD ctx a.net).settings).has_user_hooks then
          some (.startup_hook a.net p.pid)
        else none)
    else [])

/-- `decommit_virt` (lsdn.c:839): `remove_virt` if the virt was committed,
clear the committed interface, then tear down every remote view of the virt. -/
def decommit_virt (ctx : Ctx) (vi : Id) : Ctx × List Ev :=
  match findVirt ctx vi with
  | none => (ctx, [])
  | some v =>
    let (ctx1, ev1) :=
      match v.committed_to with
      | some _ =>
        (updVirt ctx vi (fun x => { x with committed_to := none, committed_if := none }),
         [Ev.remove_virt vi])
      | none => (ctx, [])
    let views := virtViewsOfVirt ctx1 vi
    ({ ctx1 with rvirtsL := ctx1.rvirtsL.filter (fun r => r.rv_virt ≠ vi) },
     ev1 ++ views.map (fun r => Ev.remove_remote_virt r.rvid))

/-- `decommit_remote_pa` (lsdn.c:874): `remove_remote_pa`, unlink, assert no
remote-virt views remain under the view (assert failure = `none`). -/
def decommit_remote_pa (ctx : Ctx) (r : RemotePA) : Option (Ctx × List Ev) :=
  if remoteVirtsOfRpa ctx r.rid ≠ [] then none
  else
    some ({ ctx with rpasL := ctx.rpasL.filter (fun x => x.rid ≠ r.rid) },
      [Ev.remove_remote_pa r.rid])

/-- Fold a fallible per-id step accumulating events. -/
def foldEvM (f : Ctx → Id → Option (Ctx × List Ev)) :
    List Id → Ctx × List Ev → Option (Ctx × List Ev)
  | [], acc => some acc
  | i :: rest, (c, evs) =>
    match f c i with
    | none => none
    | some (c', evs') => foldEvM f rest (c', evs ++ evs')

/-- One iteration of the view-teardown loops in `decommit_pa`: look the view
up and tear it down. -/
def decommit_remote_pa_step (c : Ctx) (ri : Id) : Option (Ctx × List Ev) :=
  match c.rpasL.find? (fun x => x.rid = ri) with
  | none => some (c, ([] : List Ev))
  | some r => decommit_remote_pa c r

/-- `decommit_pa` (lsdn.c:895): tear down the views in which the attachment is
the remote peer, then its own views of its peers, then `destroy_pa` when its
phys was committed as local. -/
def decommit_pa (ctx : Ctx) (a : PA) : Option (Ctx × List Ev) :=
  match foldEvM decommit_remote_pa_step
      ((paViewsOfRemote ctx a.aid).map (fun r => r.rid)) (ctx, []) with
  | none => none
  | some (ctx1, ev1) =>
    match foldEvM decommit_remote_pa_step
        ((remotePAsOfLocal ctx1 a.aid).map (fun r => r.rid)) (ctx1, ev1) with
    | none => none
    | some (ctx2, ev2) =>
      let ev3 := if (physOfD ctx2 a.phys).commited_as_local then [Ev.destroy_pa a.aid] else []
      some (ctx2, ev2 ++ ev3)

/-- One virt in the decommit sweep (lsdn.c:951-956): `ack_uncommit`, then
`decommit_virt` and — for DELETE — `virt_do_free`. -/
def decommitVirtOne (ctx : Ctx) (vi : Id) : Ctx × List Ev :=
  match findVirt ctx vi with
  | none => (ctx, [])
  | some v =>
    let (b, s') := ack_uncommit v.state
    let ctx1 := updVirt ctx vi (fun x => { x with state := s' })
    if b then
      let (ctx2, evs) := decommit_virt ctx1 vi
      if s' = .delete then
        match findVirt ctx2 vi with
        | some v2 => (virt_do_free ctx2 v2, evs)
        | none => (ctx2, evs)
      else (ctx2, evs)
    else (ctx1, [])

/-- One attachment in the decommit sweep (lsdn.c:957-962). -/
def decommitPAOne (ctx : Ctx) (ai : Id) : Option (Ctx × List Ev) :=
  match findPA ctx ai with
  | none => some (ctx, [])
  | some a =>
    let (b, s') := ack_uncommit a.state
    let ctx1 := updPA ctx ai (fun x => { x with state := s' })
    if b then
      match decommit_pa ctx1 { a with state := s' } with
      | none => none
      | some (ctx2, evs) =>
        if s' = .delete then
          match findPA ctx2 ai with
          | none => some (ctx2, evs)
          | some a2 =>
            match pa_do_free ctx2 a2 with
            | none => none
            | some ctx3 => some (ctx3, evs)
        else some (ctx2, evs)
    else some (ctx1, [])

/-- One net's block of the decommit sweep (lsdn.c:950-965): its virts, then
its attachments, then the net itself. -/
def decommitNetOne (ctx : Ctx) (ni : Id) : Option (Ctx × List Ev) :=
  let vIds := (virtsOfNet ctx ni).map (fun v => v.vid)
  let (ctx1, ev1) := vIds.foldl (fun (acc : Ctx × List Ev) vi =>
    let r := decommitVirtOne acc.1 vi
    (r.1, acc.2 ++ r.2)) (ctx, [])
  let aIds := (pasOfNet ctx1 ni).map (fun a => a.aid)
  match foldEvM decommitPAOne aIds (ctx1, ev1) with
  | none => none
  | some (ctx2, ev2) =>
    match findNet ctx2 ni with
    | none => some (ctx2, ev2)
    | some n =>
      let (b, s') := ack_uncommit n.state
      let ctx3 := updNet ctx2 ni (fun x => { x with state := s' })
      if b ∧ s' = .delete then
        match net_do_free ctx3 ni with
        | none => none
        | some ctx4 => some (ctx4, ev2)
      else some (ctx3, ev2)

/-- The phys part of the decommit sweep (lsdn.c:967-970).  Each loop iteration
touches only the phys at hand (`phys_do_free` just unlinks it), so the loop is
one pass over the list: `ack_uncommit`, and `ack_delete` drops DELETE physes. -/
def sweepPhys (l : List Phys) : List Phys :=
  l.filterMap (fun p =>
    let r := ack_uncommit p.state
    if r.1 ∧ r.2 = .delete then none else some { p with state := r.2 })

/-- The settings part of the decommit sweep (lsdn.c:972-975).  Per-element:
`ack_uncommit`, then `ack_delete` → `settings_do_free`, whose assert that no
net still uses the settings (checked against the post-net-sweep context `ctx`)
aborts the process (`none`). -/
def sweepSettings (ctx : Ctx) : List Settings → Option (List Settings)
  | [] => some []
  | s :: rest =>
    let r := ack_uncommit s.state
    if r.1 ∧ r.2 = .delete then
      if netsOfSettings ctx s.sid ≠ [] then none
      else sweepSettings ctx rest
    else
      match sweepSettings ctx rest with
      | none => none
      | some l => some ({ s with state := r.2 } :: l)

/-- The decommit phase (lsdn.c:949-975): all nets, then physes, then settings. -/
def decommitPhase (ctx : Ctx) : Option (Ctx × List Ev) :=
  let nIds := ctx.netsL.map (fun n => n.nid)
  match foldEvM decommitNetOne nIds (ctx, []) with
  | none => none
  | some (ctx1, ev1) =>
    let ctx2 := { ctx1 with physL := sweepPhys ctx1.physL }
    match sweepSettings ctx2 ctx2.settingsL with
    | none => none
    | some l => some ({ ctx2 with settingsL := l }, ev1)

/-- `commit_pa` (lsdn.c:758): `create_pa` for NEW attachments; `add_virt` for
NEW connected virts (recording the committed interface and attachment);
`add_remote_pa` views of NEW peer attachments; `add_remote_virt` views of NEW
virts behind all of its remote-PA views. -/
def commit_pa (ctx : Ctx) (ai : Id) : Ctx × List Ev :=
  match findPA ctx ai with
  | none => (ctx, [])
  | some pa =>
    let ev0 := if pa.state = .new then [Ev.create_pa ai] else []
    let vIds := (connectedVirts ctx ai).map (fun v => v.vid)
    let r1 := vIds.foldl (fun (acc : Ctx × List Ev) vi =>
      match findVirt acc.1 vi with
      | none => acc
      | some v =>
        if v.state = .new then
          (updVirt acc.1 vi (fun x =>
             { x with committed_to := some ai, committed_if := x.connected_if }),
           acc.2 ++ [Ev.add_virt vi])
        else acc) (ctx, [])
    let remoteIds := ((pasOfNet r1.1 pa.net).filter
      (fun r => r.aid ≠ ai ∧ r.state = .new)).map (fun r => r.aid)
    let r2 := remoteIds.foldl (fun (acc : Ctx × List Ev) ri =>
      let c := acc.1
      ({ c with
         rpasL := c.rpasL ++ [{ rid := c.next_id, rlocal := ai, rremote := ri }],
         next_id := c.next_id + 1 },
       acc.2 ++ [Ev.add_remote_pa c.next_id])) r1
    let rpas := remotePAsOfLocal r2.1 ai
    let r3 := rpas.foldl (fun (acc : Ctx × List Ev) rpa =>
      let wIds := (connectedVirts acc.1 rpa.rremote).map (fun v => v.vid)
      wIds.foldl (fun (acc2 : Ctx × List Ev) wi =>
        match findVirt acc2.1 wi with
        | none => acc2
        | some w =>
          if w.state = .new then
            let c := acc2.1
            ({ c with
               rvirtsL := c.rvirtsL ++ [{ rvid := c.next_id, rv_pa := rpa.rid, rv_virt := wi }],
               next_id := c.next_id + 1 },
             acc2.2 ++ [Ev.add_remote_virt c.next_id])
          else acc2) acc) r2
    (r3.1, ev0 ++ r3.2)

/-- The (re)commit phase (lsdn.c:977-990): every local phys records
`commited_as_local` and commits each of its attachments. -/
def recommitPhase (ctx : Ctx) : Ctx × List Ev :=
  let pIds := ctx.physL.map (fun p => p.pid)
  pIds.foldl (fun (acc : Ctx × List Ev) pi =>
    match findPhys acc.1 pi with
    | none => acc
    | some p =>
      if p.is_local then
        let c1 := updPhys acc.1 pi (fun x => { x with commited_as_local := true })
        let aIds := (pasOfPhys c1 pi).map (fun a => a.aid)
        aIds.foldl (fun (acc2 : Ctx × List Ev) ai =>
          let r := commit_pa acc2.1 ai
          (r.1, acc2.2 ++ r.2)) (c1, acc.2)
      else acc) (ctx, [])

/-- The ack phase (lsdn.c:992-1009): `ack_state` on every settings and phys,
and — walking the nets — on every net, its attachments and its virts. -/
def ackPhase (ctx : Ctx) : Ctx :=
  { ctx with
    settingsL := ctx.settingsL.map (fun s => { s with state := ack_state s.state }),
    physL := ctx.physL.map (fun p => { p with state := ack_state p.state }),
    netsL := ctx.netsL.map (fun n => { n with state := ack_state n.state }),
    pasL := ctx.pasL.map (fun a =>
      if (findNet ctx a.net).isSome then { a with state := ack_state a.state } else a),
    virtsL := ctx.virtsL.map (fun v =>
      if (findNet ctx v.network).isSome then { v with state := ack_state v.state } else v) }

/-- What `lsdn_commit` returns. -/
inductive CommitRet where
  /-- A normal `return` of an error code. -/
  | ret (e : Err)
  /-- The validation-failure path executes `return err;` (lsdn.c:942) although
  the validation result was stored in `lerr`; no declaration of `err` is in
  scope in lsdn.c, so the value returned is not defined by the source. -/
  | retErrIdent
deriving DecidableEq, Repr

/-- `lsdn_commit` (lsdn.c:936): startup hooks, validate (early return on
problems), decommit sweep, recommit, ack; `none` = the process aborted. -/
def lsdn_commit (env : Env) (ctx : Ctx) : Option (CommitRet × Ctx × List Ev) :=
  let evH := trigger_startup_hooks ctx
  let vr := lsdn_validate env ctx
  if vr.2.length ≠ 0 then some (.retErrIdent, vr.1, evH)
  else
    match decommitPhase vr.1 with
    | none => none
    | some (ctx2, evD) =>
      let r := recommitPhase ctx2
      let ctx4 := ackPhase r.1
      some (.ret (if vr.2.length = 0 then .eOK else .eCOMMIT), ctx4, evH ++ evD ++ r.2)

/-! ## The public API as a step relation -/

/-- One call of a public graph-mutation / commit entry point, with its
allocation outcomes. -/
inductive Act where
  | settingsNew (nt : NetType) (sw : SwitchType) (port : Nat) (hooks : Bool) (alloc : Bool)
  | netNew (s : Id) (vnet : Nat) (alloc : Bool)
  | physNew (alloc : Bool)
  | virtNew (n : Id) (alloc : Bool)
  | physAttach (p n : Id) (alloc : Bool)
  | physDetach (p n : Id)
  | physSetIface (p : Id) (iface : String) (alloc : Bool)
  | physClearIface (p : Id)
  | physSetIp (p : Id) (ip : Ip) (alloc : Bool)
  | physClaimLocal (p : Id)
  | physUnclaimLocal (p : Id)
  | physFree (p : Id)
  | virtConnect (v p : Id) (iface : String) (allocA allocName : Bool)
  | virtDisconnect (v : Id)
  | virtSetMac (v : Id) (mac : Mac) (alloc : Bool)
  | virtFree (v : Id)
  | netFree (n : Id)
  | settingsFree (s : Id)
  | validateAct
  | commitAct
deriving DecidableEq, Repr

/-- The resulting graph of one API call (`none` = the process aborted; a
failed allocation in a `_new` entry point merely makes the call return NULL,
leaving the graph alone). -/
def applyAct (env : Env) : Act → Ctx → Option Ctx
  | .settingsNew nt sw port hooks alloc, ctx =>
    match lsdn_settings_new ctx nt sw port hooks alloc with
    | none => some ctx
    | some (_, c) => some c
  | .netNew s vnet alloc, ctx =>
    match lsdn_net_new ctx s vnet alloc with
    | none => some ctx
    | some (_, c) => some c
  | .physNew alloc, ctx =>
    match lsdn_phys_new ctx alloc with
    | none => some ctx
    | some (_, c) => some c
  | .virtNew n alloc, ctx =>
    match lsdn_virt_new ctx n alloc with
    | none => some ctx
    | some (_, c) => some c
  | .physAttach p n alloc, ctx => some (lsdn_phys_attach ctx p n alloc).2
  | .physDetach p n, ctx => some (lsdn_phys_detach ctx p n)
  | .physSetIface p iface alloc, ctx =>
    (lsdn_phys_set_iface ctx p iface alloc).map (fun r => r.2)
  | .physClearIface p, ctx => (lsdn_phys_clear_iface ctx p).map (fun r => r.2)
  | .physSetIp p ip alloc, ctx => (lsdn_phys_set_ip ctx p ip alloc).map (fun r => r.2)
  | .physClaimLocal p, ctx => (lsdn_phys_claim_local ctx p).map (fun r => r.2)
  | .physUnclaimLocal p, ctx => (lsdn_phys_unclaim_local ctx p).map (fun r => r.2)
  | .physFree p, ctx => lsdn_phys_free ctx p
  | .virtConnect v p iface aA aN, ctx =>
    (lsdn_virt_connect ctx v p iface aA aN).map (fun r => r.2)
  | .virtDisconnect v, ctx => lsdn_virt_disconnect ctx v
  | .virtSetMac v mac alloc, ctx => (lsdn_virt_set_mac ctx v mac alloc).map (fun r => r.2)
  | .virtFree v, ctx => lsdn_virt_free ctx v
  | .netFree n, ctx => lsdn_net_free ctx n
  | .settingsFree s, ctx => lsdn_settings_free ctx s
  | .validateAct, ctx => some (lsdn_validate env ctx).1
  | .commitAct, ctx => (lsdn_commit env ctx).map (fun r => r.2.1)

/-- The kinds of stateful graph objects. -/
inductive Kind where
  | kSettings
  | kNet
  | kPhys
  | kPA
  | kVirt
deriving DecidableEq, Repr

/-- Lifecycle state of the object of a given kind and identifier, when it is
(still) in the graph. -/
def stateOf (ctx : Ctx) : Kind → Id → Option St
  | .kSettings, i => (findSettings ctx i).map (fun s => s.state)
  | .kNet, i => (findNet ctx i).map (fun n => n.state)
  | .kPhys, i => (findPhys ctx i).map (fun p => p.state)
  | .kPA, i => (findPA ctx i).map (fun a => a.state)
  | .kVirt, i => (findVirt ctx i).map (fun v => v.state)

/-! ## Well-formedness

These are the representation invariants a context built through the API
enjoys; C relies on them implicitly (pointers are unique and point at live
objects of the right net). -/

/-- Distinct objects have distinct identifiers (pointers). -/
abbrev UniqueIds (ctx : Ctx) : Prop :=
  (ctx.settingsL.map (fun s => s.sid)).Nodup ∧
  (ctx.netsL.map (fun n => n.nid)).Nodup ∧
  (ctx.physL.map (fun p => p.pid)).Nodup ∧
  (ctx.pasL.map (fun a => a.aid)).Nodup ∧
  (ctx.virtsL.map (fun v => v.vid)).Nodup ∧
  (ctx.rpasL.map (fun r => r.rid)).Nodup ∧
  (ctx.rvirtsL.map (fun r => r.rvid)).Nodup

/-- Every identifier in use is below the allocator's next fresh identifier. -/
abbrev FreshIds (ctx : Ctx) : Prop :=
  (∀ s ∈ ctx.settingsL, s.sid < ctx.next_id) ∧
  (∀ n ∈ ctx.netsL, n.nid < ctx.next_id) ∧
  (∀ p ∈ ctx.physL, p.pid < ctx.next_id) ∧
  (∀ a ∈ ctx.pasL, a.aid < ctx.next_id) ∧
  (∀ v ∈ ctx.virtsL, v.vid < ctx.next_id) ∧
  (∀ r ∈ ctx.rpasL, r.rid < ctx.next_id) ∧
  (∀ r ∈ ctx.rvirtsL, r.rvid < ctx.next_id)

/-- A connected virt's attachment is live and belongs to the virt's own
network (the invariant of claim C10). -/
abbrev ConnInv (ctx : Ctx) : Prop :=
  ∀ v ∈ ctx.virtsL, ∀ a, v.connected_through = some a →
    ∃ pa ∈ ctx.pasL, pa.aid = a ∧ pa.net = v.network

/-- Virts and attachments sit in the list of a live net. -/
abbrev NetRefs (ctx : Ctx) : Prop :=
  (∀ v ∈ ctx.virtsL, ∃ n ∈ ctx.netsL, n.nid = v.network) ∧
  (∀ a ∈ ctx.pasL, ∃ n ∈ ctx.netsL, n.nid = a.net)

/-- The combined representation invariant. -/
abbrev WF (ctx : Ctx) : Prop :=
  UniqueIds ctx ∧ FreshIds ctx ∧ NetRefs ctx ∧ ConnInv ctx

/-- Every net's settings object is live. -/
abbrev SettingsRefs (ctx : Ctx) : Prop :=
  ∀ n ∈ ctx.netsL, ∃ s ∈ ctx.settingsL, s.sid = n.settings

/-- Every stateful object of the graph is in lifecycle state OK. -/
abbrev AllOK (ctx : Ctx) : Prop :=
  (∀ s ∈ ctx.settingsL, s.state = .ok) ∧
  (∀ n ∈ ctx.netsL, n.state = .ok) ∧
  (∀ p ∈ ctx.physL, p.state = .ok) ∧
  (∀ a ∈ ctx.pasL, a.state = .ok) ∧
  (∀ v ∈ ctx.virtsL, v.state = .ok)

/-- No stateful object of the graph is in lifecycle state DELETE. -/
abbrev NoDelete (ctx : Ctx) : Prop :=
  (∀ s ∈ ctx.settingsL, s.state ≠ .delete) ∧
  (∀ n ∈ ctx.netsL, n.state ≠ .delete) ∧
  (∀ p ∈ ctx.physL, p.state ≠ .delete) ∧
  (∀ a ∈ ctx.pasL, a.state ≠ .delete) ∧
  (∀ v ∈ ctx.virtsL, v.state ≠ .delete)

/-! Sub-structure relations: the primed list holds a subset of the other's
objects, each carried over with its non-lifecycle attributes intact and coming
from a non-DELETE original.  The decommit sweep produces exactly such
subsets. -/

abbrev SubSettings (l' l : List Settings) : Prop :=
  ∀ s' ∈ l', ∃ s ∈ l, s.sid = s'.sid ∧ s.nettype = s'.nettype ∧
    s.switch_type = s'.switch_type ∧ s.vxlan_port = s'.vxlan_port ∧
    s.has_user_hooks = s'.has_user_hooks ∧ s.state ≠ .delete

abbrev SubNets (l' l : List Net) : Prop :=
  ∀ n' ∈ l', ∃ n ∈ l, n.nid = n'.nid ∧ n.settings = n'.settings ∧
    n.vnet_id = n'.vnet_id ∧ n.state ≠ .delete

abbrev SubPhys (l' l : List Phys) : Prop :=
  ∀ p' ∈ l', ∃ p ∈ l, p.pid = p'.pid ∧ p.attr_iface = p'.attr_iface ∧
    p.attr_ip = p'.attr_ip ∧ p.is_local = p'.is_local ∧ p.state ≠ .delete

abbrev SubPAs (l' l : List PA) : Prop :=
  ∀ a' ∈ l', ∃ a ∈ l, a.aid = a'.aid ∧ a.net = a'.net ∧ a.phys = a'.phys ∧
    a.explicitely_attached = a'.explicitely_attached ∧ a.state ≠ .delete

/-! ## Concrete example contexts

Each is built through the public API from the empty context (the `mk...`
definitions show the exact call sequence), so all of them are reachable
graphs. -/

/-- An environment in which every interface name resolves. -/
def envAll : Env := ⟨fun _ => true⟩

/-- Single-host direct-net scenario (spec §8): settings 0, net 1, local phys 2
with iface, explicit attachment 3, virt 4 with a MAC, connected. -/
def mkSingleHost : Option Ctx := do
  let (s, c) ← lsdn_settings_new Ctx.empty .direct .learning 0 false true
  let (n, c) ← lsdn_net_new c s 0 true
  let (p, c) ← lsdn_phys_new c true
  let (_, c) ← lsdn_phys_set_iface c p "eth0" true
  let (_, c) ← lsdn_phys_claim_local c p
  let (_, c) := lsdn_phys_attach c p n true
  let (v, c) ← lsdn_virt_new c n true
  let (_, c) ← lsdn_virt_set_mac c v 1 true
  let (_, c) ← lsdn_virt_connect c v p "tap0" true true
  pure c

def ctxSingleHost : Ctx := mkSingleHost.getD Ctx.empty

/-- The single-host scenario after its first successful commit. -/
def ctxSingleHostC : Ctx :=
  ((lsdn_commit envAll ctxSingleHost).map (fun r => r.2.1)).getD Ctx.empty

/-- Two fresh virts (2 and 3) of one net with the same MAC. -/
def mkDupMacNew : Option Ctx := do
  let (s, c) ← lsdn_settings_new Ctx.empty .direct .learning 0 false true
  let (n, c) ← lsdn_net_new c s 0 true
  let (v1, c) ← lsdn_virt_new c n true
  let (v2, c) ← lsdn_virt_new c n true
  let (_, c) ← lsdn_virt_set_mac c v1 7 true
  let (_, c) ← lsdn_virt_set_mac c v2 7 true
  pure c

def ctxDupMacNew : Ctx := mkDupMacNew.getD Ctx.empty

/-- Two virts (2 and 3) committed with distinct MACs, then both MACs set to 9
after the commit: two non-deleted (OK) virts of one net with equal MACs. -/
def mkDupMacCommitted : Option Ctx := do
  let (s, c) ← lsdn_settings_new Ctx.empty .direct .learning 0 false true
  let (n, c) ← lsdn_net_new c s 0 true
  let (v1, c) ← lsdn_virt_new c n true
  let (v2, c) ← lsdn_virt_new c n true
  let (_, c) ← lsdn_virt_set_mac c v1 7 true
  let (_, c) ← lsdn_virt_set_mac c v2 8 true
  let (_, c, _) ← lsdn_commit envAll c
  let (_, c) ← lsdn_virt_set_mac c v1 9 true
  let (_, c) ← lsdn_virt_set_mac c v2 9 true
  pure c

def ctxDupMacCommitted : Ctx := mkDupMacCommitted.getD Ctx.empty

/-- A virt (3) connected through a phys (2) that was never attached — the
attachment 4 is implicit — and the phys is *not* local. -/
def mkImplicitNonLocal : Option Ctx := do
  let (s, c) ← lsdn_settings_new Ctx.empty .direct .learning 0 false true
  let (n, c) ← lsdn_net_new c s 0 true
  let (p, c) ← lsdn_phys_new c true
  let (v, c) ← lsdn_virt_new c n true
  let (_, c) ← lsdn_virt_connect c v p "tap0" true true
  pure c

def ctxImplicitNonLocal : Ctx := mkImplicitNonLocal.getD Ctx.empty

/-- A local phys (2) whose explicit attachment 3 carried a committed virt (4),
then was detached (leaving it implicit-only, virt 4 still connected in state
OK), and a fresh virt (5) was connected through it. -/
def mkImplicitLocalMixed : Option Ctx := do
  let (s, c) ← lsdn_settings_new Ctx.empty .direct .learning 0 false true
  let (n, c) ← lsdn_net_new c s 0 true
  let (p, c) ← lsdn_phys_new c true
  let (_, c) ← lsdn_phys_set_iface c p "eth0" true
  let (_, c) ← lsdn_phys_claim_local c p
  let (_, c) := lsdn_phys_attach c p n true
  let (v2, c) ← lsdn_virt_new c n true
  let (_, c) ← lsdn_virt_connect c v2 p "tap0" true true
  let (_, c, _) ← lsdn_commit envAll c
  let c := lsdn_phys_detach c p n
  let (v1, c) ← lsdn_virt_new c n true
  let (_, c) ← lsdn_virt_connect c v1 p "tap1" true true
  pure c

def ctxImplicitLocalMixed : Ctx := mkImplicitLocalMixed.getD Ctx.empty

/-- A committed explicit attachment (3) of a local phys (2) with no connected
virt. -/
def mkCommittedEmptyPA : Option Ctx := do
  let (s, c) ← lsdn_settings_new Ctx.empty .direct .learning 0 false true
  let (n, c) ← lsdn_net_new c s 0 true
  let (p, c) ← lsdn_phys_new c true
  let (_, c) ← lsdn_phys_set_iface c p "eth0" true
  let (_, c) ← lsdn_phys_claim_local c p
  let (_, c) := lsdn_phys_attach c p n true
  let (_, c, _) ← lsdn_commit envAll c
  pure c

def ctxCommittedEmptyPA : Ctx := mkCommittedEmptyPA.getD Ctx.empty

/-- A net (1), a phys (2) not attached to it, and an unconnected virt (3):
the starting point for a `lsdn_virt_connect` whose interface-name allocation
fails. -/
def mkConnNomem : Option Ctx := do
  let (s, c) ← lsdn_settings_new Ctx.empty .direct .learning 0 false true
  let (n, c) ← lsdn_net_new c s 0 true
  let (_, c) ← lsdn_phys_new c true
  let (_, c) ← lsdn_virt_new c n true
  pure c

def ctxConnNomem : Ctx := mkConnNomem.getD Ctx.empty

/-- The committed single-host scenario after `lsdn_virt_free` on its (OK)
virt 4: the virt is marked DELETE and awaits the next commit. -/
def ctxVirtDel : Ctx := (lsdn_virt_free ctxSingleHostC 4).getD Ctx.empty

/-! ## Valid call sequences -/

/-- The liveness precondition of a call site (a valid object handle): creating
a virt in, or attaching to, a net passes a `struct lsdn_net *`, so the net
must be live.  Every other argument either is checked by the entry point
itself or does not affect the graph's well-formedness. -/
def ActPre (ctx : Ctx) : Act → Prop
  | .virtNew n _ => (findNet ctx n).isSome
  | .physAttach _ n _ => (findNet ctx n).isSome
  | _ => True

/-- The contexts reachable from a fresh `lsdn_context_new` context through
valid API calls. -/
inductive Reach (env : Env) : Ctx → Prop where
  | empty : Reach env Ctx.empty
  | step {c c' : Ctx} {a : Act} : Reach env c → ActPre c a →
      applyAct env a c = some c' → Reach env c'

/-- `ActPre` as a boolean check. -/
def ActPreB (ctx : Ctx) : Act → Bool
  | .virtNew n _ => (findNet ctx n).isSome
  | .physAttach _ n _ => (findNet ctx n).isSome
  | _ => true

/-- Run a whole call sequence, checking each call's precondition. -/
def applyActsOK (env : Env) : List Act → Ctx → Option Ctx
  | [], c => some c
  | a :: rest, c =>
    if ActPreB c a then
      match applyAct env a c with
      | none => none
      | some c' => applyActsOK env rest c'
    else none

/-- The call sequence building the single-host scenario. -/
def stepsSingleHost : List Act := [
  .settingsNew .direct .learning 0 false true,
  .netNew 0 0 true,
  .physNew true,
  .physSetIface 2 "eth0" true,
  .physClaimLocal 2,
  .physAttach 2 1 true,
  .virtNew 1 true,
  .virtSetMac 4 1 true,
  .virtConnect 4 2 "tap0" true true]

/-! ## Helper lemmas: point updates, removals, lookups -/

theorem mem_updVirt_of_ne {ctx : Ctx} {i : Id} {f : Virt → Virt} {w : Virt}
    (hw : w ∈ ctx.virtsL) (hne : w.vid ≠ i) : w ∈ (updVirt ctx i f).virtsL := by
  simp only [updVirt, List.mem_map]
  exact ⟨w, hw, by simp [hne]⟩

theorem mem_of_mem_updVirt_ne {ctx : Ctx} {i : Id} {f : Virt → Virt}
    (hf : ∀ v, (f v).vid = v.vid) {w : Virt}
    (hw : w ∈ (updVirt ctx i f).virtsL) (hne : w.vid ≠ i) : w ∈ ctx.virtsL := by
  simp only [updVirt, List.mem_map] at hw
  obtain ⟨v, hv, hmap⟩ := hw
  by_cases h : v.vid = i
  · rw [if_pos h] at hmap
    exact absurd (by rw [← hmap, hf v, h]) hne
  · rw [if_neg h] at hmap
    exact hmap ▸ hv

theorem mem_updPA_of_ne {ctx : Ctx} {i : Id} {f : PA → PA} {a : PA}
    (ha : a ∈ ctx.pasL) (hne : a.aid ≠ i) : a ∈ (updPA ctx i f).pasL := by
  simp only [updPA, List.mem_map]
  exact ⟨a, ha, by simp [hne]⟩

theorem mem_of_mem_updPA_ne {ctx : Ctx} {i : Id} {f : PA → PA}
    (hf : ∀ a, (f a).aid = a.aid) {b : PA}
    (hb : b ∈ (updPA ctx i f).pasL) (hne : b.aid ≠ i) : b ∈ ctx.pasL := by
  simp only [updPA, List.mem_map] at hb
  obtain ⟨a, ha, hmap⟩ := hb
  by_cases h : a.aid = i
  · rw [if_pos h] at hmap
    exact absurd (by rw [← hmap, hf a, h]) hne
  · rw [if_neg h] at hmap
    exact hmap ▸ ha

theorem updVirt_vids (ctx : Ctx) (i : Id) (f : Virt → Virt)
    (hf : ∀ v, (f v).vid = v.vid) :
    (updVirt ctx i f).virtsL.map (fun v => v.vid) = ctx.virtsL.map (fun v => v.vid) := by
  simp only [updVirt, List.map_map]
  refine List.map_congr_left (fun v _ => ?_)
  by_cases h : v.vid = i <;> simp [h, hf]

theorem updPA_aids (ctx : Ctx) (i : Id) (f : PA → PA)
    (hf : ∀ a, (f a).aid = a.aid) :
    (updPA ctx i f).pasL.map (fun a => a.aid) = ctx.pasL.map (fun a => a.aid) := by
  simp only [updPA, List.map_map]
  refine List.map_congr_left (fun a _ => ?_)
  by_cases h : a.aid = i <;> simp [h, hf]

theorem removeVirt_subset {ctx : Ctx} {i : Id} {w : Virt}
    (hw : w ∈ (removeVirt ctx i).virtsL) : w ∈ ctx.virtsL := by
  simp only [removeVirt, List.mem_filter] at hw
  exact hw.1

theorem mem_removeVirt_of_ne {ctx : Ctx} {i : Id} {w : Virt}
    (hw : w ∈ ctx.virtsL) (hne : w.vid ≠ i) : w ∈ (removeVirt ctx i).virtsL := by
  simp only [removeVirt, List.mem_filter]
  exact ⟨hw, by simpa using hne⟩

theorem removePA_subset {ctx : Ctx} {i : Id} {a : PA}
    (ha : a ∈ (removePA ctx i).pasL) : a ∈ ctx.pasL := by
  simp only [removePA, List.mem_filter] at ha
  exact ha.1

theorem mem_removePA_of_ne {ctx : Ctx} {i : Id} {a : PA}
    (ha : a ∈ ctx.pasL) (hne : a.aid ≠ i) : a ∈ (removePA ctx i).pasL := by
  simp only [removePA, List.mem_filter]
  exact ⟨ha, by simpa using hne⟩

/-- A `Nodup` id map survives a filter. -/
theorem nodup_map_filter {α : Type} (g : α → Id) (p : α → Bool) (l : List α)
    (h : (l.map g).Nodup) : ((l.filter p).map g).Nodup :=
  h.sublist (List.Sublist.map g (List.filter_sublist l))

/-! ## Characterising `free_pa_if_possible` and `virt_do_free` -/

/-- `free_pa_if_possible` either leaves the context alone, or — when the
attachment `i` is live, implicit and without connected virts — removes it
(state NEW) or marks it DELETE. -/
theorem free_pa_if_possible_cases (c : Ctx) (i : Id) :
    free_pa_if_possible c i = c ∨
    (∃ a ∈ c.pasL, a.aid = i ∧ connectedVirts c i = [] ∧ a.explicitely_attached = false ∧
      ((a.state = .new ∧ free_pa_if_possible c i = removePA c i) ∨
       (a.state ≠ .new ∧
         free_pa_if_possible c i = updPA c i (fun x => { x with state := .delete })))) := by
  cases hfind : findPA c i with
  | none =>
    left
    unfold free_pa_if_possible
    rw [hfind]
  | some a =>
    have hmem : a ∈ c.pasL := List.mem_of_find?_eq_some hfind
    have haid : a.aid = i := by
      have := List.find?_some hfind
      simpa using this
    unfold free_pa_if_possible
    rw [hfind]
    dsimp only
    by_cases hguard : connectedVirts c a.aid = [] ∧ ¬ a.explicitely_attached = true
    · rw [if_pos hguard]
      refine Or.inr ⟨a, hmem, haid, haid ▸ hguard.1, by simpa using hguard.2, ?_⟩
      by_cases hnew : a.state = .new
      · rw [if_pos hnew]
        refine Or.inl ⟨hnew, ?_⟩
        unfold pa_do_free
        rw [if_neg (by simp [hguard.1]), if_neg (by simpa using hguard.2)]
        simp [haid]
      · rw [if_neg hnew]
        exact Or.inr ⟨hnew, rfl⟩
    · rw [if_neg hguard]
      exact Or.inl rfl

/-- `free_pa_if_possible` only touches the attachment list. -/
theorem free_pa_if_possible_frames (c : Ctx) (i : Id) :
    (free_pa_if_possible c i).settingsL = c.settingsL ∧
    (free_pa_if_possible c i).netsL = c.netsL ∧
    (free_pa_if_possible c i).physL = c.physL ∧
    (free_pa_if_possible c i).virtsL = c.virtsL ∧
    (free_pa_if_possible c i).rpasL = c.rpasL ∧
    (free_pa_if_possible c i).rvirtsL = c.rvirtsL ∧
    (free_pa_if_possible c i).next_id = c.next_id := by
  rcases free_pa_if_possible_cases c i with h | ⟨a, _, _, _, _, ⟨_, h⟩ | ⟨_, h⟩⟩ <;>
    rw [h] <;> simp [removePA, updPA]

/-! ## Invariant preservation under the atomic graph edits -/

theorem connectedVirts_eq_nil_iff {c : Ctx} {i : Id} :
    connectedVirts c i = [] ↔ ∀ v ∈ c.virtsL, ¬ v.connected_through = some i := by
  simp [connectedVirts, List.filter_eq_nil_iff]

/-- A state-only virt update preserves every structural invariant. -/
theorem uniqueIds_updVirt {c : Ctx} {i : Id} {f : Virt → Virt}
    (hf : ∀ v, (f v).vid = v.vid) (h : UniqueIds c) : UniqueIds (updVirt c i f) := by
  obtain ⟨h1, h2, h3, h4, h5, h6, h7⟩ := h
  exact ⟨h1, h2, h3, h4, by rw [updVirt_vids c i f hf]; exact h5, h6, h7⟩

theorem uniqueIds_updPA {c : Ctx} {i : Id} {f : PA → PA}
    (hf : ∀ a, (f a).aid = a.aid) (h : UniqueIds c) : UniqueIds (updPA c i f) := by
  obtain ⟨h1, h2, h3, h4, h5, h6, h7⟩ := h
  exact ⟨h1, h2, h3, by rw [updPA_aids c i f hf]; exact h4, h5, h6, h7⟩

theorem uniqueIds_removeVirt {c : Ctx} {i : Id} (h : UniqueIds c) :
    UniqueIds (removeVirt c i) := by
  obtain ⟨h1, h2, h3, h4, h5, h6, h7⟩ := h
  exact ⟨h1, h2, h3, h4, nodup_map_filter _ _ _ h5, h6, h7⟩

theorem uniqueIds_removePA {c : Ctx} {i : Id} (h : UniqueIds c) :
    UniqueIds (removePA c i) := by
  obtain ⟨h1, h2, h3, h4, h5, h6, h7⟩ := h
  exact ⟨h1, h2, h3, nodup_map_filter _ _ _ h4, h5, h6, h7⟩

theorem uniqueIds_filter_rvirts {c : Ctx} {p : RemoteVirt → Bool} (h : UniqueIds c) :
    UniqueIds { c with rvirtsL := c.rvirtsL.filter p } := by
  obtain ⟨h1, h2, h3, h4, h5, h6, h7⟩ := h
  exact ⟨h1, h2, h3, h4, h5, h6, nodup_map_filter _ _ _ h7⟩

theorem uniqueIds_filter_rpas {c : Ctx} {p : RemotePA → Bool} (h : UniqueIds c) :
    UniqueIds { c with rpasL := c.rpasL.filter p } := by
  obtain ⟨h1, h2, h3, h4, h5, h6, h7⟩ := h
  exact ⟨h1, h2, h3, h4, h5, nodup_map_filter _ _ _ h6, h7⟩

/-- A virt update that keeps the connection data preserves `ConnInv`. -/
theorem connInv_updVirt {c : Ctx} {i : Id} {f : Virt → Virt}
    (hf : ∀ v, (f v).network = v.network ∧ (f v).connected_through = v.connected_through)
    (h : ConnInv c) : ConnInv (updVirt c i f) := by
  intro w hw a hwa
  simp only [updVirt, List.mem_map] at hw
  obtain ⟨v, hv, hmap⟩ := hw
  have hva : v.connected_through = some a ∧ v.network = w.network := by
    by_cases hc : v.vid = i
    · rw [if_pos hc] at hmap
      subst hmap
      exact ⟨by rw [← (hf v).2]; exact hwa, ((hf v).1).symm⟩
    · rw [if_neg hc] at hmap
      subst hmap
      exact ⟨hwa, rfl⟩
  obtain ⟨pa, hpa, hpaid, hpanet⟩ := h v hv a hva.1
  exact ⟨pa, hpa, hpaid, by rw [hpanet, hva.2]⟩

theorem connInv_removeVirt {c : Ctx} {i : Id} (h : ConnInv c) :
    ConnInv (removeVirt c i) := by
  intro w hw a hwa
  exact h w (removeVirt_subset hw) a hwa

/-- An id-, net- and virt-list-preserving attachment update preserves `ConnInv`. -/
theorem connInv_updPA {c : Ctx} {i : Id} {f : PA → PA}
    (hf : ∀ a, (f a).aid = a.aid ∧ (f a).net = a.net) (h : ConnInv c) :
    ConnInv (updPA c i f) := by
  intro w hw a hwa
  obtain ⟨pa, hpa, hpaid, hpanet⟩ := h w hw a hwa
  by_cases hc : pa.aid = i
  · refine ⟨f pa, ?_, by rw [(hf pa).1]; exact hpaid, by rw [(hf pa).2]; exact hpanet⟩
    simp only [updPA, List.mem_map]
    exact ⟨pa, hpa, by rw [if_pos hc]⟩
  · exact ⟨pa, mem_updPA_of_ne hpa hc, hpaid, hpanet⟩

/-- Removing an attachment through which no virt is connected preserves `ConnInv`. -/
theorem connInv_removePA {c : Ctx} {i : Id}
    (hempty : connectedVirts c i = []) (h : ConnInv c) : ConnInv (removePA c i) := by
  intro w hw a hwa
  obtain ⟨pa, hpa, hpaid, hpanet⟩ := h w hw a hwa
  have hne : pa.aid ≠ i := by
    intro heq
    have := connectedVirts_eq_nil_iff.1 hempty w hw
    rw [← heq, hpaid] at this
    exact this hwa
  exact ⟨pa, mem_removePA_of_ne hpa hne, hpaid, hpanet⟩

theorem netRefs_updVirt {c : Ctx} {i : Id} {f : Virt → Virt}
    (hf : ∀ v, (f v).network = v.network) (h : NetRefs c) : NetRefs (updVirt c i f) := by
  obtain ⟨hv, hp⟩ := h
  constructor
  · intro w hw
    simp only [updVirt, List.mem_map] at hw
    obtain ⟨v, hmem, hmap⟩ := hw
    obtain ⟨n, hn, hnn⟩ := hv v hmem
    refine ⟨n, hn, ?_⟩
    by_cases hc : v.vid = i
    · rw [if_pos hc] at hmap
      rw [← hmap, hf v]
      exact hnn
    · rw [if_neg hc] at hmap
      rw [← hmap]
      exact hnn
  · exact hp

theorem netRefs_removeVirt {c : Ctx} {i : Id} (h : NetRefs c) : NetRefs (removeVirt c i) :=
  ⟨fun w hw => h.1 w (removeVirt_subset hw), h.2⟩

theorem netRefs_updPA {c : Ctx} {i : Id} {f : PA → PA}
    (hf : ∀ a, (f a).net = a.net) (h : NetRefs c) : NetRefs (updPA c i f) := by
  obtain ⟨hv, hp⟩ := h
  refine ⟨hv, fun b hb => ?_⟩
  simp only [updPA, List.mem_map] at hb
  obtain ⟨a, hmem, hmap⟩ := hb
  obtain ⟨n, hn, hnn⟩ := hp a hmem
  refine ⟨n, hn, ?_⟩
  by_cases hc : a.aid = i
  · rw [if_pos hc] at hmap
    rw [← hmap, hf a]
    exact hnn
  · rw [if_neg hc] at hmap
    rw [← hmap]
    exact hnn

theorem netRefs_removePA {c : Ctx} {i : Id} (h : NetRefs c) : NetRefs (removePA c i) :=
  ⟨h.1, fun a ha => h.2 a (removePA_subset ha)⟩

/-- Members of a list with `Nodup` ids and the same id are equal. -/
theorem eq_of_mem_nodup_vid {l : List Virt} (h : (l.map (fun v => v.vid)).Nodup)
    {v w : Virt} (hv : v ∈ l) (hw : w ∈ l) (hid : v.vid = w.vid) : v = w :=
  List.inj_on_of_nodup_map h hv hw hid

theorem eq_of_mem_nodup_aid {l : List PA} (h : (l.map (fun a => a.aid)).Nodup)
    {a b : PA} (ha : a ∈ l) (hb : b ∈ l) (hid : a.aid = b.aid) : a = b :=
  List.inj_on_of_nodup_map h ha hb hid

/-! Transport of the structural invariants across contexts with related lists. -/

theorem uniqueIds_of_eqs {c c' : Ctx} (h : UniqueIds c)
    (hs : c'.settingsL = c.settingsL) (hn : c'.netsL = c.netsL)
    (hp : c'.physL = c.physL) (hpa : c'.pasL = c.pasL)
    (hv : c'.virtsL.map (fun v => v.vid) = c.virtsL.map (fun v => v.vid))
    (hrpa : c'.rpasL = c.rpasL)
    (hrv : ∃ p : RemoteVirt → Bool, c'.rvirtsL = c.rvirtsL.filter p) : UniqueIds c' := by
  obtain ⟨h1, h2, h3, h4, h5, h6, h7⟩ := h
  obtain ⟨p, hp'⟩ := hrv
  exact ⟨by rw [hs]; exact h1, by rw [hn]; exact h2, by rw [hp]; exact h3,
    by rw [hpa]; exact h4, by rw [hv]; exact h5, by rw [hrpa]; exact h6,
    by rw [hp']; exact nodup_map_filter _ _ _ h7⟩

theorem connInv_of_eqs {c c' : Ctx} (h : ConnInv c) (hpa : c'.pasL = c.pasL)
    (hv : ∀ w ∈ c'.virtsL, ∃ w0 ∈ c.virtsL,
      w.network = w0.network ∧ w.connected_through = w0.connected_through) :
    ConnInv c' := by
  intro w hw a hwa
  obtain ⟨w0, hw0, hnet, hct⟩ := hv w hw
  obtain ⟨pa, hpa0, hid, hn⟩ := h w0 hw0 a (by rw [← hct]; exact hwa)
  exact ⟨pa, by rw [hpa]; exact hpa0, hid, by rw [hn, hnet]⟩

theorem netRefs_of_eqs {c c' : Ctx} (h : NetRefs c)
    (hn : c'.netsL = c.netsL) (hpa : c'.pasL = c.pasL)
    (hv : ∀ w ∈ c'.virtsL, ∃ w0 ∈ c.virtsL, w.network = w0.network) : NetRefs c' := by
  constructor
  · intro w hw
    obtain ⟨w0, hw0, hnet⟩ := hv w hw
    obtain ⟨n, hnm, hnn⟩ := h.1 w0 hw0
    exact ⟨n, by rw [hn]; exact hnm, by rw [hnn, hnet]⟩
  · intro a ha
    obtain ⟨n, hnm, hnn⟩ := h.2 a (by rw [← hpa]; exact ha)
    exact ⟨n, by rw [hn]; exact hnm, hnn⟩

/-! ## The virt part of a net's decommit block -/

/-- What the decommit machinery of net `ni`'s block does to the graph while
processing the virts listed in `vis` (without yet constraining the lifecycle
states it leaves behind). -/
structure VPre (ni : Id) (vis : List Id) (c c' : Ctx) : Prop where
  settings_eq : c'.settingsL = c.settingsL
  nets_eq : c'.netsL = c.netsL
  phys_eq : c'.physL = c.physL
  rpas_eq : c'.rpasL = c.rpasL
  next_eq : c'.next_id = c.next_id
  virt_mem_of : ∀ w ∈ c'.virtsL, w.vid ∉ vis → w ∈ c.virtsL
  virt_mem_to : ∀ w ∈ c.virtsL, w.vid ∉ vis → w ∈ c'.virtsL
  virt_src : ∀ w ∈ c'.virtsL, ∃ w0 ∈ c.virtsL, w0.vid = w.vid ∧ w0.network = w.network
  pa_evolve : ∀ a ∈ c'.pasL, a ∈ c.pasL ∨
    (a.net = ni ∧ a.state = .delete ∧ ∃ a0 ∈ c.pasL, a0.aid = a.aid ∧ a0.net = a.net ∧
      a0.phys = a.phys ∧ a0.explicitely_attached = a.explicitely_attached)
  pa_keep : ∀ a ∈ c.pasL, a.net ≠ ni → a ∈ c'.pasL
  uq : UniqueIds c'
  cn : ConnInv c'
  nr : NetRefs c'

/-- `VPre` together with the guarantee that every processed surviving virt is
out of the DELETE state and descends from a non-DELETE original. -/
structure VStep (ni : Id) (vis : List Id) (c c' : Ctx) extends VPre ni vis c c' : Prop where
  virt_proc : ∀ w ∈ c'.virtsL, w.vid ∈ vis →
    w.state ≠ .delete ∧ ∃ w0 ∈ c.virtsL, w0.vid = w.vid ∧ w0.state ≠ .delete

theorem vstep_nil {ni : Id} {c : Ctx}
    (hU : UniqueIds c) (hC : ConnInv c) (hN : NetRefs c) : VStep ni [] c c where
  settings_eq := rfl
  nets_eq := rfl
  phys_eq := rfl
  rpas_eq := rfl
  next_eq := rfl
  virt_mem_of := fun w hw _ => hw
  virt_mem_to := fun w hw _ => hw
  virt_src := fun w hw => ⟨w, hw, rfl, rfl⟩
  pa_evolve := fun a ha => Or.inl ha
  pa_keep := fun a ha _ => ha
  uq := hU
  cn := hC
  nr := hN
  virt_proc := fun _ _ hin => absurd hin (List.not_mem_nil _)

theorem vstep_cons {ni vi : Id} {rest : List Id} {c c1 c2 : Ctx}
    (h1 : VStep ni [vi] c c1) (h2 : VStep ni rest c1 c2) :
    VStep ni (vi :: rest) c c2 where
  settings_eq := by rw [h2.settings_eq, h1.settings_eq]
  nets_eq := by rw [h2.nets_eq, h1.nets_eq]
  phys_eq := by rw [h2.phys_eq, h1.phys_eq]
  rpas_eq := by rw [h2.rpas_eq, h1.rpas_eq]
  next_eq := by rw [h2.next_eq, h1.next_eq]
  virt_mem_of := by
    intro w hw hnin
    simp only [List.mem_cons, not_or] at hnin
    exact h1.virt_mem_of w (h2.virt_mem_of w hw hnin.2) (by simpa using hnin.1)
  virt_mem_to := by
    intro w hw hnin
    simp only [List.mem_cons, not_or] at hnin
    exact h2.virt_mem_to w (h1.virt_mem_to w hw (by simpa using hnin.1)) hnin.2
  virt_src := by
    intro w hw
    obtain ⟨w1, hw1, hv1, hn1⟩ := h2.virt_src w hw
    obtain ⟨w0, hw0, hv0, hn0⟩ := h1.virt_src w1 hw1
    exact ⟨w0, hw0, by rw [hv0, hv1], by rw [hn0, hn1]⟩
  pa_evolve := by
    intro a ha
    rcases h2.pa_evolve a ha with h | ⟨hnet, hst, a1, ha1, hfields⟩
    · exact h1.pa_evolve a h
    · rcases h1.pa_evolve a1 ha1 with h | ⟨hnet1, hst1, a0, ha0, f0⟩
      · exact Or.inr ⟨hnet, hst, a1, h, hfields⟩
      · exact Or.inr ⟨hnet, hst, a0, ha0,
          by rw [f0.1, hfields.1], by rw [f0.2.1, hfields.2.1],
          by rw [f0.2.2.1, hfields.2.2.1], by rw [f0.2.2.2, hfields.2.2.2]⟩
  pa_keep := by
    intro a ha hne
    exact h2.pa_keep a (h1.pa_keep a ha hne) hne
  uq := h2.uq
  cn := h2.cn
  nr := h2.nr
  virt_proc := by
    intro w hw hin
    rcases List.mem_cons.1 hin with heq | hrest
    · by_cases hr : w.vid ∈ rest
      · obtain ⟨hst, w1, hw1, hvid, hst1⟩ := h2.virt_proc w hw hr
        refine ⟨hst, ?_⟩
        by_cases hv1 : w1.vid = vi
        · obtain ⟨_, w0, hw0, hvid0, hst0⟩ :=
            h1.virt_proc w1 hw1 (by simp [hv1])
          exact ⟨w0, hw0, by rw [hvid0, hvid], hst0⟩
        · exact ⟨w1, h1.virt_mem_of w1 hw1 (by simpa using hv1), hvid, hst1⟩
      · have hw1 : w ∈ c1.virtsL := h2.virt_mem_of w hw hr
        obtain ⟨hst, w0, hw0, hvid0, hst0⟩ := h1.virt_proc w hw1 (by simp [heq])
        exact ⟨hst, w0, hw0, hvid0, hst0⟩
    · by_cases hv : w.vid = vi
      · by_cases hr : w.vid ∈ rest
        · obtain ⟨hst, w1, hw1, hvid, hst1⟩ := h2.virt_proc w hw hr
          refine ⟨hst, ?_⟩
          obtain ⟨_, w0, hw0, hvid0, hst0⟩ :=
            h1.virt_proc w1 hw1 (by simp [hvid, hv])
          exact ⟨w0, hw0, by rw [hvid0, hvid], hst0⟩
        · have hw1 : w ∈ c1.virtsL := h2.virt_mem_of w hw hr
          exact h1.virt_proc w hw1 (by simp [hv])
      · obtain ⟨hst, w1, hw1, hvid, hst1⟩ := h2.virt_proc w hw hrest
        refine ⟨hst, ?_⟩
        by_cases hv1 : w1.vid = vi
        · obtain ⟨_, w0, hw0, hvid0, hst0⟩ := h1.virt_proc w1 hw1 (by simp [hv1])
          exact ⟨w0, hw0, by rw [hvid0, hvid], hst0⟩
        · exact ⟨w1, h1.virt_mem_of w1 hw1 (by simpa using hv1), hvid, hst1⟩

/-- Effect of `decommit_virt` on the graph: only the virt's committed fields
and the remote-virt views change. -/
theorem decommit_virt_out (c : Ctx) (vi : Id) :
    (decommit_virt c vi).1.settingsL = c.settingsL ∧
    (decommit_virt c vi).1.netsL = c.netsL ∧
    (decommit_virt c vi).1.physL = c.physL ∧
    (decommit_virt c vi).1.pasL = c.pasL ∧
    (decommit_virt c vi).1.rpasL = c.rpasL ∧
    (decommit_virt c vi).1.next_id = c.next_id ∧
    (∃ p : RemoteVirt → Bool, (decommit_virt c vi).1.rvirtsL = c.rvirtsL.filter p) ∧
    ((decommit_virt c vi).1.virtsL = c.virtsL ∨
      (decommit_virt c vi).1.virtsL =
        (updVirt c vi (fun x =>
          { x with committed_to := none, committed_if := none })).virtsL) := by
  unfold decommit_virt
  cases hfind : findVirt c vi with
  | none =>
    refine ⟨rfl, rfl, rfl, rfl, rfl, rfl, ⟨fun _ => true, by simp⟩, Or.inl rfl⟩
  | some v =>
    dsimp only
    cases hct : v.committed_to with
    | none =>
      exact ⟨rfl, rfl, rfl, rfl, rfl, rfl, ⟨fun r => r.rv_virt ≠ vi, rfl⟩, Or.inl rfl⟩
    | some pa =>
      exact ⟨rfl, rfl, rfl, rfl, rfl, rfl, ⟨fun r => r.rv_virt ≠ vi, rfl⟩, Or.inr rfl⟩

/-- Every virt surviving `decommit_virt` descends from one of the input
context, with identity, lifecycle state, network and connection intact. -/
theorem decommit_virt_member (c1 : Ctx) (vi : Id) :
    ∀ w ∈ (decommit_virt c1 vi).1.virtsL, ∃ w0 ∈ c1.virtsL,
      w.vid = w0.vid ∧ w.state = w0.state ∧ w.network = w0.network ∧
      w.connected_through = w0.connected_through := by
  obtain ⟨_, _, _, _, _, _, _, hvl⟩ := decommit_virt_out c1 vi
  intro w hw
  rcases hvl with hvl | hvl
  · exact ⟨w, hvl ▸ hw, rfl, rfl, rfl, rfl⟩
  · rw [hvl] at hw
    simp only [updVirt, List.mem_map] at hw
    obtain ⟨w0, hw0, hmap⟩ := hw
    by_cases hc : w0.vid = vi
    · rw [if_pos hc] at hmap
      exact ⟨w0, hw0, by rw [← hmap], by rw [← hmap], by rw [← hmap], by rw [← hmap]⟩
    · rw [if_neg hc] at hmap
      exact ⟨w0, hw0, by rw [← hmap], by rw [← hmap], by rw [← hmap], by rw [← hmap]⟩

/-- A single virt update whose function preserves identity, network and
connection is a `VPre`. -/
theorem vpre_of_updVirt (ni vi : Id) (c : Ctx)
    (hU : UniqueIds c) (hC : ConnInv c) (hN : NetRefs c) (f : Virt → Virt)
    (hf_vid : ∀ v, (f v).vid = v.vid)
    (hf_net : ∀ v, (f v).network = v.network)
    (hf_ct : ∀ v, (f v).connected_through = v.connected_through) :
    VPre ni [vi] c (updVirt c vi f) := by
  refine ⟨rfl, rfl, rfl, rfl, rfl, ?_, ?_, ?_,
    fun a ha => Or.inl ha, fun a ha _ => ha,
    uniqueIds_updVirt hf_vid hU,
    connInv_updVirt (fun v => ⟨hf_net v, hf_ct v⟩) hC,
    netRefs_updVirt hf_net hN⟩
  · intro w hw hnin
    exact mem_of_mem_updVirt_ne hf_vid hw (by simpa using hnin)
  · intro w hw hnin
    exact mem_updVirt_of_ne hw (by simpa using hnin)
  · intro w hw
    simp only [updVirt, List.mem_map] at hw
    obtain ⟨w0, hw0, hmap⟩ := hw
    by_cases hc : w0.vid = vi
    · rw [if_pos hc] at hmap
      exact ⟨w0, hw0, by rw [← hmap, hf_vid], by rw [← hmap, hf_net]⟩
    · rw [if_neg hc] at hmap
      exact ⟨w0, hw0, by rw [← hmap], by rw [← hmap]⟩

/-- The same update, when it leaves no DELETE state on the touched virt, is a
full `VStep`. -/
theorem vstep_of_updVirt (ni vi : Id) (c : Ctx)
    (hU : UniqueIds c) (hC : ConnInv c) (hN : NetRefs c) (f : Virt → Virt)
    (hf_vid : ∀ v, (f v).vid = v.vid)
    (hf_net : ∀ v, (f v).network = v.network)
    (hf_ct : ∀ v, (f v).connected_through = v.connected_through)
    (hf_state : ∀ w ∈ c.virtsL, w.vid = vi → (f w).state ≠ .delete ∧ w.state ≠ .delete) :
    VStep ni [vi] c (updVirt c vi f) where
  toVPre := vpre_of_updVirt ni vi c hU hC hN f hf_vid hf_net hf_ct
  virt_proc := by
    intro w hw hin
    have hwvid : w.vid = vi := by simpa using hin
    simp only [updVirt, List.mem_map] at hw
    obtain ⟨w0, hw0, hmap⟩ := hw
    by_cases hc : w0.vid = vi
    · rw [if_pos hc] at hmap
      obtain ⟨h1, h2⟩ := hf_state w0 hw0 hc
      exact ⟨by rw [← hmap]; exact h1, w0, hw0, by rw [hc, hwvid], h2⟩
    · rw [if_neg hc] at hmap
      exact absurd (hmap ▸ hwvid) hc

/-- `decommit_virt` extends a `VPre` (it only clears committed bookkeeping on
the processed virt and drops its remote views). -/
theorem vpre_decommit_virt {ni vi : Id} {c c1 : Ctx} (h : VPre ni [vi] c c1) :
    VPre ni [vi] c (decommit_virt c1 vi).1 := by
  obtain ⟨hs, hn, hp, hpa, hrpa, hnext, hrv, hvl⟩ := decommit_virt_out c1 vi
  have hmember := decommit_virt_member c1 vi
  have hmember' : ∀ w ∈ c1.virtsL, w.vid ≠ vi → w ∈ (decommit_virt c1 vi).1.virtsL := by
    intro w hw hne
    rcases hvl with hvl | hvl
    · exact hvl ▸ hw
    · rw [hvl]
      exact mem_updVirt_of_ne hw hne
  refine ⟨by rw [hs, h.settings_eq], by rw [hn, h.nets_eq], by rw [hp, h.phys_eq],
    by rw [hrpa, h.rpas_eq], by rw [hnext, h.next_eq], ?_, ?_, ?_, ?_, ?_, ?_, ?_, ?_⟩
  · intro w hw hni
    rcases hvl with hvl | hvl
    · exact h.virt_mem_of w (hvl ▸ hw) hni
    · rw [hvl] at hw
      have hw' : w ∈ c1.virtsL := by
        refine mem_of_mem_updVirt_ne ?_ hw (by simpa using hni)
        intro v
        rfl
      exact h.virt_mem_of w hw' hni
  · intro w hw hni
    exact hmember' w (h.virt_mem_to w hw hni) (by simpa using hni)
  · intro w hw
    obtain ⟨w1, hw1, hvid, _, hnet, _⟩ := hmember w hw
    obtain ⟨w0, hw0, hv0, hn0⟩ := h.virt_src w1 hw1
    exact ⟨w0, hw0, by rw [hv0, ← hvid], by rw [hn0, ← hnet]⟩
  · intro a ha
    exact h.pa_evolve a (by rw [← hpa]; exact ha)
  · intro a ha hne
    rw [hpa]
    exact h.pa_keep a ha hne
  · exact uniqueIds_of_eqs h.uq hs hn hp hpa
      (by
        rcases hvl with hvl | hvl
        · rw [hvl]
        · rw [hvl]; exact updVirt_vids c1 vi _ (fun v => rfl)) hrpa hrv
  · exact connInv_of_eqs h.cn hpa (fun w hw =>
      ((decommit_virt_member c1 vi) w hw).imp
        (fun w0 hx => ⟨hx.1, hx.2.2.2.1, hx.2.2.2.2⟩))
  · exact netRefs_of_eqs h.nr hn hpa (fun w hw =>
      ((decommit_virt_member c1 vi) w hw).imp (fun w0 hx => ⟨hx.1, hx.2.2.2.1⟩))

/-- `decommit_virt` also extends a full `VStep` (states are preserved). -/
theorem vstep_decommit_virt {ni vi : Id} {c c1 : Ctx} (h : VStep ni [vi] c c1) :
    VStep ni [vi] c (decommit_virt c1 vi).1 where
  toVPre := vpre_decommit_virt h.toVPre
  virt_proc := by
    intro w hw hin
    obtain ⟨w1, hw1, hvid, hst, _, _⟩ := decommit_virt_member c1 vi w hw
    obtain ⟨hst1, wsrc, hwsrc, hsvid, hsst⟩ := h.virt_proc w1 hw1 (by rw [← hvid]; exact hin)
    exact ⟨by rw [hst]; exact hst1, wsrc, hwsrc, by rw [hsvid, ← hvid], hsst⟩

/-- Freeing the processed virt (and garbage-collecting its attachment)
turns a `VPre` into a full `VStep`. -/
theorem vstep_virt_do_free {ni vi : Id} {c c2 : Ctx} (h : VPre ni [vi] c c2)
    {v2 : Virt} (hfind : findVirt c2 vi = some v2) (hnet : v2.network = ni) :
    VStep ni [vi] c (virt_do_free c2 v2) := by
  have hv2mem : v2 ∈ c2.virtsL := List.mem_of_find?_eq_some hfind
  have hv2vid : v2.vid = vi := by simpa using List.find?_some hfind
  -- the result context in both connection cases
  have main : ∀ c3 : Ctx, c3.settingsL = c2.settingsL → c3.netsL = c2.netsL →
      c3.physL = c2.physL → c3.rpasL = c2.rpasL → c3.rvirtsL = c2.rvirtsL →
      c3.next_id = c2.next_id →
      c3.virtsL = (removeVirt c2 vi).virtsL →
      (∀ b ∈ c3.pasL, b ∈ c2.pasL ∨ (b.net = ni ∧ b.state = .delete ∧
        ∃ b0 ∈ c2.pasL, b0.aid = b.aid ∧ b0.net = b.net ∧ b0.phys = b.phys ∧
          b0.explicitely_attached = b.explicitely_attached)) →
      (∀ b ∈ c2.pasL, b.net ≠ ni → b ∈ c3.pasL) →
      (c3.pasL.map (fun x => x.aid)).Nodup →
      ConnInv c3 → NetRefs c3 →
      VStep ni [vi] c c3 := by
    intro c3 hs hn hp hrpa hrv hnext hvl hpaev hpakeep hpanodup hcn hnr
    refine ⟨⟨by rw [hs, h.settings_eq], by rw [hn, h.nets_eq], by rw [hp, h.phys_eq],
      by rw [hrpa, h.rpas_eq], by rw [hnext, h.next_eq], ?_, ?_, ?_, ?_, ?_, ?_, hcn, hnr⟩, ?_⟩
    · intro w hw hni
      rw [hvl] at hw
      exact h.virt_mem_of w (removeVirt_subset hw) hni
    · intro w hw hni
      rw [hvl]
      exact mem_removeVirt_of_ne (h.virt_mem_to w hw hni) (by simpa using hni)
    · intro w hw
      rw [hvl] at hw
      exact h.virt_src w (removeVirt_subset hw)
    · intro b hb
      rcases hpaev b hb with hb2 | ⟨hbnet, hbst, b0, hb0, hf⟩
      · rcases h.pa_evolve b hb2 with hb3 | ⟨hnet3, hst3, b1, hb1, hf1⟩
        · exact Or.inl hb3
        · exact Or.inr ⟨hnet3, hst3, b1, hb1, hf1⟩
      · rcases h.pa_evolve b0 hb0 with hb3 | ⟨hnet3, hst3, b1, hb1, hf1⟩
        · exact Or.inr ⟨hbnet, hbst, b0, hb3, hf⟩
        · exact Or.inr ⟨hbnet, hbst, b1, hb1,
            by rw [hf1.1, hf.1], by rw [hf1.2.1, hf.2.1],
            by rw [hf1.2.2.1, hf.2.2.1], by rw [hf1.2.2.2, hf.2.2.2]⟩
    · intro b hb hbne
      exact hpakeep b (h.pa_keep b hb hbne) hbne
    · obtain ⟨u1, u2, u3, u4, u5, u6, u7⟩ := h.uq
      exact ⟨by rw [hs]; exact u1, by rw [hn]; exact u2, by rw [hp]; exact u3,
        hpanodup,
        by rw [hvl]; exact nodup_map_filter _ _ _ u5,
        by rw [hrpa]; exact u6, by rw [hrv]; exact u7⟩
    · intro w hw hin
      rw [hvl] at hw
      simp only [removeVirt, List.mem_filter] at hw
      exact absurd (by simpa using hin : w.vid = vi) (by simpa using hw.2)
  -- now the two connection cases of virt_do_free
  unfold virt_do_free
  simp only [hv2vid]
  cases hct : v2.connected_through with
  | none =>
    dsimp only
    refine main (removeVirt c2 vi) rfl rfl rfl rfl rfl rfl rfl
      (fun b hb => Or.inl hb) (fun b hb _ => hb) ?_ (connInv_removeVirt h.cn)
      (netRefs_removeVirt h.nr)
    exact h.uq.2.2.2.1
  | some a =>
    -- the virt pointed at attachment `a`; its unique record has net ni
    dsimp only
    obtain ⟨pa0, hpa0, hpa0id, hpa0net⟩ := h.cn v2 hv2mem a hct
    have hpa0net' : pa0.net = ni := by rw [hpa0net, hnet]
    set c3 := removeVirt c2 vi with hc3
    have hc3pas : c3.pasL = c2.pasL := rfl
    rcases free_pa_if_possible_cases c3 a with hsame | ⟨a1, ha1, ha1id, hempty, ha1exp, hbr⟩
    · rw [hsame]
      refine main c3 rfl rfl rfl rfl rfl rfl rfl
        (fun b hb => Or.inl hb) (fun b hb _ => hb) h.uq.2.2.2.1
        (connInv_removeVirt h.cn) (netRefs_removeVirt h.nr)
    · rcases hbr with ⟨ha1new, hres⟩ | ⟨ha1old, hres⟩
      · -- the attachment is freed outright
        rw [hres]
        refine main (removePA c3 a) rfl rfl rfl rfl rfl rfl rfl
          (fun b hb => Or.inl (removePA_subset hb)) ?_ ?_
          (connInv_removePA hempty (connInv_removeVirt h.cn))
          (netRefs_removePA (netRefs_removeVirt h.nr))
        · intro b hb hbne
          refine mem_removePA_of_ne hb ?_
          intro hba
          have : b = pa0 := eq_of_mem_nodup_aid h.uq.2.2.2.1 hb hpa0 (by rw [hba, hpa0id])
          exact hbne (by rw [this, hpa0net'])
        · exact nodup_map_filter _ _ _ h.uq.2.2.2.1
      · -- the attachment is marked DELETE
        rw [hres]
        have hfaid : ∀ x : PA,
            ((fun y : PA => { y with state := St.delete }) x).aid = x.aid := fun _ => rfl
        refine main (updPA c3 a (fun x => { x with state := .delete }))
          rfl rfl rfl rfl rfl rfl rfl ?_ ?_ ?_ ?_ ?_
        · intro b hb
          simp only [updPA, List.mem_map] at hb
          obtain ⟨b0, hb0, hmap⟩ := hb
          by_cases hba : b0.aid = a
          · have hb0pa : b0 = pa0 := eq_of_mem_nodup_aid h.uq.2.2.2.1 hb0 hpa0
              (by rw [hba, hpa0id])
            rw [if_pos hba] at hmap
            refine Or.inr ⟨?_, by rw [← hmap], b0, hb0, by rw [← hmap], by rw [← hmap],
              by rw [← hmap], by rw [← hmap]⟩
            rw [← hmap]
            show b0.net = ni
            rw [hb0pa, hpa0net']
          · rw [if_neg hba] at hmap
            exact Or.inl (hmap ▸ hb0)
        · intro b hb hbne
          refine mem_updPA_of_ne hb ?_
          intro hba
          have : b = pa0 := eq_of_mem_nodup_aid h.uq.2.2.2.1 hb hpa0 (by rw [hba, hpa0id])
          exact hbne (by rw [this, hpa0net'])
        · rw [updPA_aids c3 a _ hfaid]
          exact h.uq.2.2.2.1
        · exact connInv_updPA (fun x => ⟨rfl, rfl⟩) (connInv_removeVirt h.cn)
        · exact netRefs_updPA (fun x => rfl) (netRefs_removeVirt h.nr)

/-- One `decommitVirtOne` call inside net `ni`'s block is a `VStep`. -/
theorem decommitVirtOne_step (ni vi : Id) (c : Ctx)
    (hU : UniqueIds c) (hC : ConnInv c) (hN : NetRefs c)
    (hvi : ∀ w ∈ c.virtsL, w.vid = vi → w.network = ni) :
    VStep ni [vi] c (decommitVirtOne c vi).1 := by
  unfold decommitVirtOne
  cases hfind : findVirt c vi with
  | none =>
    dsimp only
    have hno : ∀ w ∈ c.virtsL, ¬ (w.vid = vi) := by
      intro w hw
      have := List.find?_eq_none.1 hfind w hw
      simpa using this
    exact ⟨⟨rfl, rfl, rfl, rfl, rfl, fun w hw _ => hw, fun w hw _ => hw,
      fun w hw => ⟨w, hw, rfl, rfl⟩,
      fun a ha => Or.inl ha, fun a ha _ => ha, hU, hC, hN⟩,
      fun w hw hin => absurd (by simpa using hin) (hno w hw)⟩
  | some v =>
    dsimp only
    have hvmem : v ∈ c.virtsL := List.mem_of_find?_eq_some hfind
    have hvvid : v.vid = vi := by simpa using List.find?_some hfind
    have huniq : ∀ w ∈ c.virtsL, w.vid = vi → w = v := fun w hw hwv =>
      eq_of_mem_nodup_vid hU.2.2.2.2.1 hw hvmem (by rw [hwv, hvvid])
    cases hstate : v.state with
    | new =>
      simp only [ack_uncommit]
      exact vstep_of_updVirt ni vi c hU hC hN _ (fun _ => rfl) (fun _ => rfl)
        (fun _ => rfl)
        (fun w hw hwv => by
          rw [huniq w hw hwv]
          simp [hstate])
    | ok =>
      simp only [ack_uncommit]
      exact vstep_of_updVirt ni vi c hU hC hN _ (fun _ => rfl) (fun _ => rfl)
        (fun _ => rfl)
        (fun w hw hwv => by
          rw [huniq w hw hwv]
          simp [hstate])
    | renew =>
      simp only [ack_uncommit]
      refine vstep_decommit_virt ?_
      exact vstep_of_updVirt ni vi c hU hC hN _ (fun _ => rfl) (fun _ => rfl)
        (fun _ => rfl)
        (fun w hw hwv => by
          rw [huniq w hw hwv]
          simp [hstate])
    | delete =>
      simp only [ack_uncommit]
      have hpre : VPre ni [vi] c
          (decommit_virt (updVirt c vi (fun x => { x with state := .delete })) vi).1 :=
        vpre_decommit_virt (vpre_of_updVirt ni vi c hU hC hN _ (fun _ => rfl)
          (fun _ => rfl) (fun _ => rfl))
      set c2 := (decommit_virt (updVirt c vi (fun x => { x with state := .delete })) vi).1
        with hc2
      have hex : ∃ w, w ∈ c2.virtsL ∧ w.vid = vi := by
        have h1 : (updVirt c vi (fun x => { x with state := St.delete })).virtsL =
            c.virtsL.map (fun w => if w.vid = vi then { w with state := St.delete } else w) :=
          rfl
        have himg : ({ v with state := St.delete } : Virt) ∈
            (updVirt c vi (fun x => { x with state := St.delete })).virtsL := by
          rw [h1]
          have := List.mem_map_of_mem
            (fun w : Virt => if w.vid = vi then { w with state := St.delete } else w) hvmem
          simpa [hvvid] using this
        obtain ⟨_, _, _, _, _, _, _, hvl⟩ :=
          decommit_virt_out (updVirt c vi (fun x => { x with state := .delete })) vi
        rcases hvl with hvl | hvl
        · exact ⟨{ v with state := St.delete }, by rw [← hc2] at hvl; rw [hvl]; exact himg,
            by simpa using hvvid⟩
        · rw [← hc2] at hvl
          refine ⟨{ v with state := St.delete, committed_to := none, committed_if := none },
            ?_, by simpa using hvvid⟩
          rw [hvl]
          have himg2 := List.mem_map_of_mem
            (fun w : Virt => if w.vid = vi then
              ({ w with committed_to := none, committed_if := none } : Virt) else w) himg
          simpa [updVirt, hvvid] using himg2
      cases hfind2 : findVirt c2 vi with
      | none =>
        obtain ⟨w, hwmem, hwvid⟩ := hex
        have := List.find?_eq_none.1 hfind2 w hwmem
        exact absurd (by simpa using hwvid) (by simpa using this)
      | some v2 =>
        dsimp only
        have hv2mem : v2 ∈ c2.virtsL := List.mem_of_find?_eq_some hfind2
        have hv2net : v2.network = ni := by
          obtain ⟨w0, hw0, hw0vid, hw0net⟩ := hpre.virt_src v2 hv2mem
          have hv2vid : v2.vid = vi := by simpa using List.find?_some hfind2
          rw [← hw0net]
          exact hvi w0 hw0 (by rw [hw0vid, hv2vid])
        exact vstep_virt_do_free hpre hfind2 hv2net

/-- The whole virt sweep of net `ni`'s block is a `VStep` over its id list. -/
theorem virtSweep (ni : Id) (l : List Id) (c : Ctx) (evs : List Ev)
    (hU : UniqueIds c) (hC : ConnInv c) (hN : NetRefs c)
    (hl : ∀ vi ∈ l, ∀ w ∈ c.virtsL, w.vid = vi → w.network = ni) :
    VStep ni l c
      (l.foldl (fun (acc : Ctx × List Ev) vi =>
        let r := decommitVirtOne acc.1 vi
        (r.1, acc.2 ++ r.2)) (c, evs)).1 := by
  induction l generalizing c evs with
  | nil => exact vstep_nil hU hC hN
  | cons vi rest ih =>
    have hstep := decommitVirtOne_step ni vi c hU hC hN
      (fun w hw hwv => hl vi (List.mem_cons_self vi rest) w hw hwv)
    have hrest : ∀ vj ∈ rest, ∀ w ∈ (decommitVirtOne c vi).1.virtsL,
        w.vid = vj → w.network = ni := by
      intro vj hvj w hw hwv
      obtain ⟨w0, hw0, hvid0, hnet0⟩ := hstep.virt_src w hw
      rw [← hnet0]
      exact hl vj (List.mem_cons_of_mem vi hvj) w0 hw0 (by rw [hvid0, hwv])
    exact vstep_cons hstep
      (ih (decommitVirtOne c vi).1 (evs ++ (decommitVirtOne c vi).2)
        hstep.uq hstep.cn hstep.nr hrest)

/-! ## The attachment part of a net's decommit block -/

/-- Preservation of a transitive relation along `foldEvM`. -/
theorem foldEvM_rel {f : Ctx → Id → Option (Ctx × List Ev)} {Q : Ctx → Ctx → Prop}
    (hrefl : ∀ c, Q c c) (htrans : ∀ a b d, Q a b → Q b d → Q a d)
    (hstep : ∀ c i r, f c i = some r → Q c r.1) :
    ∀ (l : List Id) (c : Ctx) (evs : List Ev) (r : Ctx × List Ev),
      foldEvM f l (c, evs) = some r → Q c r.1 := by
  intro l
  induction l with
  | nil =>
    intro c evs r h
    simp only [foldEvM] at h
    cases h
    exact hrefl c
  | cons i rest ih =>
    intro c evs r h
    simp only [foldEvM] at h
    cases hf : f c i with
    | none => rw [hf] at h; cases h
    | some r1 =>
      rw [hf] at h
      exact htrans c r1.1 r.1 (hstep c i r1 hf) (ih r1.1 (evs ++ r1.2) r h)

/-- `decommit_pa` only removes remote-PA views. -/
theorem decommit_pa_out {c : Ctx} {a : PA} {c' : Ctx} {evs : List Ev}
    (h : decommit_pa c a = some (c', evs)) :
    c'.settingsL = c.settingsL ∧ c'.netsL = c.netsL ∧ c'.physL = c.physL ∧
    c'.pasL = c.pasL ∧ c'.virtsL = c.virtsL ∧ c'.next_id = c.next_id ∧
    c'.rvirtsL = c.rvirtsL ∧ c'.rpasL.Sublist c.rpasL := by
  have hQ : ∀ (l : List Id) (c0 : Ctx) (evs0 : List Ev) (r : Ctx × List Ev),
      foldEvM decommit_remote_pa_step l (c0, evs0) = some r →
      r.1.settingsL = c0.settingsL ∧ r.1.netsL = c0.netsL ∧ r.1.physL = c0.physL ∧
      r.1.pasL = c0.pasL ∧ r.1.virtsL = c0.virtsL ∧ r.1.next_id = c0.next_id ∧
      r.1.rvirtsL = c0.rvirtsL ∧ r.1.rpasL.Sublist c0.rpasL := by
    intro l c0 evs0 r hfold
    refine @foldEvM_rel decommit_remote_pa_step
      (fun x y => y.settingsL = x.settingsL ∧ y.netsL = x.netsL ∧ y.physL = x.physL ∧
        y.pasL = x.pasL ∧ y.virtsL = x.virtsL ∧ y.next_id = x.next_id ∧
        y.rvirtsL = x.rvirtsL ∧ y.rpasL.Sublist x.rpasL)
      (fun c1 => ⟨rfl, rfl, rfl, rfl, rfl, rfl, rfl, List.Sublist.refl _⟩)
      (fun x y z hxy hyz =>
        ⟨by rw [hyz.1, hxy.1], by rw [hyz.2.1, hxy.2.1], by rw [hyz.2.2.1, hxy.2.2.1],
         by rw [hyz.2.2.2.1, hxy.2.2.2.1], by rw [hyz.2.2.2.2.1, hxy.2.2.2.2.1],
         by rw [hyz.2.2.2.2.2.1, hxy.2.2.2.2.2.1],
         by rw [hyz.2.2.2.2.2.2.1, hxy.2.2.2.2.2.2.1],
         hyz.2.2.2.2.2.2.2.trans hxy.2.2.2.2.2.2.2⟩)
      ?_ l c0 evs0 r hfold
    intro c1 i r1 hf
    unfold decommit_remote_pa_step at hf
    cases hfind : c1.rpasL.find? (fun x => x.rid = i) with
    | none =>
      rw [hfind] at hf
      cases hf
      exact ⟨rfl, rfl, rfl, rfl, rfl, rfl, rfl, List.Sublist.refl _⟩
    | some rp =>
      rw [hfind] at hf
      unfold decommit_remote_pa at hf
      dsimp only at hf
      by_cases hrv : remoteVirtsOfRpa c1 rp.rid ≠ []
      · rw [if_pos hrv] at hf
        cases hf
      · rw [if_neg hrv] at hf
        cases hf
        exact ⟨rfl, rfl, rfl, rfl, rfl, rfl, rfl, List.filter_sublist _⟩
  unfold decommit_pa at h
  cases h1 : foldEvM decommit_remote_pa_step
      ((paViewsOfRemote c a.aid).map (fun r => r.rid)) (c, []) with
  | none => rw [h1] at h; cases h
  | some r1 =>
    rw [h1] at h
    obtain ⟨c1, e1⟩ := r1
    dsimp only at h
    cases h2 : foldEvM decommit_remote_pa_step
        ((remotePAsOfLocal c1 a.aid).map (fun r => r.rid)) (c1, e1) with
    | none =>
      rw [h2] at h
      cases h
    | some r2 =>
      rw [h2] at h
      obtain ⟨c2, e2⟩ := r2
      dsimp only at h
      obtain q1 := hQ _ c [] (c1, e1) h1
      obtain q2 := hQ _ c1 e1 (c2, e2) h2
      cases h
      exact ⟨by rw [q2.1, q1.1], by rw [q2.2.1, q1.2.1], by rw [q2.2.2.1, q1.2.2.1],
        by rw [q2.2.2.2.1, q1.2.2.2.1], by rw [q2.2.2.2.2.1, q1.2.2.2.2.1],
        by rw [q2.2.2.2.2.2.1, q1.2.2.2.2.2.1],
        by rw [q2.2.2.2.2.2.2.1, q1.2.2.2.2.2.2.1],
        q2.2.2.2.2.2.2.2.trans q1.2.2.2.2.2.2.2⟩

/-- What the attachment sweep does to the graph while processing the
attachments listed in `ais`. -/
structure PStep (ais : List Id) (c c' : Ctx) : Prop where
  settings_eq : c'.settingsL = c.settingsL
  nets_eq : c'.netsL = c.netsL
  phys_eq : c'.physL = c.physL
  virts_eq : c'.virtsL = c.virtsL
  next_eq : c'.next_id = c.next_id
  pa_mem_of : ∀ a ∈ c'.pasL, a.aid ∉ ais → a ∈ c.pasL
  pa_mem_to : ∀ a ∈ c.pasL, a.aid ∉ ais → a ∈ c'.pasL
  pa_proc : ∀ a ∈ c'.pasL, a.aid ∈ ais → a.state ≠ .delete ∧
    ∃ a0 ∈ c.pasL, a0.aid = a.aid ∧ a0.net = a.net ∧ a0.phys = a.phys ∧
      a0.explicitely_attached = a.explicitely_attached ∧ a0.state ≠ .delete
  uq : UniqueIds c'
  cn : ConnInv c'
  nr : NetRefs c'

theorem pstep_nil {c : Ctx} (hU : UniqueIds c) (hC : ConnInv c) (hN : NetRefs c) :
    PStep [] c c :=
  ⟨rfl, rfl, rfl, rfl, rfl, fun a ha _ => ha, fun a ha _ => ha,
   fun _ _ hin => absurd hin (List.not_mem_nil _), hU, hC, hN⟩

theorem pstep_cons {ai : Id} {rest : List Id} {c c1 c2 : Ctx}
    (h1 : PStep [ai] c c1) (h2 : PStep rest c1 c2) : PStep (ai :: rest) c c2 := by
  refine ⟨by rw [h2.settings_eq, h1.settings_eq], by rw [h2.nets_eq, h1.nets_eq],
    by rw [h2.phys_eq, h1.phys_eq], by rw [h2.virts_eq, h1.virts_eq],
    by rw [h2.next_eq, h1.next_eq], ?_, ?_, ?_, h2.uq, h2.cn, h2.nr⟩
  · intro a ha hnin
    simp only [List.mem_cons, not_or] at hnin
    exact h1.pa_mem_of a (h2.pa_mem_of a ha hnin.2) (by simpa using hnin.1)
  · intro a ha hnin
    simp only [List.mem_cons, not_or] at hnin
    exact h2.pa_mem_to a (h1.pa_mem_to a ha (by simpa using hnin.1)) hnin.2
  · intro a ha hin
    have chain : ∀ a1 ∈ c1.pasL, a1.state ≠ .delete →
        ∃ a0 ∈ c.pasL, a0.aid = a1.aid ∧ a0.net = a1.net ∧ a0.phys = a1.phys ∧
          a0.explicitely_attached = a1.explicitely_attached ∧ a0.state ≠ .delete := by
      intro a1 ha1 hst1
      by_cases hv1 : a1.aid = ai
      · obtain ⟨_, a0, ha0, hf⟩ := h1.pa_proc a1 ha1 (by simp [hv1])
        exact ⟨a0, ha0, hf⟩
      · exact ⟨a1, h1.pa_mem_of a1 ha1 (by simpa using hv1), rfl, rfl, rfl, rfl, hst1⟩
    rcases List.mem_cons.1 hin with heq | hrest
    · by_cases hr : a.aid ∈ rest
      · obtain ⟨hst, a1, ha1, hvid, hnet, hph, hexp, hst1⟩ := h2.pa_proc a ha hr
        obtain ⟨a0, ha0, hf⟩ := chain a1 ha1 hst1
        exact ⟨hst, a0, ha0, by rw [hf.1, hvid], by rw [hf.2.1, hnet],
          by rw [hf.2.2.1, hph], by rw [hf.2.2.2.1, hexp], hf.2.2.2.2⟩
      · have ha1 : a ∈ c1.pasL := h2.pa_mem_of a ha hr
        exact h1.pa_proc a ha1 (by simp [heq])
    · obtain ⟨hst, a1, ha1, hvid, hnet, hph, hexp, hst1⟩ := h2.pa_proc a ha hrest
      obtain ⟨a0, ha0, hf⟩ := chain a1 ha1 hst1
      exact ⟨hst, a0, ha0, by rw [hf.1, hvid], by rw [hf.2.1, hnet],
        by rw [hf.2.2.1, hph], by rw [hf.2.2.2.1, hexp], hf.2.2.2.2⟩

/-- A single attachment update preserving identity, net, phys and the
explicit flag — and leaving no DELETE behind on the touched attachment —
is a `PStep`. -/
theorem pstep_of_updPA (ai : Id) (c : Ctx)
    (hU : UniqueIds c) (hC : ConnInv c) (hN : NetRefs c) (f : PA → PA)
    (hf_aid : ∀ b, (f b).aid = b.aid) (hf_net : ∀ b, (f b).net = b.net)
    (hf_phys : ∀ b, (f b).phys = b.phys)
    (hf_exp : ∀ b, (f b).explicitely_attached = b.explicitely_attached)
    (hf_state : ∀ b ∈ c.pasL, b.aid = ai → (f b).state ≠ .delete ∧ b.state ≠ .delete) :
    PStep [ai] c (updPA c ai f) := by
  refine ⟨rfl, rfl, rfl, rfl, rfl, ?_, ?_, ?_,
    uniqueIds_updPA hf_aid hU,
    connInv_updPA (fun b => ⟨hf_aid b, hf_net b⟩) hC,
    netRefs_updPA hf_net hN⟩
  · intro b hb hnin
    exact mem_of_mem_updPA_ne hf_aid hb (by simpa using hnin)
  · intro b hb hnin
    exact mem_updPA_of_ne hb (by simpa using hnin)
  · intro b hb hin
    have hbaid : b.aid = ai := by simpa using hin
    simp only [updPA, List.mem_map] at hb
    obtain ⟨b0, hb0, hmap⟩ := hb
    by_cases hc : b0.aid = ai
    · rw [if_pos hc] at hmap
      obtain ⟨h1, h2⟩ := hf_state b0 hb0 hc
      exact ⟨by rw [← hmap]; exact h1, b0, hb0,
        by rw [hc, hbaid], by rw [← hmap, hf_net], by rw [← hmap, hf_phys],
        by rw [← hmap, hf_exp], h2⟩
    · rw [if_neg hc] at hmap
      exact absurd (hmap ▸ hbaid) hc

/-- Transport of a `PStep` across a context that only dropped remote views. -/
theorem pstep_transport {ais : List Id} {c c1 c2 : Ctx} (h : PStep ais c c1)
    (hs : c2.settingsL = c1.settingsL) (hn : c2.netsL = c1.netsL)
    (hp : c2.physL = c1.physL) (hpas : c2.pasL = c1.pasL)
    (hv : c2.virtsL = c1.virtsL) (hnext : c2.next_id = c1.next_id)
    (hrpa : c2.rpasL.Sublist c1.rpasL) (hrv : c2.rvirtsL.Sublist c1.rvirtsL) :
    PStep ais c c2 := by
  obtain ⟨u1, u2, u3, u4, u5, u6, u7⟩ := h.uq
  refine ⟨by rw [hs, h.settings_eq], by rw [hn, h.nets_eq], by rw [hp, h.phys_eq],
    by rw [hv, h.virts_eq], by rw [hnext, h.next_eq], ?_, ?_, ?_, ?_, ?_, ?_⟩
  · intro a ha hnin
    exact h.pa_mem_of a (by rw [← hpas]; exact ha) hnin
  · intro a ha hnin
    rw [hpas]
    exact h.pa_mem_to a ha hnin
  · intro a ha hin
    exact h.pa_proc a (by rw [← hpas]; exact ha) hin
  · exact ⟨by rw [hs]; exact u1, by rw [hn]; exact u2, by rw [hp]; exact u3,
      by rw [hpas]; exact u4, by rw [hv]; exact u5,
      u6.sublist (hrpa.map _), u7.sublist (hrv.map _)⟩
  · exact connInv_of_eqs h.cn hpas (by rw [hv]; exact fun w hw => ⟨w, hw, rfl, rfl⟩)
  · exact netRefs_of_eqs h.nr hn hpas (by rw [hv]; exact fun w hw => ⟨w, hw, rfl⟩)

/-- One `decommitPAOne` call is a `PStep`. -/
theorem decommitPAOne_step (ai : Id) (c : Ctx) (r : Ctx × List Ev)
    (hU : UniqueIds c) (hC : ConnInv c) (hN : NetRefs c)
    (h : decommitPAOne c ai = some r) : PStep [ai] c r.1 := by
  unfold decommitPAOne at h
  cases hfind : findPA c ai with
  | none =>
    rw [hfind] at h
    cases h
    refine ⟨rfl, rfl, rfl, rfl, rfl, fun a ha _ => ha, fun a ha _ => ha, ?_, hU, hC, hN⟩
    intro a ha hin
    have := List.find?_eq_none.1 hfind a ha
    exact absurd (by simpa using hin : a.aid = ai) (by simpa using this)
  | some a =>
    rw [hfind] at h
    dsimp only at h
    have hamem : a ∈ c.pasL := List.mem_of_find?_eq_some hfind
    have haid : a.aid = ai := by simpa using List.find?_some hfind
    have huniq : ∀ b ∈ c.pasL, b.aid = ai → b = a := fun b hb hbv =>
      eq_of_mem_nodup_aid hU.2.2.2.1 hb hamem (by rw [hbv, haid])
    cases hstate : a.state with
    | new =>
      rw [hstate] at h
      simp only [ack_uncommit, if_true] at h
      cases h
      exact pstep_of_updPA ai c hU hC hN _ (fun _ => rfl) (fun _ => rfl) (fun _ => rfl)
        (fun _ => rfl)
        (fun b hb hbv => by rw [huniq b hb hbv]; simp [hstate])
    | ok =>
      rw [hstate] at h
      simp only [ack_uncommit, if_true] at h
      cases h
      exact pstep_of_updPA ai c hU hC hN _ (fun _ => rfl) (fun _ => rfl) (fun _ => rfl)
        (fun _ => rfl)
        (fun b hb hbv => by rw [huniq b hb hbv]; simp [hstate])
    | renew =>
      rw [hstate] at h
      simp only [ack_uncommit, if_true] at h
      cases hdp : decommit_pa (updPA c ai (fun x => { x with state := .new }))
          { a with state := .new } with
      | none =>
        rw [hdp] at h
        cases h
      | some r2 =>
        rw [hdp] at h
        obtain ⟨c2, e2⟩ := r2
        dsimp only at h
        cases h
        obtain ⟨q1, q2, q3, q4, q5, q6, q7, q8⟩ := decommit_pa_out hdp
        have hbase := pstep_of_updPA ai c hU hC hN
          (fun x => { x with state := .new }) (fun _ => rfl) (fun _ => rfl) (fun _ => rfl)
          (fun _ => rfl) (fun b hb hbv => by rw [huniq b hb hbv]; simp [hstate])
        exact pstep_transport hbase q1 q2 q3 q4 q5 q6 q8 (by rw [q7])
    | delete =>
      rw [hstate] at h
      simp only [ack_uncommit, if_true] at h
      cases hdp : decommit_pa (updPA c ai (fun x => { x with state := .delete }))
          { a with state := .delete } with
      | none =>
        rw [hdp] at h
        cases h
      | some r2 =>
        rw [hdp] at h
        obtain ⟨c2, e2⟩ := r2
        dsimp only at h
        obtain ⟨q1, q2, q3, q4, q5, q6, q7, q8⟩ := decommit_pa_out hdp
        -- the marked attachment is still present in c2
        have himg : ({ a with state := St.delete } : PA) ∈ c2.pasL := by
          rw [q4]
          have hmm := List.mem_map_of_mem
            (fun b : PA => if b.aid = ai then { b with state := St.delete } else b) hamem
          dsimp only at hmm
          rw [if_pos haid] at hmm
          exact hmm
        cases hfind2 : findPA c2 ai with
        | none =>
          have := List.find?_eq_none.1 hfind2 _ himg
          exact absurd (by simpa using haid) (by simpa using this)
        | some a2 =>
          rw [hfind2] at h
          dsimp only at h
          have ha2mem : a2 ∈ c2.pasL := List.mem_of_find?_eq_some hfind2
          have ha2aid : a2.aid = ai := by simpa using List.find?_some hfind2
          unfold pa_do_free at h
          by_cases hcv : connectedVirts c2 a2.aid ≠ []
          · rw [if_pos hcv] at h
            cases h
          · rw [if_neg hcv] at h
            by_cases hexp : a2.explicitely_attached = true
            · rw [if_pos hexp] at h
              cases h
            · rw [if_neg hexp] at h
              cases h
              rw [not_not] at hcv
              have hcn1 : ConnInv (updPA c ai (fun x => { x with state := St.delete })) :=
                connInv_updPA (fun b => ⟨rfl, rfl⟩) hC
              have hcn2 : ConnInv c2 :=
                connInv_of_eqs hcn1 q4 (by rw [q5]; exact fun w hw => ⟨w, hw, rfl, rfl⟩)
              have hnr1 : NetRefs (updPA c ai (fun x => { x with state := St.delete })) :=
                netRefs_updPA (fun b => rfl) hN
              have hnr2 : NetRefs c2 :=
                netRefs_of_eqs hnr1 q2 q4 (by rw [q5]; exact fun w hw => ⟨w, hw, rfl⟩)
              have e1 : c2.settingsL = c.settingsL := q1
              have e2n : c2.netsL = c.netsL := q2
              have e3 : c2.physL = c.physL := q3
              have e5 : c2.virtsL = c.virtsL := q5
              have e6 : c2.next_id = c.next_id := q6
              have e7 : c2.rvirtsL = c.rvirtsL := q7
              have q8' : c2.rpasL.Sublist c.rpasL := q8
              have hu2 : UniqueIds c2 := by
                obtain ⟨u1, u2, u3, u4, u5, u6, u7⟩ := hU
                refine ⟨?_, ?_, ?_, ?_, ?_, ?_, ?_⟩
                · rw [e1]; exact u1
                · rw [e2n]; exact u2
                · rw [e3]; exact u3
                · rw [q4,
                    updPA_aids c ai (fun x => { x with state := St.delete }) (fun _ => rfl)]
                  exact u4
                · rw [e5]; exact u5
                · exact u6.sublist (q8'.map _)
                · rw [e7]; exact u7
              refine ⟨e1, e2n, e3, e5, e6, ?_, ?_, ?_, ?_, ?_, ?_⟩
              · intro b hb hnin
                have hb2 : b ∈ c2.pasL := removePA_subset hb
                rw [q4] at hb2
                refine mem_of_mem_updPA_ne ?_ hb2 (by simpa using hnin)
                intro a; rfl
              · intro b hb hnin
                have hbne : b.aid ≠ ai := by simpa using hnin
                refine mem_removePA_of_ne ?_ (by rw [ha2aid]; exact hbne)
                rw [q4]
                exact mem_updPA_of_ne hb hbne
              · intro b hb hin
                have hbaid : b.aid = ai := by simpa using hin
                have : b.aid ≠ a2.aid := by
                  simp only [removePA, List.mem_filter] at hb
                  simpa using hb.2
                exact absurd (by rw [hbaid, ha2aid]) this
              · exact uniqueIds_removePA hu2
              · exact connInv_removePA hcv hcn2
              · exact netRefs_removePA hnr2

/-- The whole attachment sweep of a net's block is a `PStep` over its id list. -/
theorem paSweep (l : List Id) :
    ∀ (c : Ctx) (evs : List Ev) (r : Ctx × List Ev),
      UniqueIds c → ConnInv c → NetRefs c →
      foldEvM decommitPAOne l (c, evs) = some r → PStep l c r.1 := by
  induction l with
  | nil =>
    intro c evs r hU hC hN h
    simp only [foldEvM] at h
    cases h
    exact pstep_nil hU hC hN
  | cons ai rest ih =>
    intro c evs r hU hC hN h
    simp only [foldEvM] at h
    cases hf : decommitPAOne c ai with
    | none => rw [hf] at h; cases h
    | some r1 =>
      rw [hf] at h
      have h1 := decommitPAOne_step ai c r1 hU hC hN hf
      exact pstep_cons h1 (ih r1.1 (evs ++ r1.2) r h1.uq h1.cn h1.nr h)

/-! ## The net step of a decommit block -/

theorem mem_updNet_of_ne {ctx : Ctx} {i : Id} {f : Net → Net} {n : Net}
    (hn : n ∈ ctx.netsL) (hne : n.nid ≠ i) : n ∈ (updNet ctx i f).netsL := by
  simp only [updNet, List.mem_map]
  exact ⟨n, hn, by simp [hne]⟩

theorem mem_of_mem_updNet_ne {ctx : Ctx} {i : Id} {f : Net → Net}
    (hf : ∀ n, (f n).nid = n.nid) {m : Net}
    (hm : m ∈ (updNet ctx i f).netsL) (hne : m.nid ≠ i) : m ∈ ctx.netsL := by
  simp only [updNet, List.mem_map] at hm
  obtain ⟨n, hn, hmap⟩ := hm
  by_cases h : n.nid = i
  · rw [if_pos h] at hmap
    exact absurd (by rw [← hmap, hf n, h]) hne
  · rw [if_neg h] at hmap
    exact hmap ▸ hn

theorem updNet_nids (ctx : Ctx) (i : Id) (f : Net → Net)
    (hf : ∀ n, (f n).nid = n.nid) :
    (updNet ctx i f).netsL.map (fun n => n.nid) = ctx.netsL.map (fun n => n.nid) := by
  simp only [updNet, List.map_map]
  refine List.map_congr_left (fun n _ => ?_)
  by_cases h : n.nid = i <;> simp [h, hf]

theorem removeNet_subset {ctx : Ctx} {i : Id} {n : Net}
    (hn : n ∈ (removeNet ctx i).netsL) : n ∈ ctx.netsL := by
  simp only [removeNet, List.mem_filter] at hn
  exact hn.1

theorem mem_removeNet_of_ne {ctx : Ctx} {i : Id} {n : Net}
    (hn : n ∈ ctx.netsL) (hne : n.nid ≠ i) : n ∈ (removeNet ctx i).netsL := by
  simp only [removeNet, List.mem_filter]
  exact ⟨hn, by simpa using hne⟩

theorem uniqueIds_updNet {c : Ctx} {i : Id} {f : Net → Net}
    (hf : ∀ n, (f n).nid = n.nid) (h : UniqueIds c) : UniqueIds (updNet c i f) := by
  obtain ⟨h1, h2, h3, h4, h5, h6, h7⟩ := h
  exact ⟨h1, by rw [updNet_nids c i f hf]; exact h2, h3, h4, h5, h6, h7⟩

theorem uniqueIds_removeNet {c : Ctx} {i : Id} (h : UniqueIds c) :
    UniqueIds (removeNet c i) := by
  obtain ⟨h1, h2, h3, h4, h5, h6, h7⟩ := h
  exact ⟨h1, h2.sublist ((List.filter_sublist c.netsL).map _), h3, h4, h5, h6, h7⟩

theorem netRefs_updNet {c : Ctx} {i : Id} {f : Net → Net}
    (hf : ∀ n, (f n).nid = n.nid) (h : NetRefs c) : NetRefs (updNet c i f) := by
  have key : ∀ j : Id, (∃ n ∈ c.netsL, n.nid = j) →
      ∃ n ∈ (updNet c i f).netsL, n.nid = j := by
    intro j ⟨n, hn, hj⟩
    by_cases hc : n.nid = i
    · exact ⟨f n, by simp only [updNet, List.mem_map]; exact ⟨n, hn, by rw [if_pos hc]⟩,
        by rw [hf n, hj]⟩
    · exact ⟨n, mem_updNet_of_ne hn hc, hj⟩
  exact ⟨fun v hv => key _ (h.1 v hv), fun a ha => key _ (h.2 a ha)⟩

/-- `net_do_free` succeeds exactly when nothing of the net remains. -/
theorem net_do_free_some {c : Ctx} {n : Id} {c' : Ctx}
    (h : net_do_free c n = some c') :
    c' = removeNet c n ∧ pasOfNet c n = [] ∧ virtsOfNet c n = [] := by
  unfold net_do_free at h
  by_cases h1 : pasOfNet c n = []
  · by_cases h2 : virtsOfNet c n = []
    · rw [if_neg (by simpa using h1), if_neg (by simpa using h2)] at h
      cases h
      exact ⟨rfl, h1, h2⟩
    · rw [if_neg (by simpa using h1), if_pos (by simpa using h2)] at h
      cases h
  · rw [if_pos (by simpa using h1)] at h
    cases h

theorem netRefs_removeNet {c : Ctx} {i : Id}
    (hpa : pasOfNet c i = []) (hv : virtsOfNet c i = [])
    (h : NetRefs c) : NetRefs (removeNet c i) := by
  constructor
  · intro v hv2
    obtain ⟨n, hn, hnid⟩ := h.1 v hv2
    have hvne : v.network ≠ i := by
      intro he
      have : v ∈ virtsOfNet c i := by
        simp only [virtsOfNet, List.mem_filter]
        exact ⟨hv2, by simpa using he⟩
      rw [hv] at this
      exact absurd this (List.not_mem_nil _)
    exact ⟨n, mem_removeNet_of_ne hn (by rw [hnid]; exact hvne), hnid⟩
  · intro a ha
    obtain ⟨n, hn, hnid⟩ := h.2 a ha
    have hane : a.net ≠ i := by
      intro he
      have : a ∈ pasOfNet c i := by
        simp only [pasOfNet, List.mem_filter]
        exact ⟨ha, by simpa using he⟩
      rw [hpa] at this
      exact absurd this (List.not_mem_nil _)
    exact ⟨n, mem_removeNet_of_ne hn (by rw [hnid]; exact hane), hnid⟩

/-! ## Frames on the remote-view lists through the decommit sweep -/

/-- The virt step keeps `rpasL` and only drops remote-virt views. -/
theorem decommitVirtOne_remote (c : Ctx) (vi : Id) :
    (decommitVirtOne c vi).1.rpasL = c.rpasL ∧
    (decommitVirtOne c vi).1.rvirtsL.Sublist c.rvirtsL := by
  unfold decommitVirtOne
  cases hfind : findVirt c vi with
  | none => exact ⟨rfl, List.Sublist.refl _⟩
  | some v =>
    dsimp only
    set c1 := updVirt c vi (fun x => { x with state := (ack_uncommit v.state).2 }) with hc1
    by_cases hb : (ack_uncommit v.state).1
    · rw [if_pos hb]
      obtain ⟨_, _, _, _, hrpa, _, ⟨p, hrv⟩, _⟩ := decommit_virt_out c1 vi
      have hsub2 : (decommit_virt c1 vi).1.rvirtsL.Sublist c.rvirtsL := by
        rw [hrv]
        exact List.filter_sublist (l := c1.rvirtsL)
      by_cases hs : (ack_uncommit v.state).2 = St.delete
      · rw [if_pos hs]
        cases hfind2 : findVirt (decommit_virt c1 vi).1 vi with
        | none => exact ⟨hrpa, hsub2⟩
        | some v2 =>
          dsimp only [virt_do_free]
          cases v2.connected_through with
          | none => exact ⟨hrpa, hsub2⟩
          | some a =>
            dsimp only
            rcases free_pa_if_possible_frames
                (removeVirt (decommit_virt c1 vi).1 v2.vid) a with ⟨_, _, _, _, h5, h6, _⟩
            exact ⟨by rw [h5]; exact hrpa, by rw [h6]; exact hsub2⟩
      · rw [if_neg hs]
        exact ⟨hrpa, hsub2⟩
    · rw [if_neg hb]
      exact ⟨rfl, List.Sublist.refl _⟩

/-- The whole virt sweep keeps `rpasL` and only drops remote-virt views. -/
theorem virtSweep_remote (l : List Id) :
    ∀ (c : Ctx) (evs : List Ev),
      (l.foldl (fun (acc : Ctx × List Ev) vi =>
        let r := decommitVirtOne acc.1 vi
        (r.1, acc.2 ++ r.2)) (c, evs)).1.rpasL = c.rpasL ∧
      (l.foldl (fun (acc : Ctx × List Ev) vi =>
        let r := decommitVirtOne acc.1 vi
        (r.1, acc.2 ++ r.2)) (c, evs)).1.rvirtsL.Sublist c.rvirtsL := by
  induction l with
  | nil => intro c evs; exact ⟨rfl, List.Sublist.refl _⟩
  | cons vi rest ih =>
    intro c evs
    obtain ⟨h1, h2⟩ := decommitVirtOne_remote c vi
    obtain ⟨ih1, ih2⟩ := ih (decommitVirtOne c vi).1 (evs ++ (decommitVirtOne c vi).2)
    exact ⟨ih1.trans h1, ih2.trans h2⟩

/-- The attachment step keeps `rvirtsL` and only drops remote-PA views. -/
theorem decommitPAOne_remote {c : Ctx} {ai : Id} {r : Ctx × List Ev}
    (h : decommitPAOne c ai = some r) :
    r.1.rvirtsL = c.rvirtsL ∧ r.1.rpasL.Sublist c.rpasL := by
  unfold decommitPAOne at h
  cases hfind : findPA c ai with
  | none =>
    rw [hfind] at h
    cases h
    exact ⟨rfl, List.Sublist.refl _⟩
  | some a =>
    rw [hfind] at h
    dsimp only at h
    set c1 := updPA c ai (fun x => { x with state := (ack_uncommit a.state).2 }) with hc1
    by_cases hb : (ack_uncommit a.state).1
    · rw [if_pos hb] at h
      cases hdec : decommit_pa c1 { a with state := (ack_uncommit a.state).2 } with
      | none => rw [hdec] at h; cases h
      | some r2 =>
        rw [hdec] at h
        obtain ⟨c2, ev2⟩ := r2
        obtain ⟨_, _, _, _, _, _, q7, q8⟩ := decommit_pa_out hdec
        dsimp only at h
        by_cases hs : (ack_uncommit a.state).2 = St.delete
        · rw [if_pos hs] at h
          cases hfind2 : findPA c2 ai with
          | none =>
            rw [hfind2] at h
            cases h
            exact ⟨q7, q8⟩
          | some a2 =>
            rw [hfind2] at h
            dsimp only [pa_do_free] at h
            by_cases hcv : connectedVirts c2 a2.aid = []
            · rw [if_neg (by simpa using hcv)] at h
              by_cases hexp : a2.explicitely_attached = true
              · rw [if_pos hexp] at h
                cases h
              · rw [if_neg hexp] at h
                cases h
                exact ⟨q7, q8⟩
            · rw [if_pos (by simpa using hcv)] at h
              cases h
        · rw [if_neg hs] at h
          cases h
          exact ⟨q7, q8⟩
    · rw [if_neg hb] at h
      cases h
      exact ⟨rfl, List.Sublist.refl _⟩

/-- The whole attachment sweep keeps `rvirtsL` and only drops remote-PA views. -/
theorem paSweep_remote (l : List Id) :
    ∀ (c : Ctx) (evs : List Ev) (r : Ctx × List Ev),
      foldEvM decommitPAOne l (c, evs) = some r →
      r.1.rvirtsL = c.rvirtsL ∧ r.1.rpasL.Sublist c.rpasL := by
  intro c evs r h
  refine @foldEvM_rel decommitPAOne
    (fun x y => y.rvirtsL = x.rvirtsL ∧ y.rpasL.Sublist x.rpasL)
    (fun x => ⟨rfl, List.Sublist.refl _⟩)
    (fun x y z hxy hyz => ⟨by rw [hyz.1, hxy.1], hyz.2.trans hxy.2⟩)
    (fun x i r2 hf => decommitPAOne_remote hf)
    l c evs r h

/-! ## One net's whole decommit block -/

/-- Postcondition of `decommitNetOne` on net `ni`: frames on the untouched
parts, processed-object guarantees (non-DELETE, non-DELETE origin with the
same identity and attributes) on the net itself and its virts and
attachments. -/
structure NStep (ni : Id) (c c' : Ctx) : Prop where
  settings_eq : c'.settingsL = c.settingsL
  phys_eq : c'.physL = c.physL
  next_eq : c'.next_id = c.next_id
  rpa_sub : c'.rpasL.Sublist c.rpasL
  rv_sub : c'.rvirtsL.Sublist c.rvirtsL
  net_mem_of : ∀ n ∈ c'.netsL, n.nid ≠ ni → n ∈ c.netsL
  net_mem_to : ∀ n ∈ c.netsL, n.nid ≠ ni → n ∈ c'.netsL
  net_proc : ∀ n ∈ c'.netsL, n.nid = ni → n.state ≠ .delete ∧
    ∃ n0 ∈ c.netsL, n0.nid = n.nid ∧ n0.settings = n.settings ∧
      n0.vnet_id = n.vnet_id ∧ n0.state ≠ .delete
  virt_mem_of : ∀ v ∈ c'.virtsL, v.network ≠ ni → v ∈ c.virtsL
  virt_mem_to : ∀ v ∈ c.virtsL, v.network ≠ ni → v ∈ c'.virtsL
  virt_proc : ∀ v ∈ c'.virtsL, v.network = ni → v.state ≠ .delete ∧
    ∃ v0 ∈ c.virtsL, v0.vid = v.vid ∧ v0.network = v.network ∧ v0.state ≠ .delete
  pa_mem_of : ∀ a ∈ c'.pasL, a.net ≠ ni → a ∈ c.pasL
  pa_mem_to : ∀ a ∈ c.pasL, a.net ≠ ni → a ∈ c'.pasL
  pa_proc : ∀ a ∈ c'.pasL, a.net = ni → a.state ≠ .delete ∧
    ∃ a0 ∈ c.pasL, a0.aid = a.aid ∧ a0.net = a.net ∧ a0.phys = a.phys ∧
      a0.explicitely_attached = a.explicitely_attached ∧ a0.state ≠ .delete
  uq : UniqueIds c'
  cn : ConnInv c'
  nr : NetRefs c'

theorem eq_of_mem_nodup_nid {l : List Net} (h : (l.map (fun n => n.nid)).Nodup)
    {m n : Net} (hm : m ∈ l) (hn : n ∈ l) (hid : m.nid = n.nid) : m = n :=
  List.inj_on_of_nodup_map h hm hn hid

/-- One whole net block of the decommit sweep is an `NStep`. -/
theorem decommitNetOne_nstep {c : Ctx} {ni : Id} {r : Ctx × List Ev}
    (hU : UniqueIds c) (hC : ConnInv c) (hN : NetRefs c)
    (h : decommitNetOne c ni = some r) : NStep ni c r.1 := by
  unfold decommitNetOne at h
  dsimp only at h
  rcases hfold1 : List.foldl (fun (acc : Ctx × List Ev) vi =>
      let r := decommitVirtOne acc.1 vi
      (r.1, acc.2 ++ r.2)) (c, []) ((virtsOfNet c ni).map (fun v => v.vid)) with ⟨ctx1, ev1⟩
  rw [hfold1] at h
  dsimp only at h
  have hl : ∀ vi ∈ (virtsOfNet c ni).map (fun v => v.vid),
      ∀ w ∈ c.virtsL, w.vid = vi → w.network = ni := by
    intro vi hvi w hw hwvid
    simp only [List.mem_map] at hvi
    obtain ⟨v0, hv0, hv0vid⟩ := hvi
    simp only [virtsOfNet, List.mem_filter] at hv0
    have hwv : w = v0 :=
      eq_of_mem_nodup_vid hU.2.2.2.2.1 hw hv0.1 (by rw [hwvid, hv0vid])
    rw [hwv]
    simpa using hv0.2
  have hvs : VStep ni ((virtsOfNet c ni).map (fun v => v.vid)) c ctx1 := by
    have h0 := virtSweep ni ((virtsOfNet c ni).map (fun v => v.vid)) c [] hU hC hN hl
    rw [hfold1] at h0
    exact h0
  have hrem1 : ctx1.rpasL = c.rpasL ∧ ctx1.rvirtsL.Sublist c.rvirtsL := by
    have h0 := virtSweep_remote ((virtsOfNet c ni).map (fun v => v.vid)) c []
    rw [hfold1] at h0
    exact h0
  cases hfold2 : foldEvM decommitPAOne ((pasOfNet ctx1 ni).map (fun a => a.aid))
      (ctx1, ev1) with
  | none => rw [hfold2] at h; cases h
  | some r2 =>
    rw [hfold2] at h
    obtain ⟨ctx2, ev2⟩ := r2
    dsimp only at h
    have hps : PStep ((pasOfNet ctx1 ni).map (fun a => a.aid)) ctx1 ctx2 :=
      paSweep ((pasOfNet ctx1 ni).map (fun a => a.aid)) ctx1 ev1 (ctx2, ev2)
        hvs.uq hvs.cn hvs.nr hfold2
    have hrem2 : ctx2.rvirtsL = ctx1.rvirtsL ∧ ctx2.rpasL.Sublist ctx1.rpasL :=
      paSweep_remote ((pasOfNet ctx1 ni).map (fun a => a.aid)) ctx1 ev1 (ctx2, ev2) hfold2
    have e_settings : ctx2.settingsL = c.settingsL := hps.settings_eq.trans hvs.settings_eq
    have e_nets : ctx2.netsL = c.netsL := hps.nets_eq.trans hvs.nets_eq
    have e_phys : ctx2.physL = c.physL := hps.phys_eq.trans hvs.phys_eq
    have e_next : ctx2.next_id = c.next_id := hps.next_eq.trans hvs.next_eq
    have s_rpa : ctx2.rpasL.Sublist c.rpasL := hrem1.1 ▸ hrem2.2
    have s_rv : ctx2.rvirtsL.Sublist c.rvirtsL := hrem2.1 ▸ hrem1.2
    have v_mem_of : ∀ v ∈ ctx2.virtsL, v.network ≠ ni → v ∈ c.virtsL := by
      intro v hv hne
      have hv1 : v ∈ ctx1.virtsL := hps.virts_eq ▸ hv
      refine hvs.virt_mem_of v hv1 ?_
      intro hin
      simp only [List.mem_map] at hin
      obtain ⟨v0, hv0, hv0vid⟩ := hin
      simp only [virtsOfNet, List.mem_filter] at hv0
      obtain ⟨w0, hw0, hw0vid, hw0net⟩ := hvs.virt_src v hv1
      have hveq : v0 = w0 :=
        eq_of_mem_nodup_vid hU.2.2.2.2.1 hv0.1 hw0 (by rw [hv0vid, hw0vid])
      refine hne ?_
      rw [← hw0net, ← hveq]
      simpa using hv0.2
    have v_mem_to : ∀ v ∈ c.virtsL, v.network ≠ ni → v ∈ ctx2.virtsL := by
      intro v hv hne
      have hnin : v.vid ∉ (virtsOfNet c ni).map (fun v => v.vid) := by
        intro hin
        simp only [List.mem_map] at hin
        obtain ⟨v0, hv0, hv0vid⟩ := hin
        simp only [virtsOfNet, List.mem_filter] at hv0
        have hveq : v0 = v := eq_of_mem_nodup_vid hU.2.2.2.2.1 hv0.1 hv hv0vid
        rw [hveq] at hv0
        exact hne (by simpa using hv0.2)
      rw [hps.virts_eq]
      exact hvs.virt_mem_to v hv hnin
    have v_proc : ∀ v ∈ ctx2.virtsL, v.network = ni → v.state ≠ .delete ∧
        ∃ v0 ∈ c.virtsL, v0.vid = v.vid ∧ v0.network = v.network ∧
          v0.state ≠ .delete := by
      intro v hv hnet
      have hv1 : v ∈ ctx1.virtsL := hps.virts_eq ▸ hv
      have hin : v.vid ∈ (virtsOfNet c ni).map (fun v => v.vid) := by
        by_contra hnin
        have hvc : v ∈ c.virtsL := hvs.virt_mem_of v hv1 hnin
        have hmem : v ∈ virtsOfNet c ni :=
          List.mem_filter.2 ⟨hvc, by simpa using hnet⟩
        exact hnin (List.mem_map_of_mem _ hmem)
      obtain ⟨hst, w0, hw0, hw0vid, hw0st⟩ := hvs.virt_proc v hv1 hin
      obtain ⟨w1, hw1, hw1vid, hw1net⟩ := hvs.virt_src v hv1
      have hweq : w0 = w1 :=
        eq_of_mem_nodup_vid hU.2.2.2.2.1 hw0 hw1 (by rw [hw0vid, hw1vid])
      exact ⟨hst, w0, hw0, hw0vid, by rw [hweq, hw1net], hw0st⟩
    have a_mem_of : ∀ a ∈ ctx2.pasL, a.net ≠ ni → a ∈ c.pasL := by
      intro a ha hne
      have hnin : a.aid ∉ (pasOfNet ctx1 ni).map (fun a => a.aid) := by
        intro hin
        obtain ⟨hst, a0, ha0, ha0aid, ha0net, _, _, _⟩ := hps.pa_proc a ha hin
        simp only [List.mem_map] at hin
        obtain ⟨a1, ha1, ha1aid⟩ := hin
        simp only [pasOfNet, List.mem_filter] at ha1
        have haeq : a1 = a0 :=
          eq_of_mem_nodup_aid hvs.uq.2.2.2.1 ha1.1 ha0 (by rw [ha1aid, ha0aid])
        refine hne ?_
        rw [← ha0net, ← haeq]
        simpa using ha1.2
      have ha1 : a ∈ ctx1.pasL := hps.pa_mem_of a ha hnin
      rcases hvs.pa_evolve a ha1 with hmem | ⟨hanet, _⟩
      · exact hmem
      · exact absurd hanet hne
    have a_mem_to : ∀ a ∈ c.pasL, a.net ≠ ni → a ∈ ctx2.pasL := by
      intro a ha hne
      have ha1 : a ∈ ctx1.pasL := hvs.pa_keep a ha hne
      have hnin : a.aid ∉ (pasOfNet ctx1 ni).map (fun a => a.aid) := by
        intro hin
        simp only [List.mem_map] at hin
        obtain ⟨a1, ha1', ha1aid⟩ := hin
        simp only [pasOfNet, List.mem_filter] at ha1'
        have haeq : a1 = a :=
          eq_of_mem_nodup_aid hvs.uq.2.2.2.1 ha1'.1 ha1 ha1aid
        rw [haeq] at ha1'
        exact hne (by simpa using ha1'.2)
      exact hps.pa_mem_to a ha1 hnin
    have a_proc : ∀ a ∈ ctx2.pasL, a.net = ni → a.state ≠ .delete ∧
        ∃ a0 ∈ c.pasL, a0.aid = a.aid ∧ a0.net = a.net ∧ a0.phys = a.phys ∧
          a0.explicitely_attached = a.explicitely_attached ∧ a0.state ≠ .delete := by
      intro a ha hnet
      have hin : a.aid ∈ (pasOfNet ctx1 ni).map (fun a => a.aid) := by
        by_contra hnin
        have ha1 : a ∈ ctx1.pasL := hps.pa_mem_of a ha hnin
        have hmem : a ∈ pasOfNet ctx1 ni :=
          List.mem_filter.2 ⟨ha1, by simpa using hnet⟩
        exact hnin (List.mem_map_of_mem _ hmem)
      obtain ⟨hst, a1, ha1, haid, hnet1, hphys1, hexp1, hst1⟩ := hps.pa_proc a ha hin
      rcases hvs.pa_evolve a1 ha1 with hmem | ⟨_, hdel, _⟩
      · exact ⟨hst, a1, hmem, haid, hnet1, hphys1, hexp1, hst1⟩
      · exact absurd hdel hst1
    have hu2 : UniqueIds ctx2 := hps.uq
    have hc2 : ConnInv ctx2 := hps.cn
    have hn2 : NetRefs ctx2 := hps.nr
    cases hfindn : findNet ctx2 ni with
    | none =>
      rw [hfindn] at h
      dsimp only at h
      cases h
      refine ⟨e_settings, e_phys, e_next, s_rpa, s_rv, ?_, ?_, ?_,
        v_mem_of, v_mem_to, v_proc, a_mem_of, a_mem_to, a_proc, hu2, hc2, hn2⟩
      · intro n hn _
        rw [← e_nets]
        exact hn
      · intro n hn _
        rw [e_nets]
        exact hn
      · intro n hn hnid
        have hnone := List.find?_eq_none.1 hfindn n hn
        exact absurd (by simpa using hnid) (by simpa using hnone)
    | some n =>
      rw [hfindn] at h
      dsimp only at h
      have hnmem : n ∈ ctx2.netsL := List.mem_of_find?_eq_some hfindn
      have hnnid : n.nid = ni := by simpa using List.find?_some hfindn
      by_cases hbs : (ack_uncommit n.state).1 = true ∧ (ack_uncommit n.state).2 = St.delete
      · rw [if_pos hbs] at h
        cases hfree : net_do_free (updNet ctx2 ni fun x =>
            { nid := x.nid, state := (ack_uncommit n.state).2, settings := x.settings,
              vnet_id := x.vnet_id }) ni with
        | none => rw [hfree] at h; cases h
        | some ctx4 =>
          rw [hfree] at h
          cases h
          obtain ⟨hc4, hpas0, hv0⟩ := net_do_free_some hfree
          rw [hc4]
          refine ⟨e_settings, e_phys, e_next, s_rpa, s_rv, ?_, ?_, ?_,
            v_mem_of, v_mem_to, v_proc, a_mem_of, a_mem_to, a_proc,
            uniqueIds_removeNet (uniqueIds_updNet (fun _ => rfl) hu2), hc2,
            netRefs_removeNet hpas0 hv0 (netRefs_updNet (fun _ => rfl) hn2)⟩
          · intro m hm hne
            have hm3 := removeNet_subset hm
            have hm2 : m ∈ ctx2.netsL := by
              refine mem_of_mem_updNet_ne ?_ hm3 hne
              intro x; rfl
            rw [e_nets] at hm2
            exact hm2
          · intro m hm hne
            exact mem_removeNet_of_ne (mem_updNet_of_ne (e_nets ▸ hm) hne) hne
          · intro m hm hnid
            simp only [removeNet, List.mem_filter] at hm
            exact absurd (by simpa using hnid) (by simpa using hm.2)
      · rw [if_neg hbs] at h
        cases h
        refine ⟨e_settings, e_phys, e_next, s_rpa, s_rv, ?_, ?_, ?_,
          v_mem_of, v_mem_to, v_proc, a_mem_of, a_mem_to, a_proc,
          uniqueIds_updNet (fun _ => rfl) hu2, hc2,
          netRefs_updNet (fun _ => rfl) hn2⟩
        · intro m hm hne
          have hm2 : m ∈ ctx2.netsL := by
            refine mem_of_mem_updNet_ne ?_ hm hne
            intro x; rfl
          rw [e_nets] at hm2
          exact hm2
        · intro m hm hne
          exact mem_updNet_of_ne (e_nets ▸ hm) hne
        · intro m hm hnid
          simp only [updNet, List.mem_map] at hm
          obtain ⟨n0, hn0, hmap⟩ := hm
          by_cases hcnid : n0.nid = ni
          · rw [if_pos hcnid] at hmap
            have hneq : n0 = n :=
              eq_of_mem_nodup_nid hu2.2.1 hn0 hnmem (by rw [hcnid, hnnid])
            have hm_state : m.state = (ack_uncommit n.state).2 := by rw [← hmap]
            have hsrc : n0 ∈ c.netsL := e_nets ▸ hn0
            have hstates : (ack_uncommit n.state).2 ≠ St.delete ∧
                n.state ≠ St.delete := by
              cases hns : n.state <;> simp [ack_uncommit, hns] at hbs ⊢
            refine ⟨by rw [hm_state]; exact hstates.1, n0, hsrc, by rw [← hmap],
              by rw [← hmap], by rw [← hmap], by rw [hneq]; exact hstates.2⟩
          · rw [if_neg hcnid] at hmap
            exact absurd (by rw [← hmap] at hnid; exact hnid) hcnid

/-! ## The whole decommit sweep over the nets -/

/-- `NStep` generalised to a list of processed nets. -/
structure NetsStep (nis : List Id) (c c' : Ctx) : Prop where
  settings_eq : c'.settingsL = c.settingsL
  phys_eq : c'.physL = c.physL
  next_eq : c'.next_id = c.next_id
  rpa_sub : c'.rpasL.Sublist c.rpasL
  rv_sub : c'.rvirtsL.Sublist c.rvirtsL
  net_mem_of : ∀ n ∈ c'.netsL, n.nid ∉ nis → n ∈ c.netsL
  net_mem_to : ∀ n ∈ c.netsL, n.nid ∉ nis → n ∈ c'.netsL
  net_proc : ∀ n ∈ c'.netsL, n.nid ∈ nis → n.state ≠ .delete ∧
    ∃ n0 ∈ c.netsL, n0.nid = n.nid ∧ n0.settings = n.settings ∧
      n0.vnet_id = n.vnet_id ∧ n0.state ≠ .delete
  virt_mem_of : ∀ v ∈ c'.virtsL, v.network ∉ nis → v ∈ c.virtsL
  virt_mem_to : ∀ v ∈ c.virtsL, v.network ∉ nis → v ∈ c'.virtsL
  virt_proc : ∀ v ∈ c'.virtsL, v.network ∈ nis → v.state ≠ .delete ∧
    ∃ v0 ∈ c.virtsL, v0.vid = v.vid ∧ v0.network = v.network ∧ v0.state ≠ .delete
  pa_mem_of : ∀ a ∈ c'.pasL, a.net ∉ nis → a ∈ c.pasL
  pa_mem_to : ∀ a ∈ c.pasL, a.net ∉ nis → a ∈ c'.pasL
  pa_proc : ∀ a ∈ c'.pasL, a.net ∈ nis → a.state ≠ .delete ∧
    ∃ a0 ∈ c.pasL, a0.aid = a.aid ∧ a0.net = a.net ∧ a0.phys = a.phys ∧
      a0.explicitely_attached = a.explicitely_attached ∧ a0.state ≠ .delete
  uq : UniqueIds c'
  cn : ConnInv c'
  nr : NetRefs c'

theorem netsstep_nil {c : Ctx} (hU : UniqueIds c) (hC : ConnInv c) (hN : NetRefs c) :
    NetsStep [] c c where
  settings_eq := rfl
  phys_eq := rfl
  next_eq := rfl
  rpa_sub := List.Sublist.refl _
  rv_sub := List.Sublist.refl _
  net_mem_of := fun n hn _ => hn
  net_mem_to := fun n hn _ => hn
  net_proc := fun _ _ hin => absurd hin (List.not_mem_nil _)
  virt_mem_of := fun v hv _ => hv
  virt_mem_to := fun v hv _ => hv
  virt_proc := fun _ _ hin => absurd hin (List.not_mem_nil _)
  pa_mem_of := fun a ha _ => ha
  pa_mem_to := fun a ha _ => ha
  pa_proc := fun _ _ hin => absurd hin (List.not_mem_nil _)
  uq := hU
  cn := hC
  nr := hN

theorem netsstep_cons {ni : Id} {nis : List Id} {c c1 c2 : Ctx}
    (h1 : NStep ni c c1) (h2 : NetsStep nis c1 c2) : NetsStep (ni :: nis) c c2 := by
  have nchain : ∀ m ∈ c1.netsL, m.state ≠ .delete →
      ∃ m0 ∈ c.netsL, m0.nid = m.nid ∧ m0.settings = m.settings ∧
        m0.vnet_id = m.vnet_id ∧ m0.state ≠ .delete := by
    intro m hm hst
    by_cases hmi : m.nid = ni
    · obtain ⟨_, m0, hm0, hf⟩ := h1.net_proc m hm hmi
      exact ⟨m0, hm0, hf⟩
    · exact ⟨m, h1.net_mem_of m hm hmi, rfl, rfl, rfl, hst⟩
  have vchain : ∀ w ∈ c1.virtsL, w.state ≠ .delete →
      ∃ w0 ∈ c.virtsL, w0.vid = w.vid ∧ w0.network = w.network ∧
        w0.state ≠ .delete := by
    intro w hw hst
    by_cases hwi : w.network = ni
    · obtain ⟨_, w0, hw0, hf⟩ := h1.virt_proc w hw hwi
      exact ⟨w0, hw0, hf⟩
    · exact ⟨w, h1.virt_mem_of w hw hwi, rfl, rfl, hst⟩
  have achain : ∀ b ∈ c1.pasL, b.state ≠ .delete →
      ∃ b0 ∈ c.pasL, b0.aid = b.aid ∧ b0.net = b.net ∧ b0.phys = b.phys ∧
        b0.explicitely_attached = b.explicitely_attached ∧ b0.state ≠ .delete := by
    intro b hb hst
    by_cases hbi : b.net = ni
    · obtain ⟨_, b0, hb0, hf⟩ := h1.pa_proc b hb hbi
      exact ⟨b0, hb0, hf⟩
    · exact ⟨b, h1.pa_mem_of b hb hbi, rfl, rfl, rfl, rfl, hst⟩
  refine ⟨h2.settings_eq.trans h1.settings_eq, h2.phys_eq.trans h1.phys_eq,
    h2.next_eq.trans h1.next_eq, h2.rpa_sub.trans h1.rpa_sub,
    h2.rv_sub.trans h1.rv_sub, ?_, ?_, ?_, ?_, ?_, ?_, ?_, ?_, ?_,
    h2.uq, h2.cn, h2.nr⟩
  · intro n hn hnin
    simp only [List.mem_cons, not_or] at hnin
    exact h1.net_mem_of n (h2.net_mem_of n hn hnin.2) hnin.1
  · intro n hn hnin
    simp only [List.mem_cons, not_or] at hnin
    exact h2.net_mem_to n (h1.net_mem_to n hn hnin.1) hnin.2
  · intro n hn hin
    by_cases hr : n.nid ∈ nis
    · obtain ⟨hst, n1, hn1, ha, hb, hcc, hst1⟩ := h2.net_proc n hn hr
      obtain ⟨n0, hn0, hf⟩ := nchain n1 hn1 hst1
      exact ⟨hst, n0, hn0, by rw [hf.1, ha], by rw [hf.2.1, hb],
        by rw [hf.2.2.1, hcc], hf.2.2.2⟩
    · have hni : n.nid = ni := by
        rcases List.mem_cons.1 hin with heq | hmm
        · exact heq
        · exact absurd hmm hr
      exact h1.net_proc n (h2.net_mem_of n hn hr) hni
  · intro v hv hnin
    simp only [List.mem_cons, not_or] at hnin
    exact h1.virt_mem_of v (h2.virt_mem_of v hv hnin.2) hnin.1
  · intro v hv hnin
    simp only [List.mem_cons, not_or] at hnin
    exact h2.virt_mem_to v (h1.virt_mem_to v hv hnin.1) hnin.2
  · intro v hv hin
    by_cases hr : v.network ∈ nis
    · obtain ⟨hst, v1, hv1, ha, hb, hst1⟩ := h2.virt_proc v hv hr
      obtain ⟨v0, hv0, hf⟩ := vchain v1 hv1 hst1
      exact ⟨hst, v0, hv0, by rw [hf.1, ha], by rw [hf.2.1, hb], hf.2.2⟩
    · have hni : v.network = ni := by
        rcases List.mem_cons.1 hin with heq | hmm
        · exact heq
        · exact absurd hmm hr
      exact h1.virt_proc v (h2.virt_mem_of v hv hr) hni
  · intro a ha hnin
    simp only [List.mem_cons, not_or] at hnin
    exact h1.pa_mem_of a (h2.pa_mem_of a ha hnin.2) hnin.1
  · intro a ha hnin
    simp only [List.mem_cons, not_or] at hnin
    exact h2.pa_mem_to a (h1.pa_mem_to a ha hnin.1) hnin.2
  · intro a ha hin
    by_cases hr : a.net ∈ nis
    · obtain ⟨hst, a1, ha1, hq1, hq2, hq3, hq4, hst1⟩ := h2.pa_proc a ha hr
      obtain ⟨a0, ha0, hf⟩ := achain a1 ha1 hst1
      exact ⟨hst, a0, ha0, by rw [hf.1, hq1], by rw [hf.2.1, hq2],
        by rw [hf.2.2.1, hq3], by rw [hf.2.2.2.1, hq4], hf.2.2.2.2⟩
    · have hni : a.net = ni := by
        rcases List.mem_cons.1 hin with heq | hmm
        · exact heq
        · exact absurd hmm hr
      exact h1.pa_proc a (h2.pa_mem_of a ha hr) hni

/-- The decommit sweep over a list of nets is a `NetsStep`. -/
theorem netSweep (l : List Id) :
    ∀ (c : Ctx) (evs : List Ev) (r : Ctx × List Ev),
      UniqueIds c → ConnInv c → NetRefs c →
      foldEvM decommitNetOne l (c, evs) = some r → NetsStep l c r.1 := by
  induction l with
  | nil =>
    intro c evs r hU hC hN h
    simp only [foldEvM] at h
    cases h
    exact netsstep_nil hU hC hN
  | cons ni rest ih =>
    intro c evs r hU hC hN h
    simp only [foldEvM] at h
    cases hf : decommitNetOne c ni with
    | none => rw [hf] at h; cases h
    | some r1 =>
      rw [hf] at h
      have h1 := decommitNetOne_nstep hU hC hN hf
      exact netsstep_cons h1 (ih r1.1 (evs ++ r1.2) r h1.uq h1.cn h1.nr h)

/-! ## The phys and settings parts of the decommit sweep -/

theorem sweepPhys_mem {l : List Phys} :
    ∀ p' ∈ sweepPhys l, p'.state ≠ .delete ∧
      ∃ p ∈ l, p.pid = p'.pid ∧ p.attr_iface = p'.attr_iface ∧
        p.attr_ip = p'.attr_ip ∧ p.is_local = p'.is_local ∧ p.state ≠ .delete := by
  intro p' hp'
  simp only [sweepPhys, List.mem_filterMap] at hp'
  obtain ⟨p, hp, hmap⟩ := hp'
  by_cases hg : (ack_uncommit p.state).1 ∧ (ack_uncommit p.state).2 = St.delete
  · rw [if_pos (by simpa using hg)] at hmap
    cases hmap
  · rw [if_neg (by simpa using hg)] at hmap
    cases hmap
    have hst : (ack_uncommit p.state).2 ≠ St.delete ∧ p.state ≠ St.delete := by
      cases hps : p.state <;> simp [ack_uncommit, hps] at hg ⊢
    exact ⟨hst.1, p, hp, rfl, rfl, rfl, rfl, hst.2⟩

theorem sweepPhys_pids (l : List Phys) :
    ((sweepPhys l).map (fun p => p.pid)).Sublist (l.map (fun p => p.pid)) := by
  induction l with
  | nil => simp [sweepPhys]
  | cons p rest ih =>
    simp only [sweepPhys, List.filterMap_cons] at ih ⊢
    by_cases hg : (ack_uncommit p.state).1 ∧ (ack_uncommit p.state).2 = St.delete
    · rw [if_pos (by simpa using hg)]
      exact ih.trans (List.sublist_cons_self _ _)
    · rw [if_neg (by simpa using hg)]
      simp only [List.map_cons]
      exact List.Sublist.cons₂ p.pid ih

theorem sweepSettings_some {ctx : Ctx} :
    ∀ {l l' : List Settings}, sweepSettings ctx l = some l' →
      (∀ s' ∈ l', s'.state ≠ .delete ∧
        ∃ s ∈ l, s.sid = s'.sid ∧ s.nettype = s'.nettype ∧
          s.switch_type = s'.switch_type ∧ s.vxlan_port = s'.vxlan_port ∧
          s.has_user_hooks = s'.has_user_hooks ∧ s.state ≠ .delete) ∧
      (∀ s ∈ l, (∃ s' ∈ l', s'.sid = s.sid) ∨ netsOfSettings ctx s.sid = []) ∧
      ((l'.map (fun s => s.sid)).Sublist (l.map (fun s => s.sid))) := by
  intro l
  induction l with
  | nil =>
    intro l' h
    simp only [sweepSettings] at h
    cases h
    exact ⟨fun s' hs' => absurd hs' (List.not_mem_nil _),
      fun s hs => absurd hs (List.not_mem_nil _), by simp⟩
  | cons s rest ih =>
    intro l' h
    simp only [sweepSettings] at h
    by_cases hg : (ack_uncommit s.state).1 ∧ (ack_uncommit s.state).2 = St.delete
    · rw [if_pos hg] at h
      by_cases hnet : netsOfSettings ctx s.sid ≠ []
      · rw [if_pos (by simpa using hnet)] at h
        cases h
      · rw [if_neg (by simpa using hnet)] at h
        obtain ⟨ih1, ih2, ih3⟩ := ih h
        refine ⟨?_, ?_, ih3.trans (List.sublist_cons_self _ _)⟩
        · intro s' hs'
          obtain ⟨hst, s0, hs0, hf⟩ := ih1 s' hs'
          exact ⟨hst, s0, List.mem_cons_of_mem _ hs0, hf⟩
        · intro s0 hs0
          rcases List.mem_cons.1 hs0 with heq | hmm
          · right
            rw [heq]
            simpa using hnet
          · rcases ih2 s0 hmm with ⟨s', hs', hsid⟩ | hempty
            · exact Or.inl ⟨s', hs', hsid⟩
            · exact Or.inr hempty
    · rw [if_neg hg] at h
      cases hrest : sweepSettings ctx rest with
      | none => rw [hrest] at h; cases h
      | some l2 =>
        rw [hrest] at h
        cases h
        obtain ⟨ih1, ih2, ih3⟩ := ih hrest
        have hsst : (ack_uncommit s.state).2 ≠ St.delete ∧ s.state ≠ St.delete := by
          cases hss : s.state <;> simp [ack_uncommit, hss] at hg ⊢
        refine ⟨?_, ?_, ?_⟩
        · intro s' hs'
          rcases List.mem_cons.1 hs' with heq | hmm
          · exact ⟨by rw [heq]; exact hsst.1, s, List.mem_cons_self _ _,
              by rw [heq], by rw [heq], by rw [heq], by rw [heq], by rw [heq],
              hsst.2⟩
          · obtain ⟨hst, s0, hs0, hf⟩ := ih1 s' hmm
            exact ⟨hst, s0, List.mem_cons_of_mem _ hs0, hf⟩
        · intro s0 hs0
          rcases List.mem_cons.1 hs0 with heq | hmm
          · exact Or.inl ⟨{ s with state := (ack_uncommit s.state).2 },
              List.mem_cons_self _ _, by rw [heq]⟩
          · rcases ih2 s0 hmm with ⟨s', hs', hsid⟩ | hempty
            · exact Or.inl ⟨s', List.mem_cons_of_mem _ hs', hsid⟩
            · exact Or.inr hempty
        · simp only [List.map_cons]
          exact List.Sublist.cons₂ s.sid ih3

/-! ## The decommit phase as a whole -/

/-- Postcondition of a successful `decommitPhase`: every survivor descends
from a non-DELETE object of the input with identity and attributes intact, no
survivor is in DELETE, dropped settings are unreferenced, the remote views
only shrink, and the structural invariants carry over. -/
structure DPost (c c' : Ctx) : Prop where
  sub_settings : SubSettings c'.settingsL c.settingsL
  sub_nets : SubNets c'.netsL c.netsL
  sub_phys : SubPhys c'.physL c.physL
  sub_pas : SubPAs c'.pasL c.pasL
  virt_src : ∀ v ∈ c'.virtsL, ∃ v0 ∈ c.virtsL, v0.vid = v.vid ∧
    v0.network = v.network ∧ v0.state ≠ .delete
  nodel : NoDelete c'
  settings_keep : ∀ s ∈ c.settingsL, (∃ s' ∈ c'.settingsL, s'.sid = s.sid) ∨
    ∀ n ∈ c'.netsL, n.settings ≠ s.sid
  next_eq : c'.next_id = c.next_id
  rpa_sub : c'.rpasL.Sublist c.rpasL
  rv_sub : c'.rvirtsL.Sublist c.rvirtsL
  uq : UniqueIds c'
  cn : ConnInv c'
  nr : NetRefs c'

theorem decommitPhase_post {c : Ctx} {r : Ctx × List Ev}
    (hU : UniqueIds c) (hC : ConnInv c) (hN : NetRefs c)
    (h : decommitPhase c = some r) : DPost c r.1 := by
  unfold decommitPhase at h
  dsimp only at h
  cases hfold : foldEvM decommitNetOne (c.netsL.map (fun n => n.nid)) (c, []) with
  | none => rw [hfold] at h; cases h
  | some r1 =>
    rw [hfold] at h
    obtain ⟨c3, ev1⟩ := r1
    dsimp only at h
    have hns := netSweep (c.netsL.map (fun n => n.nid)) c [] (c3, ev1) hU hC hN hfold
    have hnet_all : ∀ n ∈ c3.netsL, n.state ≠ .delete ∧
        ∃ n0 ∈ c.netsL, n0.nid = n.nid ∧ n0.settings = n.settings ∧
          n0.vnet_id = n.vnet_id ∧ n0.state ≠ .delete := by
      intro n hn
      refine hns.net_proc n hn ?_
      by_contra hnin
      exact hnin (List.mem_map_of_mem _ (hns.net_mem_of n hn hnin))
    have hvirt_all : ∀ v ∈ c3.virtsL, v.state ≠ .delete ∧
        ∃ v0 ∈ c.virtsL, v0.vid = v.vid ∧ v0.network = v.network ∧
          v0.state ≠ .delete := by
      intro v hv
      refine hns.virt_proc v hv ?_
      by_contra hnin
      obtain ⟨n, hn, hnid⟩ := hN.1 v (hns.virt_mem_of v hv hnin)
      exact hnin (hnid ▸ List.mem_map_of_mem _ hn)
    have hpa_all : ∀ a ∈ c3.pasL, a.state ≠ .delete ∧
        ∃ a0 ∈ c.pasL, a0.aid = a.aid ∧ a0.net = a.net ∧ a0.phys = a.phys ∧
          a0.explicitely_attached = a.explicitely_attached ∧ a0.state ≠ .delete := by
      intro a ha
      refine hns.pa_proc a ha ?_
      by_contra hnin
      obtain ⟨n, hn, hnid⟩ := hN.2 a (hns.pa_mem_of a ha hnin)
      exact hnin (hnid ▸ List.mem_map_of_mem _ hn)
    cases hsw : sweepSettings { c3 with physL := sweepPhys c3.physL } c3.settingsL with
    | none =>
      rw [hsw] at h
      cases h
    | some l' =>
      rw [hsw] at h
      cases h
      obtain ⟨sw1, sw2, sw3⟩ := sweepSettings_some hsw
      obtain ⟨u1, u2, u3, u4, u5, u6, u7⟩ := hns.uq
      refine ⟨?_, ?_, ?_, ?_, ?_, ?_, ?_, hns.next_eq, hns.rpa_sub, hns.rv_sub,
        ⟨u1.sublist sw3, u2, u3.sublist (sweepPhys_pids c3.physL), u4, u5, u6, u7⟩,
        hns.cn, hns.nr⟩
      · intro s' hs'
        obtain ⟨hst, s0, hs0, hf⟩ := sw1 s' hs'
        exact ⟨s0, hns.settings_eq ▸ hs0, hf⟩
      · intro n hn
        obtain ⟨_, n0, hn0, hf⟩ := hnet_all n hn
        exact ⟨n0, hn0, hf⟩
      · intro p' hp'
        obtain ⟨hst, p0, hp0, hf⟩ := sweepPhys_mem p' hp'
        exact ⟨p0, hns.phys_eq ▸ hp0, hf⟩
      · intro a ha
        obtain ⟨_, a0, ha0, hf⟩ := hpa_all a ha
        exact ⟨a0, ha0, hf⟩
      · intro v hv
        exact (hvirt_all v hv).2
      · exact ⟨fun s hs => (sw1 s hs).1, fun n hn => (hnet_all n hn).1,
          fun p hp => (sweepPhys_mem p hp).1, fun a ha => (hpa_all a ha).1,
          fun v hv => (hvirt_all v hv).1⟩
      · intro s hs
        rcases sw2 s (hns.settings_eq.symm ▸ hs) with hkeep | hempty
        · exact Or.inl hkeep
        · refine Or.inr (fun n hn hsid => ?_)
          have hmem : n ∈ netsOfSettings { c3 with physL := sweepPhys c3.physL } s.sid :=
            List.mem_filter.2 ⟨hn, by simpa using hsid⟩
          rw [hempty] at hmem
          exact absurd hmem (List.not_mem_nil _)

/-! ## The recommit phase -/

theorem updPhys_pids (ctx : Ctx) (i : Id) (f : Phys → Phys)
    (hf : ∀ p, (f p).pid = p.pid) :
    (updPhys ctx i f).physL.map (fun p => p.pid) = ctx.physL.map (fun p => p.pid) := by
  simp only [updPhys, List.map_map]
  refine List.map_congr_left (fun p _ => ?_)
  by_cases h : p.pid = i <;> simp [h, hf]

/-- What one recommit step leaves unchanged: everything except the phys
commit flags, the virt commit records and freshly allocated remote views. -/
structure RStep (c c' : Ctx) : Prop where
  settings_eq : c'.settingsL = c.settingsL
  nets_eq : c'.netsL = c.netsL
  pas_eq : c'.pasL = c.pasL
  phys_tup : c'.physL.map (fun p => (p.pid, p.state, p.attr_iface, p.attr_ip, p.is_local)) =
    c.physL.map (fun p => (p.pid, p.state, p.attr_iface, p.attr_ip, p.is_local))
  virt_tup : c'.virtsL.map (fun v => (v.vid, v.state, v.network, v.attr_mac,
      v.connected_through, v.connected_if)) =
    c.virtsL.map (fun v => (v.vid, v.state, v.network, v.attr_mac,
      v.connected_through, v.connected_if))
  next_mono : c.next_id ≤ c'.next_id
  uq : UniqueIds c'
  fr : FreshIds c'
  cn : ConnInv c'
  nr : NetRefs c'

theorem rstep_refl {c : Ctx} (hU : UniqueIds c) (hF : FreshIds c)
    (hC : ConnInv c) (hN : NetRefs c) : RStep c c :=
  ⟨rfl, rfl, rfl, rfl, rfl, Nat.le_refl _, hU, hF, hC, hN⟩

theorem rstep_trans {c c1 c2 : Ctx} (h1 : RStep c c1) (h2 : RStep c1 c2) :
    RStep c c2 :=
  ⟨h2.settings_eq.trans h1.settings_eq, h2.nets_eq.trans h1.nets_eq,
   h2.pas_eq.trans h1.pas_eq, h2.phys_tup.trans h1.phys_tup,
   h2.virt_tup.trans h1.virt_tup, h1.next_mono.trans h2.next_mono,
   h2.uq, h2.fr, h2.cn, h2.nr⟩

theorem rstep_updVirt {c : Ctx} (i : Id) (f : Virt → Virt)
    (hU : UniqueIds c) (hF : FreshIds c) (hC : ConnInv c) (hN : NetRefs c)
    (hf : ∀ v, (f v).vid = v.vid ∧ (f v).state = v.state ∧
      (f v).network = v.network ∧ (f v).attr_mac = v.attr_mac ∧
      (f v).connected_through = v.connected_through ∧
      (f v).connected_if = v.connected_if) :
    RStep c (updVirt c i f) := by
  refine ⟨rfl, rfl, rfl, rfl, ?_, Nat.le_refl _,
    uniqueIds_updVirt (fun v => (hf v).1) hU, ?_,
    connInv_updVirt (fun v => ⟨(hf v).2.2.1, (hf v).2.2.2.2.1⟩) hC,
    netRefs_updVirt (fun v => (hf v).2.2.1) hN⟩
  · simp only [updVirt, List.map_map]
    refine List.map_congr_left (fun v _ => ?_)
    by_cases h : v.vid = i
    · simp only [h, if_true, Function.comp]
      obtain ⟨h1, h2, h3, h4, h5, h6⟩ := hf v
      rw [h1, h2, h3, h4, h5, h6, h]
    · simp [h]
  · obtain ⟨f1, f2, f3, f4, f5, f6, f7⟩ := hF
    refine ⟨f1, f2, f3, f4, ?_, f6, f7⟩
    intro v hv
    simp only [updVirt, List.mem_map] at hv
    obtain ⟨v0, hv0, hmap⟩ := hv
    by_cases h : v0.vid = i
    · rw [if_pos h] at hmap
      rw [← hmap, (hf v0).1]
      exact f5 v0 hv0
    · rw [if_neg h] at hmap
      rw [← hmap]
      exact f5 v0 hv0

theorem rstep_updPhys {c : Ctx} (i : Id) (f : Phys → Phys)
    (hU : UniqueIds c) (hF : FreshIds c) (hC : ConnInv c) (hN : NetRefs c)
    (hf : ∀ p, (f p).pid = p.pid ∧ (f p).state = p.state ∧
      (f p).attr_iface = p.attr_iface ∧ (f p).attr_ip = p.attr_ip ∧
      (f p).is_local = p.is_local) :
    RStep c (updPhys c i f) := by
  refine ⟨rfl, rfl, rfl, ?_, rfl, Nat.le_refl _, ?_, ?_, hC, hN⟩
  · simp only [updPhys, List.map_map]
    refine List.map_congr_left (fun p _ => ?_)
    by_cases h : p.pid = i
    · simp only [h, if_true, Function.comp]
      obtain ⟨h1, h2, h3, h4, h5⟩ := hf p
      rw [h1, h2, h3, h4, h5, h]
    · simp [h]
  · obtain ⟨u1, u2, u3, u4, u5, u6, u7⟩ := hU
    exact ⟨u1, u2, by rw [updPhys_pids c i f (fun p => (hf p).1)]; exact u3, u4, u5, u6, u7⟩
  · obtain ⟨f1, f2, f3, f4, f5, f6, f7⟩ := hF
    refine ⟨f1, f2, ?_, f4, f5, f6, f7⟩
    intro p hp
    simp only [updPhys, List.mem_map] at hp
    obtain ⟨p0, hp0, hmap⟩ := hp
    by_cases h : p0.pid = i
    · rw [if_pos h] at hmap
      rw [← hmap, (hf p0).1]
      exact f3 p0 hp0
    · rw [if_neg h] at hmap
      rw [← hmap]
      exact f3 p0 hp0

theorem rstep_append_rpa {c : Ctx} (x : RemotePA) (hx : x.rid = c.next_id)
    (hU : UniqueIds c) (hF : FreshIds c) (hC : ConnInv c) (hN : NetRefs c) :
    RStep c { c with rpasL := c.rpasL ++ [x], next_id := c.next_id + 1 } := by
  refine ⟨rfl, rfl, rfl, rfl, rfl, Nat.le_succ _, ?_, ?_, hC, hN⟩
  · obtain ⟨u1, u2, u3, u4, u5, u6, u7⟩ := hU
    refine ⟨u1, u2, u3, u4, u5, ?_, u7⟩
    show ((c.rpasL ++ [x]).map (fun r => r.rid)).Nodup
    rw [List.map_append]
    simp only [List.map_cons, List.map_nil]
    rw [List.nodup_append]
    refine ⟨u6, List.nodup_singleton _, ?_⟩
    intro a ha hb
    simp only [List.mem_singleton] at hb
    simp only [List.mem_map] at ha
    obtain ⟨r0, hr0, hrid⟩ := ha
    have := hF.2.2.2.2.2.1 r0 hr0
    rw [hrid, hb, hx] at this
    exact absurd this (Nat.lt_irrefl _)
  · obtain ⟨f1, f2, f3, f4, f5, f6, f7⟩ := hF
    refine ⟨fun s hs => Nat.lt_succ_of_lt (f1 s hs),
      fun n hn => Nat.lt_succ_of_lt (f2 n hn),
      fun p hp => Nat.lt_succ_of_lt (f3 p hp),
      fun a ha => Nat.lt_succ_of_lt (f4 a ha),
      fun v hv => Nat.lt_succ_of_lt (f5 v hv), ?_,
      fun rv hrv => Nat.lt_succ_of_lt (f7 rv hrv)⟩
    intro r0 hr0
    rcases List.mem_append.1 hr0 with hmm | hend
    · exact Nat.lt_succ_of_lt (f6 r0 hmm)
    · simp only [List.mem_singleton] at hend
      rw [hend, hx]
      exact Nat.lt_succ_self _

theorem rstep_append_rvirt {c : Ctx} (x : RemoteVirt) (hx : x.rvid = c.next_id)
    (hU : UniqueIds c) (hF : FreshIds c) (hC : ConnInv c) (hN : NetRefs c) :
    RStep c { c with rvirtsL := c.rvirtsL ++ [x], next_id := c.next_id + 1 } := by
  refine ⟨rfl, rfl, rfl, rfl, rfl, Nat.le_succ _, ?_, ?_, hC, hN⟩
  · obtain ⟨u1, u2, u3, u4, u5, u6, u7⟩ := hU
    refine ⟨u1, u2, u3, u4, u5, u6, ?_⟩
    show ((c.rvirtsL ++ [x]).map (fun r => r.rvid)).Nodup
    rw [List.map_append]
    simp only [List.map_cons, List.map_nil]
    rw [List.nodup_append]
    refine ⟨u7, List.nodup_singleton _, ?_⟩
    intro a ha hb
    simp only [List.mem_singleton] at hb
    simp only [List.mem_map] at ha
    obtain ⟨r0, hr0, hrid⟩ := ha
    have := hF.2.2.2.2.2.2 r0 hr0
    rw [hrid, hb, hx] at this
    exact absurd this (Nat.lt_irrefl _)
  · obtain ⟨f1, f2, f3, f4, f5, f6, f7⟩ := hF
    refine ⟨fun s hs => Nat.lt_succ_of_lt (f1 s hs),
      fun n hn => Nat.lt_succ_of_lt (f2 n hn),
      fun p hp => Nat.lt_succ_of_lt (f3 p hp),
      fun a ha => Nat.lt_succ_of_lt (f4 a ha),
      fun v hv => Nat.lt_succ_of_lt (f5 v hv),
      fun r0 hr0 => Nat.lt_succ_of_lt (f6 r0 hr0), ?_⟩
    intro r0 hr0
    rcases List.mem_append.1 hr0 with hmm | hend
    · exact Nat.lt_succ_of_lt (f7 r0 hmm)
    · simp only [List.mem_singleton] at hend
      rw [hend, hx]
      exact Nat.lt_succ_self _

/-- `RStep` survives any fold whose every step is an `RStep`. -/
theorem rstep_foldl {α : Type} {g : Ctx × List Ev → α → Ctx × List Ev}
    (hg : ∀ acc x, UniqueIds acc.1 → FreshIds acc.1 → ConnInv acc.1 →
      NetRefs acc.1 → RStep acc.1 (g acc x).1) :
    ∀ (l : List α) (acc : Ctx × List Ev) {c : Ctx}, RStep c acc.1 →
      RStep c (l.foldl g acc).1 := by
  intro l
  induction l with
  | nil => intro acc c h; exact h
  | cons x rest ih =>
    intro acc c h
    exact ih (g acc x) (rstep_trans h (hg acc x h.uq h.fr h.cn h.nr))

/-- `commit_pa` records commit bookkeeping and allocates remote views, but
leaves the graph structure and lifecycle states alone. -/
theorem commit_pa_rstep (c : Ctx) (ai : Id)
    (hU : UniqueIds c) (hF : FreshIds c) (hC : ConnInv c) (hN : NetRefs c) :
    RStep c (commit_pa c ai).1 := by
  unfold commit_pa
  cases hfind : findPA c ai with
  | none => exact rstep_refl hU hF hC hN
  | some pa =>
    dsimp only
    refine rstep_foldl ?_ _ _ (rstep_foldl ?_ _ _ (rstep_foldl ?_ _ _
      (rstep_refl hU hF hC hN)))
    · intro acc x hu hf hc hn
      refine rstep_foldl ?_ _ _ (rstep_refl hu hf hc hn)
      intro acc2 wi hu2 hf2 hc2 hn2
      cases hfw : findVirt acc2.1 wi with
      | none => exact rstep_refl hu2 hf2 hc2 hn2
      | some w =>
        dsimp only
        by_cases hws : w.state = St.new
        · rw [if_pos hws]
          exact rstep_append_rvirt _ rfl hu2 hf2 hc2 hn2
        · rw [if_neg hws]
          exact rstep_refl hu2 hf2 hc2 hn2
    · intro acc x hu hf hc hn
      exact rstep_append_rpa _ rfl hu hf hc hn
    · intro acc vi hu hf hc hn
      cases hfv : findVirt acc.1 vi with
      | none => exact rstep_refl hu hf hc hn
      | some v =>
        dsimp only
        by_cases hvs : v.state = St.new
        · rw [if_pos hvs]
          exact rstep_updVirt vi _ hu hf hc hn
            (fun x => ⟨rfl, rfl, rfl, rfl, rfl, rfl⟩)
        · rw [if_neg hvs]
          exact rstep_refl hu hf hc hn

/-- The whole recommit phase is an `RStep`. -/
theorem recommitPhase_rstep (c : Ctx)
    (hU : UniqueIds c) (hF : FreshIds c) (hC : ConnInv c) (hN : NetRefs c) :
    RStep c (recommitPhase c).1 := by
  unfold recommitPhase
  refine rstep_foldl ?_ _ _ (rstep_refl hU hF hC hN)
  intro acc pi hu hf hc hn
  cases hfp : findPhys acc.1 pi with
  | none => exact rstep_refl hu hf hc hn
  | some p =>
    dsimp only
    by_cases hpl : p.is_local = true
    · rw [if_pos hpl]
      have hbase : RStep acc.1 (updPhys acc.1 pi
          (fun x => { x with commited_as_local := true })) :=
        rstep_updPhys pi _ hu hf hc hn (fun x => ⟨rfl, rfl, rfl, rfl, rfl⟩)
      refine rstep_foldl ?_ _ _ hbase
      intro acc2 ai hu2 hf2 hc2 hn2
      exact commit_pa_rstep acc2.1 ai hu2 hf2 hc2 hn2
    · rw [if_neg hpl]
      exact rstep_refl hu hf hc hn

/-! ## The ack phase -/

theorem ack_state_of_ne_delete {s : St} (h : s ≠ .delete) : ack_state s = .ok := by
  cases s <;> simp [ack_state] at h ⊢

theorem ackPhase_allok {c : Ctx} (hD : NoDelete c) (hN : NetRefs c) :
    AllOK (ackPhase c) := by
  obtain ⟨d1, d2, d3, d4, d5⟩ := hD
  refine ⟨?_, ?_, ?_, ?_, ?_⟩
  · intro s hs
    simp only [ackPhase, List.mem_map] at hs
    obtain ⟨s0, hs0, hmap⟩ := hs
    rw [← hmap]
    exact ack_state_of_ne_delete (d1 s0 hs0)
  · intro n hn
    simp only [ackPhase, List.mem_map] at hn
    obtain ⟨n0, hn0, hmap⟩ := hn
    rw [← hmap]
    exact ack_state_of_ne_delete (d2 n0 hn0)
  · intro p hp
    simp only [ackPhase, List.mem_map] at hp
    obtain ⟨p0, hp0, hmap⟩ := hp
    rw [← hmap]
    exact ack_state_of_ne_delete (d3 p0 hp0)
  · intro a ha
    simp only [ackPhase, List.mem_map] at ha
    obtain ⟨a0, ha0, hmap⟩ := ha
    obtain ⟨n, hn, hnid⟩ := hN.2 a0 ha0
    have hsome : (findNet c a0.net).isSome := by
      rw [findNet, List.find?_isSome]
      exact ⟨n, hn, by simpa using hnid⟩
    rw [if_pos hsome] at hmap
    rw [← hmap]
    exact ack_state_of_ne_delete (d4 a0 ha0)
  · intro v hv
    simp only [ackPhase, List.mem_map] at hv
    obtain ⟨v0, hv0, hmap⟩ := hv
    obtain ⟨n, hn, hnid⟩ := hN.1 v0 hv0
    have hsome : (findNet c v0.network).isSome := by
      rw [findNet, List.find?_isSome]
      exact ⟨n, hn, by simpa using hnid⟩
    rw [if_pos hsome] at hmap
    rw [← hmap]
    exact ack_state_of_ne_delete (d5 v0 hv0)

theorem ackPhase_settings_mem {c : Ctx} :
    ∀ s' ∈ (ackPhase c).settingsL, ∃ s ∈ c.settingsL, s.sid = s'.sid ∧
      s.nettype = s'.nettype ∧ s.switch_type = s'.switch_type ∧
      s.vxlan_port = s'.vxlan_port ∧ s.has_user_hooks = s'.has_user_hooks ∧
      s'.state = ack_state s.state := by
  intro s' hs'
  simp only [ackPhase, List.mem_map] at hs'
  obtain ⟨s, hs, hmap⟩ := hs'
  exact ⟨s, hs, by rw [← hmap], by rw [← hmap], by rw [← hmap], by rw [← hmap],
    by rw [← hmap], by rw [← hmap]⟩

theorem ackPhase_nets_mem {c : Ctx} :
    ∀ n' ∈ (ackPhase c).netsL, ∃ n ∈ c.netsL, n.nid = n'.nid ∧
      n.settings = n'.settings ∧ n.vnet_id = n'.vnet_id ∧
      n'.state = ack_state n.state := by
  intro n' hn'
  simp only [ackPhase, List.mem_map] at hn'
  obtain ⟨n, hn, hmap⟩ := hn'
  exact ⟨n, hn, by rw [← hmap], by rw [← hmap], by rw [← hmap], by rw [← hmap]⟩

theorem ackPhase_phys_mem {c : Ctx} :
    ∀ p' ∈ (ackPhase c).physL, ∃ p ∈ c.physL, p.pid = p'.pid ∧
      p.attr_iface = p'.attr_iface ∧ p.attr_ip = p'.attr_ip ∧
      p.is_local = p'.is_local ∧ p'.state = ack_state p.state := by
  intro p' hp'
  simp only [ackPhase, List.mem_map] at hp'
  obtain ⟨p, hp, hmap⟩ := hp'
  exact ⟨p, hp, by rw [← hmap], by rw [← hmap], by rw [← hmap], by rw [← hmap],
    by rw [← hmap]⟩

theorem ackPhase_pas_mem {c : Ctx} :
    ∀ a' ∈ (ackPhase c).pasL, ∃ a ∈ c.pasL, a.aid = a'.aid ∧
      a.net = a'.net ∧ a.phys = a'.phys ∧
      a.explicitely_attached = a'.explicitely_attached ∧
      (a'.state = ack_state a.state ∨ a'.state = a.state) := by
  intro a' ha'
  simp only [ackPhase, List.mem_map] at ha'
  obtain ⟨a, ha, hmap⟩ := ha'
  by_cases hg : (findNet c a.net).isSome
  · rw [if_pos hg] at hmap
    exact ⟨a, ha, by rw [← hmap], by rw [← hmap], by rw [← hmap], by rw [← hmap],
      Or.inl (by rw [← hmap])⟩
  · rw [if_neg hg] at hmap
    exact ⟨a, ha, by rw [← hmap], by rw [← hmap], by rw [← hmap], by rw [← hmap],
      Or.inr (by rw [← hmap])⟩

theorem ackPhase_virts_mem {c : Ctx} :
    ∀ v' ∈ (ackPhase c).virtsL, ∃ v ∈ c.virtsL, v.vid = v'.vid ∧
      v.network = v'.network ∧ v.attr_mac = v'.attr_mac ∧
      v.connected_through = v'.connected_through ∧
      v.connected_if = v'.connected_if ∧
      (v'.state = ack_state v.state ∨ v'.state = v.state) := by
  intro v' hv'
  simp only [ackPhase, List.mem_map] at hv'
  obtain ⟨v, hv, hmap⟩ := hv'
  by_cases hg : (findNet c v.network).isSome
  · rw [if_pos hg] at hmap
    exact ⟨v, hv, by rw [← hmap], by rw [← hmap], by rw [← hmap], by rw [← hmap],
      by rw [← hmap], Or.inl (by rw [← hmap])⟩
  · rw [if_neg hg] at hmap
    exact ⟨v, hv, by rw [← hmap], by rw [← hmap], by rw [← hmap], by rw [← hmap],
      by rw [← hmap], Or.inr (by rw [← hmap])⟩

theorem ackPhase_wf {c : Ctx} (hU : UniqueIds c) (hF : FreshIds c)
    (hC : ConnInv c) (hN : NetRefs c) :
    UniqueIds (ackPhase c) ∧ FreshIds (ackPhase c) ∧ ConnInv (ackPhase c) ∧
      NetRefs (ackPhase c) := by
  have es : (ackPhase c).settingsL.map (fun s => s.sid) = c.settingsL.map (fun s => s.sid) := by
    simp only [ackPhase, List.map_map]
    exact List.map_congr_left (fun s _ => rfl)
  have en : (ackPhase c).netsL.map (fun n => n.nid) = c.netsL.map (fun n => n.nid) := by
    simp only [ackPhase, List.map_map]
    exact List.map_congr_left (fun n _ => rfl)
  have ep : (ackPhase c).physL.map (fun p => p.pid) = c.physL.map (fun p => p.pid) := by
    simp only [ackPhase, List.map_map]
    exact List.map_congr_left (fun p _ => rfl)
  have ea : (ackPhase c).pasL.map (fun a => a.aid) = c.pasL.map (fun a => a.aid) := by
    simp only [ackPhase, List.map_map]
    refine List.map_congr_left (fun a _ => ?_)
    by_cases hg : (findNet c a.net).isSome <;> simp [hg, Function.comp]
  have ev : (ackPhase c).virtsL.map (fun v => v.vid) = c.virtsL.map (fun v => v.vid) := by
    simp only [ackPhase, List.map_map]
    refine List.map_congr_left (fun v _ => ?_)
    by_cases hg : (findNet c v.network).isSome <;> simp [hg, Function.comp]
  obtain ⟨u1, u2, u3, u4, u5, u6, u7⟩ := hU
  obtain ⟨f1, f2, f3, f4, f5, f6, f7⟩ := hF
  refine ⟨⟨by rw [es]; exact u1, by rw [en]; exact u2, by rw [ep]; exact u3,
    by rw [ea]; exact u4, by rw [ev]; exact u5, u6, u7⟩, ?_, ?_, ?_⟩
  · refine ⟨?_, ?_, ?_, ?_, ?_, f6, f7⟩
    · intro s hs
      obtain ⟨s0, hs0, hsid, _⟩ := ackPhase_settings_mem s hs
      rw [← hsid]
      exact f1 s0 hs0
    · intro n hn
      obtain ⟨n0, hn0, hnid, _⟩ := ackPhase_nets_mem n hn
      rw [← hnid]
      exact f2 n0 hn0
    · intro p hp
      obtain ⟨p0, hp0, hpid, _⟩ := ackPhase_phys_mem p hp
      rw [← hpid]
      exact f3 p0 hp0
    · intro a ha
      obtain ⟨a0, ha0, haid, _⟩ := ackPhase_pas_mem a ha
      rw [← haid]
      exact f4 a0 ha0
    · intro v hv
      obtain ⟨v0, hv0, hvid, _⟩ := ackPhase_virts_mem v hv
      rw [← hvid]
      exact f5 v0 hv0
  · intro v hv a hva
    obtain ⟨v0, hv0, _, hnet0, _, hct0, _, _⟩ := ackPhase_virts_mem v hv
    obtain ⟨pa, hpa, hpaid, hpanet⟩ := hC v0 hv0 a (by rw [hct0]; exact hva)
    have hsome : (findNet c pa.net).isSome := by
      obtain ⟨n, hn, hnid⟩ := hN.2 pa hpa
      rw [findNet, List.find?_isSome]
      exact ⟨n, hn, by simpa using hnid⟩
    refine ⟨{ pa with state := ack_state pa.state }, ?_, hpaid, by rw [hpanet, hnet0]⟩
    simp only [ackPhase, List.mem_map]
    exact ⟨pa, hpa, by rw [if_pos hsome]⟩
  · constructor
    · intro v hv
      obtain ⟨v0, hv0, _, hnet0, _⟩ := ackPhase_virts_mem v hv
      obtain ⟨n, hn, hnid⟩ := hN.1 v0 hv0
      refine ⟨{ n with state := ack_state n.state }, ?_, by rw [← hnet0]; exact hnid⟩
      simp only [ackPhase, List.mem_map]
      exact ⟨n, hn, rfl⟩
    · intro a ha
      obtain ⟨a0, ha0, _, hnet0, _⟩ := ackPhase_pas_mem a ha
      obtain ⟨n, hn, hnid⟩ := hN.2 a0 ha0
      refine ⟨{ n with state := ack_state n.state }, ?_, by rw [← hnet0]; exact hnid⟩
      simp only [ackPhase, List.mem_map]
      exact ⟨n, hn, rfl⟩

/-! ## The propagation pass of `lsdn_validate` -/

theorem propagate_delete_iff (src dst : St) :
    propagate src dst = .delete ↔ dst = .delete := by
  unfold propagate
  by_cases h : src = .renew ∧ dst = .ok
  · rw [if_pos h]
    constructor
    · intro hc; cases hc
    · intro hc; rw [h.2] at hc; cases hc
  · rw [if_neg h]

theorem propagatePhase_frames (c : Ctx) :
    (propagatePhase c).settingsL = c.settingsL ∧
    (propagatePhase c).netsL = c.netsL ∧
    (propagatePhase c).physL = c.physL ∧
    (propagatePhase c).rpasL = c.rpasL ∧
    (propagatePhase c).rvirtsL = c.rvirtsL ∧
    (propagatePhase c).next_id = c.next_id :=
  ⟨rfl, rfl, rfl, rfl, rfl, rfl⟩

theorem propagatePhase_pas_mem {c : Ctx} :
    ∀ a' ∈ (propagatePhase c).pasL, ∃ a ∈ c.pasL, a.aid = a'.aid ∧
      a.net = a'.net ∧ a.phys = a'.phys ∧
      a.explicitely_attached = a'.explicitely_attached ∧
      (a'.state = .delete ↔ a.state = .delete) := by
  intro a' ha'
  simp only [propagatePhase, List.mem_map] at ha'
  obtain ⟨a1, ha1, hmap2⟩ := ha'
  obtain ⟨a0, ha0, hmap1⟩ := ha1
  refine ⟨a0, ha0, by rw [← hmap2, ← hmap1], by rw [← hmap2, ← hmap1],
    by rw [← hmap2, ← hmap1], by rw [← hmap2, ← hmap1], ?_⟩
  rw [← hmap2]
  show propagate _ a1.state = _ ↔ _
  rw [propagate_delete_iff, ← hmap1]
  show propagate _ a0.state = _ ↔ _
  rw [propagate_delete_iff]

theorem propagatePhase_pas_to {c : Ctx} :
    ∀ a ∈ c.pasL, ∃ a' ∈ (propagatePhase c).pasL, a'.aid = a.aid ∧
      a'.net = a.net := by
  intro a ha
  simp only [propagatePhase, List.mem_map]
  exact ⟨_, ⟨_, ⟨a, ha, rfl⟩, rfl⟩, rfl, rfl⟩

theorem propagatePhase_virts_mem {c : Ctx} :
    ∀ v' ∈ (propagatePhase c).virtsL, ∃ v ∈ c.virtsL, v.vid = v'.vid ∧
      v.network = v'.network ∧ v.attr_mac = v'.attr_mac ∧
      v.connected_through = v'.connected_through ∧
      v.connected_if = v'.connected_if ∧
      (v'.state = .delete ↔ v.state = .delete) := by
  intro v' hv'
  simp only [propagatePhase, List.mem_map] at hv'
  obtain ⟨v0, hv0, hmap⟩ := hv'
  cases hct : v0.connected_through with
  | none =>
    rw [hct] at hmap
    exact ⟨v0, hv0, by rw [← hmap], by rw [← hmap], by rw [← hmap],
      by rw [← hmap], by rw [← hmap], by rw [← hmap]⟩
  | some a =>
    rw [hct] at hmap
    refine ⟨v0, hv0, by rw [← hmap], by rw [← hmap], by rw [← hmap],
      by rw [← hmap, hct], by rw [← hmap], ?_⟩
    rw [← hmap]
    show propagate _ v0.state = _ ↔ _
    rw [propagate_delete_iff]

theorem propagatePhase_wf {c : Ctx} (hU : UniqueIds c) (hF : FreshIds c)
    (hC : ConnInv c) (hN : NetRefs c) :
    UniqueIds (propagatePhase c) ∧ FreshIds (propagatePhase c) ∧
      ConnInv (propagatePhase c) ∧ NetRefs (propagatePhase c) := by
  have ea : (propagatePhase c).pasL.map (fun a => a.aid) = c.pasL.map (fun a => a.aid) := by
    simp only [propagatePhase, List.map_map]
    exact List.map_congr_left (fun a _ => rfl)
  have ev : (propagatePhase c).virtsL.map (fun v => v.vid) = c.virtsL.map (fun v => v.vid) := by
    simp only [propagatePhase, List.map_map]
    refine List.map_congr_left (fun v _ => ?_)
    cases hct : v.connected_through <;> simp [hct, Function.comp]
  obtain ⟨u1, u2, u3, u4, u5, u6, u7⟩ := hU
  obtain ⟨f1, f2, f3, f4, f5, f6, f7⟩ := hF
  refine ⟨⟨u1, u2, u3, by rw [ea]; exact u4, by rw [ev]; exact u5, u6, u7⟩,
    ⟨f1, f2, f3, ?_, ?_, f6, f7⟩, ?_, ?_⟩
  · intro a ha
    obtain ⟨a0, ha0, haid, _⟩ := propagatePhase_pas_mem a ha
    rw [← haid]
    exact f4 a0 ha0
  · intro v hv
    obtain ⟨v0, hv0, hvid, _⟩ := propagatePhase_virts_mem v hv
    rw [← hvid]
    exact f5 v0 hv0
  · intro v hv a hva
    obtain ⟨v0, hv0, _, hnet0, _, hct0, _, _⟩ := propagatePhase_virts_mem v hv
    obtain ⟨pa, hpa, hpaid, hpanet⟩ := hC v0 hv0 a (by rw [hct0]; exact hva)
    obtain ⟨pa', hpa', hpaid', hpanet'⟩ := propagatePhase_pas_to pa hpa
    exact ⟨pa', hpa', by rw [hpaid', hpaid], by rw [hpanet', hpanet, hnet0]⟩
  · constructor
    · intro v hv
      obtain ⟨v0, hv0, _, hnet0, _⟩ := propagatePhase_virts_mem v hv
      obtain ⟨n, hn, hnid⟩ := hN.1 v0 hv0
      exact ⟨n, hn, by rw [← hnet0]; exact hnid⟩
    · intro a ha
      obtain ⟨a0, ha0, _, hnet0, _⟩ := propagatePhase_pas_mem a ha
      obtain ⟨n, hn, hnid⟩ := hN.2 a0 ha0
      exact ⟨n, hn, by rw [← hnet0]; exact hnid⟩

/-! ## The commit pipeline end to end -/

theorem rstep_phys_mem {c c' : Ctx} (h : RStep c c') :
    ∀ p' ∈ c'.physL, ∃ p ∈ c.physL, p.pid = p'.pid ∧ p.state = p'.state ∧
      p.attr_iface = p'.attr_iface ∧ p.attr_ip = p'.attr_ip ∧
      p.is_local = p'.is_local := by
  intro p' hp'
  have himg : (p'.pid, p'.state, p'.attr_iface, p'.attr_ip, p'.is_local) ∈
      c.physL.map (fun p => (p.pid, p.state, p.attr_iface, p.attr_ip, p.is_local)) := by
    rw [← h.phys_tup]
    exact List.mem_map_of_mem _ hp'
  simp only [List.mem_map, Prod.mk.injEq] at himg
  obtain ⟨p, hp, h1, h2, h3, h4, h5⟩ := himg
  exact ⟨p, hp, h1, h2, h3, h4, h5⟩

theorem rstep_virt_mem {c c' : Ctx} (h : RStep c c') :
    ∀ v' ∈ c'.virtsL, ∃ v ∈ c.virtsL, v.vid = v'.vid ∧ v.state = v'.state ∧
      v.network = v'.network ∧ v.attr_mac = v'.attr_mac ∧
      v.connected_through = v'.connected_through ∧
      v.connected_if = v'.connected_if := by
  intro v' hv'
  have himg : (v'.vid, v'.state, v'.network, v'.attr_mac, v'.connected_through,
      v'.connected_if) ∈
      c.virtsL.map (fun v => (v.vid, v.state, v.network, v.attr_mac,
        v.connected_through, v.connected_if)) := by
    rw [← h.virt_tup]
    exact List.mem_map_of_mem _ hv'
  simp only [List.mem_map, Prod.mk.injEq] at himg
  obtain ⟨v, hv, h1, h2, h3, h4, h5, h6⟩ := himg
  exact ⟨v, hv, h1, h2, h3, h4, h5, h6⟩

theorem dpost_fresh {c c' : Ctx} (h : DPost c c') (hF : FreshIds c) :
    FreshIds c' := by
  obtain ⟨f1, f2, f3, f4, f5, f6, f7⟩ := hF
  rw [← h.next_eq] at f1 f2 f3 f4 f5 f6 f7
  refine ⟨?_, ?_, ?_, ?_, ?_, ?_, ?_⟩
  · intro s hs
    obtain ⟨s0, hs0, hsid, _⟩ := h.sub_settings s hs
    rw [← hsid]
    exact f1 s0 hs0
  · intro n hn
    obtain ⟨n0, hn0, hnid, _⟩ := h.sub_nets n hn
    rw [← hnid]
    exact f2 n0 hn0
  · intro p hp
    obtain ⟨p0, hp0, hpid, _⟩ := h.sub_phys p hp
    rw [← hpid]
    exact f3 p0 hp0
  · intro a ha
    obtain ⟨a0, ha0, haid, _⟩ := h.sub_pas a ha
    rw [← haid]
    exact f4 a0 ha0
  · intro v hv
    obtain ⟨v0, hv0, hvid, _⟩ := h.virt_src v hv
    rw [← hvid]
    exact f5 v0 hv0
  · intro x hx
    exact f6 x (h.rpa_sub.subset hx)
  · intro x hx
    exact f7 x (h.rv_sub.subset hx)

/-- What holds of the final context of a `.ret`-returning commit, relative to
the post-propagation context. -/
structure CPost (cP c' : Ctx) : Prop where
  allok : AllOK c'
  uq : UniqueIds c'
  fr : FreshIds c'
  cn : ConnInv c'
  nr : NetRefs c'
  sub_settings : SubSettings c'.settingsL cP.settingsL
  sub_nets : SubNets c'.netsL cP.netsL
  sub_phys : SubPhys c'.physL cP.physL
  sub_pas : SubPAs c'.pasL cP.pasL
  virt_src : ∀ v ∈ c'.virtsL, ∃ v0 ∈ cP.virtsL, v0.vid = v.vid ∧
    v0.network = v.network ∧ v0.state ≠ .delete
  set_ref : ∀ n ∈ c'.netsL, ∀ s ∈ cP.settingsL, s.sid = n.settings →
    ∃ s' ∈ c'.settingsL, s'.sid = n.settings

/-- A `.ret`-returning `lsdn_commit` validated cleanly, returns OK, and its
final context is all-OK, well-formed and descends from the propagated one. -/
theorem lsdn_commit_ret {env : Env} {c : Ctx} {e : Err} {c' : Ctx} {evs : List Ev}
    (hU : UniqueIds c) (hF : FreshIds c) (hC : ConnInv c) (hN : NetRefs c)
    (h : lsdn_commit env c = some (.ret e, c', evs)) :
    e = .eOK ∧ validateProblems env (propagatePhase c) = [] ∧
      CPost (propagatePhase c) c' := by
  unfold lsdn_commit at h
  dsimp only [lsdn_validate] at h
  by_cases hval : (validateProblems env (propagatePhase c)).length ≠ 0
  · rw [if_pos hval] at h
    simp only [Option.some.injEq, Prod.mk.injEq] at h
    cases h.1
  · rw [if_neg hval] at h
    have hnil : validateProblems env (propagatePhase c) = [] :=
      List.length_eq_zero.1 (by simpa using hval)
    cases hdec : decommitPhase (propagatePhase c) with
    | none => rw [hdec] at h; cases h
    | some rD =>
      rw [hdec] at h
      obtain ⟨cD, evD⟩ := rD
      dsimp only at h
      simp only [Option.some.injEq, Prod.mk.injEq] at h
      obtain ⟨hret, hc', hevs⟩ := h
      have he : e = .eOK := by
        rw [if_pos (by simpa using hval)] at hret
        cases hret
        rfl
      obtain ⟨hUP, hFP, hCP, hNP⟩ := propagatePhase_wf hU hF hC hN
      have hdp : DPost (propagatePhase c) cD := by
        have h0 := decommitPhase_post hUP hCP hNP hdec
        exact h0
      have hFD : FreshIds cD := dpost_fresh hdp hFP
      have hrs : RStep cD (recommitPhase cD).1 :=
        recommitPhase_rstep cD hdp.uq hFD hdp.cn hdp.nr
      have hndR : NoDelete (recommitPhase cD).1 := by
        obtain ⟨d1, d2, d3, d4, d5⟩ := hdp.nodel
        refine ⟨?_, ?_, ?_, ?_, ?_⟩
        · intro s hs
          rw [hrs.settings_eq] at hs
          exact d1 s hs
        · intro n hn
          rw [hrs.nets_eq] at hn
          exact d2 n hn
        · intro p hp
          obtain ⟨p0, hp0, _, hst, _⟩ := rstep_phys_mem hrs p hp
          rw [← hst]
          exact d3 p0 hp0
        · intro a ha
          rw [hrs.pas_eq] at ha
          exact d4 a ha
        · intro v hv
          obtain ⟨v0, hv0, _, hst, _⟩ := rstep_virt_mem hrs v hv
          rw [← hst]
          exact d5 v0 hv0
      have hallok : AllOK c' := by
        rw [← hc']
        exact ackPhase_allok hndR hrs.nr
      obtain ⟨hUA, hFA, hCA, hNA⟩ := ackPhase_wf hrs.uq hrs.fr hrs.cn hrs.nr
      refine ⟨he, hnil, hallok, hc' ▸ hUA, hc' ▸ hFA, hc' ▸ hCA, hc' ▸ hNA,
        ?_, ?_, ?_, ?_, ?_, ?_⟩
      · intro s'' hs''
        rw [← hc'] at hs''
        obtain ⟨sR, hsR, e1, e2, e3, e4, e5, _⟩ := ackPhase_settings_mem s'' hs''
        rw [hrs.settings_eq] at hsR
        obtain ⟨s0, hs0, g1, g2, g3, g4, g5, gst⟩ := hdp.sub_settings sR hsR
        exact ⟨s0, hs0, by rw [g1, e1], by rw [g2, e2], by rw [g3, e3],
          by rw [g4, e4], by rw [g5, e5], gst⟩
      · intro n'' hn''
        rw [← hc'] at hn''
        obtain ⟨nR, hnR, e1, e2, e3, _⟩ := ackPhase_nets_mem n'' hn''
        rw [hrs.nets_eq] at hnR
        obtain ⟨n0, hn0, g1, g2, g3, gst⟩ := hdp.sub_nets nR hnR
        exact ⟨n0, hn0, by rw [g1, e1], by rw [g2, e2], by rw [g3, e3], gst⟩
      · intro p'' hp''
        rw [← hc'] at hp''
        obtain ⟨pR, hpR, e1, e2, e3, e4, _⟩ := ackPhase_phys_mem p'' hp''
        obtain ⟨pD, hpD, g1, _, g3, g4, g5⟩ := rstep_phys_mem hrs pR hpR
        obtain ⟨p0, hp0, k1, k2, k3, k4, kst⟩ := hdp.sub_phys pD hpD
        exact ⟨p0, hp0, by rw [k1, g1, e1], by rw [k2, g3, e2],
          by rw [k3, g4, e3], by rw [k4, g5, e4], kst⟩
      · intro a'' ha''
        rw [← hc'] at ha''
        obtain ⟨aR, haR, e1, e2, e3, e4, _⟩ := ackPhase_pas_mem a'' ha''
        rw [hrs.pas_eq] at haR
        obtain ⟨a0, ha0, g1, g2, g3, g4, gst⟩ := hdp.sub_pas aR haR
        exact ⟨a0, ha0, by rw [g1, e1], by rw [g2, e2], by rw [g3, e3],
          by rw [g4, e4], gst⟩
      · intro v'' hv''
        rw [← hc'] at hv''
        obtain ⟨vR, hvR, e1, e2, _⟩ := ackPhase_virts_mem v'' hv''
        obtain ⟨vD, hvD, g1, _, g3, _⟩ := rstep_virt_mem hrs vR hvR
        obtain ⟨v0, hv0, k1, k2, kst⟩ := hdp.virt_src vD hvD
        exact ⟨v0, hv0, by rw [k1, g1, e1], by rw [k2, g3, e2], kst⟩
      · intro n'' hn'' s hs hsid
        rw [← hc'] at hn''
        obtain ⟨nR, hnR, _, e2, _⟩ := ackPhase_nets_mem n'' hn''
        rw [hrs.nets_eq] at hnR
        rcases hdp.settings_keep s hs with ⟨sD, hsD, hsDid⟩ | hunref
        · rw [← hrs.settings_eq] at hsD
          refine ⟨{ sD with state := ack_state sD.state }, ?_, by simpa using hsDid.trans hsid⟩
          rw [← hc']
          simp only [ackPhase, List.mem_map]
          exact ⟨sD, hsD, rfl⟩
        · exact absurd (by rw [e2, ← hsid]) (fun hh => hunref nR hnR hh)

/-! ## Well-formedness through the mutation entry points -/

theorem fresh_list_of_map_eq {α : Type} {g : α → Id} {l l' : List α} {n : Id}
    (hmap : l'.map g = l.map g) (h : ∀ x ∈ l, g x < n) : ∀ x ∈ l', g x < n := by
  intro x hx
  have hmem : g x ∈ l.map g := by
    rw [← hmap]
    exact List.mem_map_of_mem g hx
  obtain ⟨y, hy, hxy⟩ := List.mem_map.1 hmem
  rw [← hxy]
  exact h y hy

theorem updSettings_sids (ctx : Ctx) (i : Id) (f : Settings → Settings)
    (hf : ∀ s, (f s).sid = s.sid) :
    (updSettings ctx i f).settingsL.map (fun s => s.sid) =
      ctx.settingsL.map (fun s => s.sid) := by
  simp only [updSettings, List.map_map]
  refine List.map_congr_left (fun s _ => ?_)
  by_cases h : s.sid = i <;> simp [h, hf]

theorem wf_updSettings {c : Ctx} {i : Id} {f : Settings → Settings}
    (hf : ∀ s, (f s).sid = s.sid) (h : WF c) : WF (updSettings c i f) := by
  obtain ⟨⟨u1, u2, u3, u4, u5, u6, u7⟩, ⟨f1, f2, f3, f4, f5, f6, f7⟩, hN, hC⟩ := h
  exact ⟨⟨by rw [updSettings_sids c i f hf]; exact u1, u2, u3, u4, u5, u6, u7⟩,
    ⟨fresh_list_of_map_eq (updSettings_sids c i f hf) f1, f2, f3, f4, f5, f6, f7⟩,
    hN, hC⟩

theorem wf_updNet {c : Ctx} {i : Id} {f : Net → Net}
    (hf : ∀ n, (f n).nid = n.nid) (h : WF c) : WF (updNet c i f) := by
  obtain ⟨hU, ⟨f1, f2, f3, f4, f5, f6, f7⟩, hN, hC⟩ := h
  exact ⟨uniqueIds_updNet hf hU,
    ⟨f1, fresh_list_of_map_eq (updNet_nids c i f hf) f2, f3, f4, f5, f6, f7⟩,
    netRefs_updNet hf hN, hC⟩

theorem wf_updPhys {c : Ctx} {i : Id} {f : Phys → Phys}
    (hf : ∀ p, (f p).pid = p.pid) (h : WF c) : WF (updPhys c i f) := by
  obtain ⟨⟨u1, u2, u3, u4, u5, u6, u7⟩, ⟨f1, f2, f3, f4, f5, f6, f7⟩, hN, hC⟩ := h
  exact ⟨⟨u1, u2, by rw [updPhys_pids c i f hf]; exact u3, u4, u5, u6, u7⟩,
    ⟨f1, f2, fresh_list_of_map_eq (updPhys_pids c i f hf) f3, f4, f5, f6, f7⟩,
    hN, hC⟩

theorem wf_updPA {c : Ctx} {i : Id} {f : PA → PA}
    (hf : ∀ a, (f a).aid = a.aid ∧ (f a).net = a.net) (h : WF c) : WF (updPA c i f) := by
  obtain ⟨hU, ⟨f1, f2, f3, f4, f5, f6, f7⟩, hN, hC⟩ := h
  exact ⟨uniqueIds_updPA (fun a => (hf a).1) hU,
    ⟨f1, f2, f3, fresh_list_of_map_eq (updPA_aids c i f (fun a => (hf a).1)) f4,
      f5, f6, f7⟩,
    netRefs_updPA (fun a => (hf a).2) hN, connInv_updPA hf hC⟩

/-- `ConnInv` under a virt update that keeps the network and either keeps the
connection, clears it, or redirects it to a live attachment of the network. -/
theorem connInv_updVirt_tgt {c : Ctx} {i : Id} {f : Virt → Virt}
    (hf_net : ∀ v, (f v).network = v.network)
    (hf_ct : ∀ v ∈ c.virtsL, v.vid = i → ∀ a', (f v).connected_through = some a' →
      v.connected_through = some a' ∨
        ∃ pa ∈ c.pasL, pa.aid = a' ∧ pa.net = v.network)
    (h : ConnInv c) : ConnInv (updVirt c i f) := by
  intro w hw a hwa
  simp only [updVirt, List.mem_map] at hw
  obtain ⟨v, hv, hmap⟩ := hw
  by_cases hc : v.vid = i
  · rw [if_pos hc] at hmap
    rcases hf_ct v hv hc a (by rw [hmap]; exact hwa) with hold | ⟨pa, hpa, hpaid, hpanet⟩
    · obtain ⟨pa, hpa, hpaid, hpanet⟩ := h v hv a hold
      exact ⟨pa, hpa, hpaid, by rw [hpanet, ← hmap, hf_net]⟩
    · exact ⟨pa, hpa, hpaid, by rw [hpanet, ← hmap, hf_net]⟩
  · rw [if_neg hc] at hmap
    obtain ⟨pa, hpa, hpaid, hpanet⟩ := h v hv a (by rw [hmap]; exact hwa)
    exact ⟨pa, hpa, hpaid, by rw [hpanet, ← hmap]⟩

theorem wf_updVirt_conn {c : Ctx} {i : Id} {f : Virt → Virt}
    (hf : ∀ v, (f v).vid = v.vid ∧ (f v).network = v.network)
    (hf_ct : ∀ v ∈ c.virtsL, v.vid = i → ∀ a', (f v).connected_through = some a' →
      v.connected_through = some a' ∨
        ∃ pa ∈ c.pasL, pa.aid = a' ∧ pa.net = v.network)
    (h : WF c) : WF (updVirt c i f) := by
  obtain ⟨hU, ⟨f1, f2, f3, f4, f5, f6, f7⟩, hN, hC⟩ := h
  exact ⟨uniqueIds_updVirt (fun v => (hf v).1) hU,
    ⟨f1, f2, f3, f4,
      fresh_list_of_map_eq (updVirt_vids c i f (fun v => (hf v).1)) f5, f6, f7⟩,
    netRefs_updVirt (fun v => (hf v).2) hN,
    connInv_updVirt_tgt (fun v => (hf v).2) hf_ct hC⟩

theorem wf_removeVirt {c : Ctx} {i : Id} (h : WF c) : WF (removeVirt c i) := by
  obtain ⟨hU, ⟨f1, f2, f3, f4, f5, f6, f7⟩, hN, hC⟩ := h
  exact ⟨uniqueIds_removeVirt hU,
    ⟨f1, f2, f3, f4, fun v hv => f5 v (removeVirt_subset hv), f6, f7⟩,
    netRefs_removeVirt hN, connInv_removeVirt hC⟩

theorem wf_removePA {c : Ctx} {i : Id} (hempty : connectedVirts c i = [])
    (h : WF c) : WF (removePA c i) := by
  obtain ⟨hU, ⟨f1, f2, f3, f4, f5, f6, f7⟩, hN, hC⟩ := h
  exact ⟨uniqueIds_removePA hU,
    ⟨f1, f2, f3, fun a ha => f4 a (removePA_subset ha), f5, f6, f7⟩,
    netRefs_removePA hN, connInv_removePA hempty hC⟩

theorem wf_removePhys {c : Ctx} {i : Id} (h : WF c) : WF (removePhys c i) := by
  obtain ⟨⟨u1, u2, u3, u4, u5, u6, u7⟩, ⟨f1, f2, f3, f4, f5, f6, f7⟩, hN, hC⟩ := h
  refine ⟨⟨u1, u2, u3.sublist ((List.filter_sublist c.physL).map _), u4, u5, u6, u7⟩,
    ⟨f1, f2, ?_, f4, f5, f6, f7⟩, hN, hC⟩
  intro p hp
  simp only [removePhys, List.mem_filter] at hp
  exact f3 p hp.1

theorem wf_removeSettings {c : Ctx} {i : Id} (h : WF c) : WF (removeSettings c i) := by
  obtain ⟨⟨u1, u2, u3, u4, u5, u6, u7⟩, ⟨f1, f2, f3, f4, f5, f6, f7⟩, hN, hC⟩ := h
  refine ⟨⟨u1.sublist ((List.filter_sublist c.settingsL).map _), u2, u3, u4, u5, u6, u7⟩,
    ⟨?_, f2, f3, f4, f5, f6, f7⟩, hN, hC⟩
  intro s hs
  simp only [removeSettings, List.mem_filter] at hs
  exact f1 s hs.1

theorem wf_removeNet {c : Ctx} {i : Id}
    (hpa : pasOfNet c i = []) (hv : virtsOfNet c i = [])
    (h : WF c) : WF (removeNet c i) := by
  obtain ⟨hU, ⟨f1, f2, f3, f4, f5, f6, f7⟩, hN, hC⟩ := h
  refine ⟨uniqueIds_removeNet hU, ⟨f1, ?_, f3, f4, f5, f6, f7⟩,
    netRefs_removeNet hpa hv hN, hC⟩
  intro n hn
  exact f2 n (removeNet_subset hn)

theorem wf_free_pa_if_possible {c : Ctx} {i : Id} (h : WF c) :
    WF (free_pa_if_possible c i) := by
  unfold free_pa_if_possible
  cases hfind : findPA c i with
  | none => exact h
  | some a =>
    dsimp only
    by_cases hg : connectedVirts c a.aid = [] ∧ ¬ a.explicitely_attached = true
    · rw [if_pos hg]
      by_cases hnew : a.state = St.new
      · rw [if_pos hnew]
        unfold pa_do_free
        rw [if_neg (by simpa using hg.1), if_neg (by simpa using hg.2)]
        simp only [Option.getD_some]
        exact wf_removePA hg.1 h
      · rw [if_neg hnew]
        exact wf_updPA (fun x => ⟨rfl, rfl⟩) h
    · rw [if_neg hg]
      exact h

theorem wf_phys_detach_by_pa {c : Ctx} {i : Id} (h : WF c) :
    WF (phys_detach_by_pa c i) :=
  wf_free_pa_if_possible (wf_updPA (fun x => ⟨rfl, rfl⟩) h)

theorem nodup_map_append_fresh {α : Type} {g : α → Id} {l : List α} {x : α} {n : Id}
    (hx : g x = n) (hn : (l.map g).Nodup) (hf : ∀ y ∈ l, g y < n) :
    ((l ++ [x]).map g).Nodup := by
  rw [List.map_append]
  simp only [List.map_cons, List.map_nil]
  rw [List.nodup_append]
  refine ⟨hn, List.nodup_singleton _, ?_⟩
  intro a ha hb
  simp only [List.mem_singleton] at hb
  obtain ⟨y, hy, hxy⟩ := List.mem_map.1 ha
  have := hf y hy
  rw [hxy, hb, hx] at this
  exact absurd this (Nat.lt_irrefl _)

theorem fresh_append {α : Type} {g : α → Id} {l : List α} {x : α} {n : Id}
    (hx : g x = n) (hf : ∀ y ∈ l, g y < n) : ∀ y ∈ l ++ [x], g y < n + 1 := by
  intro y hy
  rcases List.mem_append.1 hy with hmm | hend
  · exact Nat.lt_succ_of_lt (hf y hmm)
  · simp only [List.mem_singleton] at hend
    rw [hend, hx]
    exact Nat.lt_succ_self _

theorem wf_append_settings {c : Ctx} {s : Settings} (hs : s.sid = c.next_id)
    (h : WF c) :
    WF { c with settingsL := c.settingsL ++ [s], next_id := c.next_id + 1 } := by
  obtain ⟨⟨u1, u2, u3, u4, u5, u6, u7⟩, ⟨f1, f2, f3, f4, f5, f6, f7⟩, hN, hC⟩ := h
  exact ⟨⟨nodup_map_append_fresh hs u1 f1, u2, u3, u4, u5, u6, u7⟩,
    ⟨fresh_append hs f1, fun n hn => Nat.lt_succ_of_lt (f2 n hn),
     fun p hp => Nat.lt_succ_of_lt (f3 p hp), fun a ha => Nat.lt_succ_of_lt (f4 a ha),
     fun v hv => Nat.lt_succ_of_lt (f5 v hv), fun x hx => Nat.lt_succ_of_lt (f6 x hx),
     fun x hx => Nat.lt_succ_of_lt (f7 x hx)⟩, hN, hC⟩

theorem wf_append_net {c : Ctx} {n : Net} (hn : n.nid = c.next_id) (h : WF c) :
    WF { c with netsL := c.netsL ++ [n], next_id := c.next_id + 1 } := by
  obtain ⟨⟨u1, u2, u3, u4, u5, u6, u7⟩, ⟨f1, f2, f3, f4, f5, f6, f7⟩, ⟨hNv, hNa⟩, hC⟩ := h
  refine ⟨⟨u1, nodup_map_append_fresh hn u2 f2, u3, u4, u5, u6, u7⟩,
    ⟨fun x hx => Nat.lt_succ_of_lt (f1 x hx), fresh_append hn f2,
     fun p hp => Nat.lt_succ_of_lt (f3 p hp), fun a ha => Nat.lt_succ_of_lt (f4 a ha),
     fun v hv => Nat.lt_succ_of_lt (f5 v hv), fun x hx => Nat.lt_succ_of_lt (f6 x hx),
     fun x hx => Nat.lt_succ_of_lt (f7 x hx)⟩, ⟨?_, ?_⟩, hC⟩
  · intro v hv
    obtain ⟨m, hm, hmid⟩ := hNv v hv
    exact ⟨m, List.mem_append_left _ hm, hmid⟩
  · intro a ha
    obtain ⟨m, hm, hmid⟩ := hNa a ha
    exact ⟨m, List.mem_append_left _ hm, hmid⟩

theorem wf_append_phys {c : Ctx} {p : Phys} (hp : p.pid = c.next_id) (h : WF c) :
    WF { c with physL := c.physL ++ [p], next_id := c.next_id + 1 } := by
  obtain ⟨⟨u1, u2, u3, u4, u5, u6, u7⟩, ⟨f1, f2, f3, f4, f5, f6, f7⟩, hN, hC⟩ := h
  exact ⟨⟨u1, u2, nodup_map_append_fresh hp u3 f3, u4, u5, u6, u7⟩,
    ⟨fun x hx => Nat.lt_succ_of_lt (f1 x hx), fun x hx => Nat.lt_succ_of_lt (f2 x hx),
     fresh_append hp f3, fun a ha => Nat.lt_succ_of_lt (f4 a ha),
     fun v hv => Nat.lt_succ_of_lt (f5 v hv), fun x hx => Nat.lt_succ_of_lt (f6 x hx),
     fun x hx => Nat.lt_succ_of_lt (f7 x hx)⟩, hN, hC⟩

theorem wf_append_virt {c : Ctx} {v : Virt} (hv : v.vid = c.next_id)
    (hnet : ∃ n ∈ c.netsL, n.nid = v.network) (hct : v.connected_through = none)
    (h : WF c) :
    WF { c with virtsL := c.virtsL ++ [v], next_id := c.next_id + 1 } := by
  obtain ⟨⟨u1, u2, u3, u4, u5, u6, u7⟩, ⟨f1, f2, f3, f4, f5, f6, f7⟩, ⟨hNv, hNa⟩, hC⟩ := h
  refine ⟨⟨u1, u2, u3, u4, nodup_map_append_fresh hv u5 f5, u6, u7⟩,
    ⟨fun x hx => Nat.lt_succ_of_lt (f1 x hx), fun x hx => Nat.lt_succ_of_lt (f2 x hx),
     fun x hx => Nat.lt_succ_of_lt (f3 x hx), fun a ha => Nat.lt_succ_of_lt (f4 a ha),
     fresh_append hv f5, fun x hx => Nat.lt_succ_of_lt (f6 x hx),
     fun x hx => Nat.lt_succ_of_lt (f7 x hx)⟩, ⟨?_, hNa⟩, ?_⟩
  · intro w hw
    rcases List.mem_append.1 hw with hmm | hend
    · exact hNv w hmm
    · simp only [List.mem_singleton] at hend
      rw [hend]
      exact hnet
  · intro w hw a hwa
    rcases List.mem_append.1 hw with hmm | hend
    · exact hC w hmm a hwa
    · simp only [List.mem_singleton] at hend
      rw [hend, hct] at hwa
      cases hwa

theorem wf_append_pa {c : Ctx} {a : PA} (ha : a.aid = c.next_id)
    (hnet : ∃ n ∈ c.netsL, n.nid = a.net) (h : WF c) :
    WF { c with pasL := c.pasL ++ [a], next_id := c.next_id + 1 } := by
  obtain ⟨⟨u1, u2, u3, u4, u5, u6, u7⟩, ⟨f1, f2, f3, f4, f5, f6, f7⟩, ⟨hNv, hNa⟩, hC⟩ := h
  refine ⟨⟨u1, u2, u3, nodup_map_append_fresh ha u4 f4, u5, u6, u7⟩,
    ⟨fun x hx => Nat.lt_succ_of_lt (f1 x hx), fun x hx => Nat.lt_succ_of_lt (f2 x hx),
     fun x hx => Nat.lt_succ_of_lt (f3 x hx), fresh_append ha f4,
     fun v hv => Nat.lt_succ_of_lt (f5 v hv), fun x hx => Nat.lt_succ_of_lt (f6 x hx),
     fun x hx => Nat.lt_succ_of_lt (f7 x hx)⟩, ⟨hNv, ?_⟩, ?_⟩
  · intro b hb
    rcases List.mem_append.1 hb with hmm | hend
    · exact hNa b hmm
    · simp only [List.mem_singleton] at hend
      rw [hend]
      exact hnet
  · intro w hw x hwx
    obtain ⟨pa, hpa, hpaid, hpanet⟩ := hC w hw x hwx
    exact ⟨pa, List.mem_append_left _ hpa, hpaid, hpanet⟩

/-- `WF` through a fallible fold. -/
theorem wf_foldlM {α : Type} {g : Ctx → α → Option Ctx}
    (hg : ∀ c x c', WF c → g c x = some c' → WF c') :
    ∀ (l : List α) (c c' : Ctx), WF c → l.foldlM g c = some c' → WF c' := by
  intro l
  induction l with
  | nil =>
    intro c c' h hf
    simp only [List.foldlM] at hf
    cases hf
    exact h
  | cons x rest ih =>
    intro c c' h hf
    rw [List.foldlM_cons] at hf
    cases hgx : g c x with
    | none => rw [hgx] at hf; cases hf
    | some c1 =>
      rw [hgx] at hf
      exact ih c1 c' (hg c x c1 h hgx) hf

/-- `WF` through a total fold. -/
theorem wf_foldl {α : Type} {g : Ctx → α → Ctx}
    (hg : ∀ c x, WF c → WF (g c x)) :
    ∀ (l : List α) (c : Ctx), WF c → WF (l.foldl g c) := by
  intro l
  induction l with
  | nil => intro c h; exact h
  | cons x rest ih =>
    intro c h
    exact ih (g c x) (hg c x h)

theorem updVirt_net_mem {c : Ctx} {i : Id} {f : Virt → Virt}
    (hf : ∀ v, (f v).vid = v.vid ∧ (f v).network = v.network) :
    ∀ w ∈ (updVirt c i f).virtsL, ∃ w0 ∈ c.virtsL, w0.vid = w.vid ∧
      w0.network = w.network := by
  intro w hw
  simp only [updVirt, List.mem_map] at hw
  obtain ⟨v, hv, hmap⟩ := hw
  by_cases hc : v.vid = i
  · rw [if_pos hc] at hmap
    exact ⟨v, hv, by rw [← hmap, (hf v).1], by rw [← hmap, (hf v).2]⟩
  · rw [if_neg hc] at hmap
    exact ⟨v, hv, by rw [hmap], by rw [hmap]⟩

/-- `lsdn_virt_disconnect` keeps the graph well-formed; it does not touch the
attachment lists and only rewires the virt at hand. -/
theorem wf_virt_disconnect {c c' : Ctx} {vi : Id}
    (h : lsdn_virt_disconnect c vi = some c') (hW : WF c) :
    WF c' ∧ c'.pasL = c.pasL ∧ c'.netsL = c.netsL ∧
      (∀ w ∈ c'.virtsL, ∃ w0 ∈ c.virtsL, w0.vid = w.vid ∧
        w0.network = w.network) := by
  unfold lsdn_virt_disconnect at h
  cases hfind : findVirt c vi with
  | none => rw [hfind] at h; cases h
  | some v =>
    rw [hfind] at h
    dsimp only at h
    cases hct : v.connected_through with
    | none =>
      rw [hct] at h
      cases h
      exact ⟨hW, rfl, rfl, fun w hw => ⟨w, hw, rfl, rfl⟩⟩
    | some a =>
      rw [hct] at h
      dsimp only at h
      cases hrn : renew v.state with
      | none => rw [hrn] at h; cases h
      | some s' =>
        rw [hrn] at h
        cases h
        refine ⟨wf_updVirt_conn (fun x => ⟨rfl, rfl⟩) ?_ hW, rfl, rfl,
          updVirt_net_mem (fun x => ⟨rfl, rfl⟩)⟩
        intro w hw hwvid a' hfa'
        cases hfa'

/-- `find_or_create_attachement`: the returned attachment is live and attached
to the requested net, and the graph stays well-formed (the virt and net lists
are untouched). -/
theorem find_or_create_post {c : Ctx} {p n : Id} {alloc : Bool} {a : Id} {c1 : Ctx}
    (h : find_or_create_attachement c p n alloc = some (a, c1))
    (hnet : ∃ m ∈ c.netsL, m.nid = n) (hW : WF c) :
    WF c1 ∧ (∃ pa ∈ c1.pasL, pa.aid = a ∧ pa.net = n) ∧
      c1.virtsL = c.virtsL ∧ c1.netsL = c.netsL := by
  unfold find_or_create_attachement at h
  cases hfind : (pasOfPhys c p).find? (fun a => a.net = n) with
  | some a0 =>
    rw [hfind] at h
    cases h
    have ha0 : a0 ∈ c.pasL := by
      have := List.mem_of_find?_eq_some hfind
      simp only [pasOfPhys, List.mem_filter] at this
      exact this.1
    have ha0n : a0.net = n := by simpa using List.find?_some hfind
    exact ⟨hW, ⟨a0, ha0, rfl, ha0n⟩, rfl, rfl⟩
  | none =>
    rw [hfind] at h
    by_cases hal : alloc = true
    · rw [if_pos hal] at h
      cases h
      refine ⟨wf_append_pa rfl hnet hW, ?_, rfl, rfl⟩
      refine ⟨_, List.mem_append_right _ (List.mem_singleton_self _), rfl, rfl⟩
    · rw [if_neg hal] at h
      cases h

/-- `lsdn_virt_connect` keeps the graph well-formed. -/
theorem wf_virt_connect {c c' : Ctx} {vi p : Id} {iface : String}
    {aA aN : Bool} {e : Err}
    (h : lsdn_virt_connect c vi p iface aA aN = some (e, c')) (hW : WF c) :
    WF c' := by
  unfold lsdn_virt_connect at h
  cases hfind : findVirt c vi with
  | none => rw [hfind] at h; cases h
  | some v =>
    rw [hfind] at h
    dsimp only at h
    have hvmem : v ∈ c.virtsL := List.mem_of_find?_eq_some hfind
    have hvvid : v.vid = vi := by simpa using List.find?_some hfind
    have hvnet : ∃ m ∈ c.netsL, m.nid = v.network := hW.2.2.1.1 v hvmem
    cases hfoc : find_or_create_attachement c p v.network aA with
    | none =>
      rw [hfoc] at h
      cases h
      exact hW
    | some r1 =>
      rw [hfoc] at h
      obtain ⟨a, ctx1⟩ := r1
      dsimp only at h
      obtain ⟨hW1, ⟨pa, hpa, hpaid, hpanet⟩, hv1, hn1⟩ := find_or_create_post hfoc hvnet hW
      by_cases hname : aN = true
      · rw [if_neg (by simp [hname])] at h
        have hW2 : WF (updVirt ctx1 vi (fun x => { x with connected_if := some iface })) :=
          wf_updVirt_conn (fun x => ⟨rfl, rfl⟩)
            (fun w hw hwvid a' hfa' => Or.inl hfa') hW1
        cases hdis : lsdn_virt_disconnect
            (updVirt ctx1 vi (fun x => { x with connected_if := some iface })) vi with
        | none => rw [hdis] at h; cases h
        | some ctx3 =>
          rw [hdis] at h
          dsimp only at h
          obtain ⟨hW3, hpas3, hnets3, hvirts3⟩ := wf_virt_disconnect hdis hW2
          cases hfind3 : findVirt ctx3 vi with
          | none => rw [hfind3] at h; cases h
          | some v3 =>
            rw [hfind3] at h
            dsimp only at h
            cases hrn : renew v3.state with
            | none => rw [hrn] at h; cases h
            | some s2 =>
              rw [hrn] at h
              cases h
              refine wf_updVirt_conn (fun x => ⟨rfl, rfl⟩) ?_ hW3
              intro w hw hwvid a' hfa'
              have ha' : a' = a := by
                have : some a = some a' := hfa'
                cases this
                rfl
              right
              obtain ⟨w0, hw0, hw0vid, hw0net⟩ := hvirts3 w hw
              obtain ⟨w1, hw1, hw1vid, hw1net⟩ := updVirt_net_mem
                (c := ctx1) (f := fun x => { x with connected_if := some iface })
                (fun x => ⟨rfl, rfl⟩) w0 hw0
              rw [hv1] at hw1
              have hveq : w1 = v := eq_of_mem_nodup_vid hW.1.2.2.2.2.1 hw1 hvmem
                (by rw [hw1vid, hw0vid, hwvid, hvvid])
              have hwnet : w.network = v.network := by
                rw [← hw0net, ← hw1net, hveq]
              refine ⟨pa, ?_, by rw [hpaid, ha'], by rw [hpanet, hwnet]⟩
              rw [hpas3]
              exact hpa
      · rw [if_pos (by simp [hname])] at h
        cases h
        exact hW1

theorem wf_virt_do_free {c : Ctx} {v : Virt} (hW : WF c) : WF (virt_do_free c v) := by
  unfold virt_do_free
  cases v.connected_through with
  | some a => exact wf_free_pa_if_possible (wf_removeVirt hW)
  | none => exact wf_removeVirt hW

theorem wf_virt_free {c c' : Ctx} {vi : Id}
    (h : lsdn_virt_free c vi = some c') (hW : WF c) : WF c' := by
  unfold lsdn_virt_free at h
  cases hfind : findVirt c vi with
  | none => rw [hfind] at h; cases h
  | some v =>
    rw [hfind] at h
    dsimp only at h
    by_cases hnew : v.state = St.new
    · rw [if_pos hnew] at h
      cases h
      exact wf_virt_do_free hW
    · rw [if_neg hnew] at h
      cases h
      exact wf_updVirt_conn (fun x => ⟨rfl, rfl⟩)
        (fun w hw hwvid a' hfa' => Or.inl hfa') hW

theorem wf_phys_free {c c' : Ctx} {p : Id}
    (h : lsdn_phys_free c p = some c') (hW : WF c) : WF c' := by
  unfold lsdn_phys_free at h
  cases hfind : findPhys c p with
  | none => rw [hfind] at h; cases h
  | some ph =>
    rw [hfind] at h
    dsimp only at h
    cases hfold : ((pasOfPhys c p).map (fun a => a.aid)).foldlM (fun c2 ai =>
        match ((connectedVirts c2 ai).map (fun v => v.vid)).foldlM
            (fun c3 vi => lsdn_virt_disconnect c3 vi) c2 with
        | none => none
        | some c2' => some (phys_detach_by_pa c2' ai)) c with
    | none => rw [hfold] at h; cases h
    | some ctx1 =>
      rw [hfold] at h
      dsimp only at h
      have hW1 : WF ctx1 := by
        refine wf_foldlM ?_ _ c ctx1 hW hfold
        intro c2 ai c2'' hW2 hstep
        cases hinner : ((connectedVirts c2 ai).map (fun v => v.vid)).foldlM
            (fun c3 vi => lsdn_virt_disconnect c3 vi) c2 with
        | none => rw [hinner] at hstep; cases hstep
        | some c2' =>
          rw [hinner] at hstep
          cases hstep
          have hW2' : WF c2' := by
            refine wf_foldlM ?_ _ c2 c2' hW2 hinner
            intro c3 vi c3' hW3 hdis
            exact (wf_virt_disconnect hdis hW3).1
          exact wf_phys_detach_by_pa hW2'
      cases hfind1 : findPhys ctx1 p with
      | none => rw [hfind1] at h; cases h
      | some ph1 =>
        rw [hfind1] at h
        dsimp only at h
        by_cases hnew : ph1.state = St.new
        · rw [if_pos hnew] at h
          cases h
          exact wf_removePhys hW1
        · rw [if_neg hnew] at h
          cases h
          exact wf_updPhys (fun x => rfl) hW1

theorem wf_net_free {c c' : Ctx} {n : Id}
    (h : lsdn_net_free c n = some c') (hW : WF c) : WF c' := by
  unfold lsdn_net_free at h
  cases hfind : findNet c n with
  | none => rw [hfind] at h; cases h
  | some net0 =>
    rw [hfind] at h
    dsimp only at h
    cases hfold : ((virtsOfNet c n).map (fun v => v.vid)).foldlM
        (fun c2 vi => lsdn_virt_free c2 vi) c with
    | none => rw [hfold] at h; cases h
    | some ctx1 =>
      rw [hfold] at h
      dsimp only at h
      have hW1 : WF ctx1 :=
        wf_foldlM (fun c2 vi c2' hW2 hstep => wf_virt_free hstep hW2) _ c ctx1 hW hfold
      have hW2 : WF (((pasOfNet ctx1 n).map (fun a => a.aid)).foldl
          (fun c2 ai => phys_detach_by_pa c2 ai) ctx1) :=
        wf_foldl (fun c2 ai hW2 => wf_phys_detach_by_pa hW2) _ ctx1 hW1
      cases hfind2 : findNet (((pasOfNet ctx1 n).map (fun a => a.aid)).foldl
          (fun c2 ai => phys_detach_by_pa c2 ai) ctx1) n with
      | none => rw [hfind2] at h; cases h
      | some net2 =>
        rw [hfind2] at h
        dsimp only at h
        by_cases hnew : net2.state = St.new
        · rw [if_pos hnew] at h
          obtain ⟨hc', hpa0, hv0⟩ := net_do_free_some h
          rw [hc']
          exact wf_removeNet hpa0 hv0 hW2
        · rw [if_neg hnew] at h
          cases h
          exact wf_updNet (fun x => rfl) hW2

theorem wf_settings_free {c c' : Ctx} {s : Id}
    (h : lsdn_settings_free c s = some c') (hW : WF c) : WF c' := by
  unfold lsdn_settings_free at h
  cases hfind : findSettings c s with
  | none => rw [hfind] at h; cases h
  | some st0 =>
    rw [hfind] at h
    dsimp only at h
    cases hfold : ((netsOfSettings c s).map (fun n => n.nid)).foldlM
        (fun c2 ni => lsdn_net_free c2 ni) c with
    | none => rw [hfold] at h; cases h
    | some ctx1 =>
      rw [hfold] at h
      dsimp only at h
      have hW1 : WF ctx1 :=
        wf_foldlM (fun c2 ni c2' hW2 hstep => wf_net_free hstep hW2) _ c ctx1 hW hfold
      cases hfind1 : findSettings ctx1 s with
      | none => rw [hfind1] at h; cases h
      | some st1 =>
        rw [hfind1] at h
        dsimp only at h
        by_cases hnew : st1.state = St.new
        · rw [if_pos hnew] at h
          unfold settings_do_free at h
          by_cases hns : netsOfSettings ctx1 s ≠ []
          · rw [if_pos (by simpa using hns)] at h
            cases h
          · rw [if_neg (by simpa using hns)] at h
            cases h
            exact wf_removeSettings hW1
        · rw [if_neg hnew] at h
          cases h
          exact wf_updSettings (fun x => rfl) hW1

theorem lsdn_commit_errident {env : Env} {c c' : Ctx} {evs : List Ev}
    (h : lsdn_commit env c = some (.retErrIdent, c', evs)) :
    c' = propagatePhase c := by
  unfold lsdn_commit at h
  dsimp only [lsdn_validate] at h
  by_cases hval : (validateProblems env (propagatePhase c)).length ≠ 0
  · rw [if_pos hval] at h
    simp only [Option.some.injEq, Prod.mk.injEq] at h
    exact h.2.1.symm
  · rw [if_neg hval] at h
    cases hdec : decommitPhase (propagatePhase c) with
    | none => rw [hdec] at h; cases h
    | some rD =>
      rw [hdec] at h
      obtain ⟨cD, evD⟩ := rD
      dsimp only at h
      simp only [Option.some.injEq, Prod.mk.injEq] at h
      cases h.1

/-- Every public entry point, called on a valid handle, preserves the
representation invariants. -/
theorem wf_applyAct {env : Env} {a : Act} {c c' : Ctx}
    (hW : WF c) (hpre : ActPre c a) (h : applyAct env a c = some c') : WF c' := by
  cases a with
  | settingsNew nt sw port hooks alloc =>
    dsimp only [applyAct] at h
    cases hop : lsdn_settings_new c nt sw port hooks alloc with
    | none => rw [hop] at h; cases h; exact hW
    | some r =>
      rw [hop] at h
      cases h
      unfold lsdn_settings_new at hop
      by_cases hal : alloc = true
      · rw [if_pos hal] at hop
        simp only [Option.some.injEq] at hop
        rw [← hop]
        exact wf_append_settings rfl hW
      · rw [if_neg hal] at hop
        cases hop
  | netNew s vnet alloc =>
    dsimp only [applyAct] at h
    cases hop : lsdn_net_new c s vnet alloc with
    | none => rw [hop] at h; cases h; exact hW
    | some r =>
      rw [hop] at h
      cases h
      unfold lsdn_net_new at hop
      by_cases hal : alloc = true
      · rw [if_pos hal] at hop
        simp only [Option.some.injEq] at hop
        rw [← hop]
        exact wf_append_net rfl hW
      · rw [if_neg hal] at hop
        cases hop
  | physNew alloc =>
    dsimp only [applyAct] at h
    cases hop : lsdn_phys_new c alloc with
    | none => rw [hop] at h; cases h; exact hW
    | some r =>
      rw [hop] at h
      cases h
      unfold lsdn_phys_new at hop
      by_cases hal : alloc = true
      · rw [if_pos hal] at hop
        simp only [Option.some.injEq] at hop
        rw [← hop]
        exact wf_append_phys rfl hW
      · rw [if_neg hal] at hop
        cases hop
  | virtNew n alloc =>
    dsimp only [applyAct] at h
    have hnet : ∃ m ∈ c.netsL, m.nid = n := by
      have hpre' : (findNet c n).isSome := hpre
      rw [findNet, List.find?_isSome] at hpre'
      obtain ⟨m, hm, hmid⟩ := hpre'
      exact ⟨m, hm, by simpa using hmid⟩
    cases hop : lsdn_virt_new c n alloc with
    | none => rw [hop] at h; cases h; exact hW
    | some r =>
      rw [hop] at h
      cases h
      unfold lsdn_virt_new at hop
      by_cases hal : alloc = true
      · rw [if_pos hal] at hop
        simp only [Option.some.injEq] at hop
        rw [← hop]
        exact wf_append_virt rfl hnet rfl hW
      · rw [if_neg hal] at hop
        cases hop
  | physAttach p n alloc =>
    dsimp only [applyAct] at h
    cases h
    have hnet : ∃ m ∈ c.netsL, m.nid = n := by
      have hpre' : (findNet c n).isSome := hpre
      rw [findNet, List.find?_isSome] at hpre'
      obtain ⟨m, hm, hmid⟩ := hpre'
      exact ⟨m, hm, by simpa using hmid⟩
    unfold lsdn_phys_attach
    cases hfoc : find_or_create_attachement c p n alloc with
    | none => exact hW
    | some r1 =>
      obtain ⟨a, ctx1⟩ := r1
      dsimp only
      exact wf_updPA (fun x => ⟨rfl, rfl⟩) (find_or_create_post hfoc hnet hW).1
  | physDetach p n =>
    dsimp only [applyAct] at h
    cases h
    unfold lsdn_phys_detach
    cases hfind : (pasOfPhys c p).find? (fun a => a.net = n) with
    | some a => exact wf_phys_detach_by_pa hW
    | none => exact hW
  | physSetIface p iface alloc =>
    dsimp only [applyAct] at h
    rw [Option.map_eq_some'] at h
    obtain ⟨r, hop, hc'⟩ := h
    unfold lsdn_phys_set_iface at hop
    cases hfind : findPhys c p with
    | none => rw [hfind] at hop; cases hop
    | some ph =>
      rw [hfind] at hop
      dsimp only at hop
      by_cases hal : alloc = true
      · rw [if_pos hal] at hop
        cases hop
        rw [← hc']
        exact wf_updPhys (fun x => rfl) hW
      · rw [if_neg hal] at hop
        cases hop
        rw [← hc']
        exact hW
  | physClearIface p =>
    dsimp only [applyAct] at h
    rw [Option.map_eq_some'] at h
    obtain ⟨r, hop, hc'⟩ := h
    unfold lsdn_phys_clear_iface at hop
    cases hfind : findPhys c p with
    | none => rw [hfind] at hop; cases hop
    | some ph =>
      rw [hfind] at hop
      cases hop
      rw [← hc']
      exact wf_updPhys (fun x => rfl) hW
  | physSetIp p ip alloc =>
    dsimp only [applyAct] at h
    rw [Option.map_eq_some'] at h
    obtain ⟨r, hop, hc'⟩ := h
    unfold lsdn_phys_set_ip at hop
    cases hfind : findPhys c p with
    | none => rw [hfind] at hop; cases hop
    | some ph =>
      rw [hfind] at hop
      dsimp only at hop
      by_cases hal : alloc = true
      · rw [if_pos hal] at hop
        cases hop
        rw [← hc']
        exact wf_updPhys (fun x => rfl) hW
      · rw [if_neg hal] at hop
        cases hop
        rw [← hc']
        exact hW
  | physClaimLocal p =>
    dsimp only [applyAct] at h
    rw [Option.map_eq_some'] at h
    obtain ⟨r, hop, hc'⟩ := h
    unfold lsdn_phys_claim_local at hop
    cases hfind : findPhys c p with
    | none => rw [hfind] at hop; cases hop
    | some ph =>
      rw [hfind] at hop
      dsimp only at hop
      by_cases hloc : ph.is_local = true
      · rw [if_neg (by simp [hloc])] at hop
        cases hop
        rw [← hc']
        exact hW
      · rw [if_pos (by simp [hloc])] at hop
        cases hrn : renew ph.state with
        | none => rw [hrn] at hop; cases hop
        | some s' =>
          rw [hrn] at hop
          cases hop
          rw [← hc']
          exact wf_updPhys (fun x => rfl) hW
  | physUnclaimLocal p =>
    dsimp only [applyAct] at h
    rw [Option.map_eq_some'] at h
    obtain ⟨r, hop, hc'⟩ := h
    unfold lsdn_phys_unclaim_local at hop
    cases hfind : findPhys c p with
    | none => rw [hfind] at hop; cases hop
    | some ph =>
      rw [hfind] at hop
      dsimp only at hop
      by_cases hloc : ph.is_local = true
      · rw [if_pos hloc] at hop
        cases hrn : renew ph.state with
        | none => rw [hrn] at hop; cases hop
        | some s' =>
          rw [hrn] at hop
          cases hop
          rw [← hc']
          exact wf_updPhys (fun x => rfl) hW
      · rw [if_neg hloc] at hop
        cases hop
        rw [← hc']
        exact hW
  | physFree p =>
    dsimp only [applyAct] at h
    exact wf_phys_free h hW
  | virtConnect v p iface aA aN =>
    dsimp only [applyAct] at h
    rw [Option.map_eq_some'] at h
    obtain ⟨r, hop, hc'⟩ := h
    rw [← hc']
    exact wf_virt_connect (by rw [hop]) hW
  | virtDisconnect v =>
    dsimp only [applyAct] at h
    exact (wf_virt_disconnect h hW).1
  | virtSetMac v mac alloc =>
    dsimp only [applyAct] at h
    rw [Option.map_eq_some'] at h
    obtain ⟨r, hop, hc'⟩ := h
    unfold lsdn_virt_set_mac at hop
    cases hfind : findVirt c v with
    | none => rw [hfind] at hop; cases hop
    | some v0 =>
      rw [hfind] at hop
      dsimp only at hop
      by_cases hal : alloc = true
      · rw [if_pos hal] at hop
        cases hop
        rw [← hc']
        exact wf_updVirt_conn (fun x => ⟨rfl, rfl⟩)
          (fun w hw hwvid a' hfa' => Or.inl hfa') hW
      · rw [if_neg hal] at hop
        cases hop
        rw [← hc']
        exact hW
  | virtFree v =>
    dsimp only [applyAct] at h
    exact wf_virt_free h hW
  | netFree n =>
    dsimp only [applyAct] at h
    exact wf_net_free h hW
  | settingsFree s =>
    dsimp only [applyAct] at h
    exact wf_settings_free h hW
  | validateAct =>
    dsimp only [applyAct] at h
    cases h
    obtain ⟨hU, hF, hN, hC⟩ := hW
    obtain ⟨hU', hF', hC', hN'⟩ := propagatePhase_wf hU hF hC hN
    exact ⟨hU', hF', hN', hC'⟩
  | commitAct =>
    dsimp only [applyAct] at h
    rw [Option.map_eq_some'] at h
    obtain ⟨r, hop, hc'⟩ := h
    obtain ⟨ret, c2, evs⟩ := r
    dsimp only at hc'
    cases ret with
    | retErrIdent =>
      have := lsdn_commit_errident hop
      rw [← hc', this]
      obtain ⟨hU, hF, hN, hC⟩ := hW
      obtain ⟨hU', hF', hC', hN'⟩ := propagatePhase_wf hU hF hC hN
      exact ⟨hU', hF', hN', hC'⟩
    | ret e =>
      obtain ⟨hU, hF, hN, hC⟩ := hW
      obtain ⟨_, _, hcp⟩ := lsdn_commit_ret hU hF hC hN hop
      rw [← hc']
      exact ⟨hcp.uq, hcp.fr, hcp.nr, hcp.cn⟩

theorem actPre_of_b {c : Ctx} {a : Act} (h : ActPreB c a = true) : ActPre c a := by
  cases a <;> simp [ActPreB, ActPre] at h ⊢ <;> exact h

theorem reach_applyActsOK {env : Env} :
    ∀ {l : List Act} {c c' : Ctx}, Reach env c →
      applyActsOK env l c = some c' → Reach env c' := by
  intro l
  induction l with
  | nil =>
    intro c c' hr h
    simp only [applyActsOK] at h
    cases h
    exact hr
  | cons a rest ih =>
    intro c c' hr h
    simp only [applyActsOK] at h
    by_cases hb : ActPreB c a = true
    · rw [if_pos hb] at h
      cases hstep : applyAct env a c with
      | none => rw [hstep] at h; cases h
      | some c1 =>
        rw [hstep] at h
        exact ih (Reach.step hr (actPre_of_b hb) hstep) h
    · rw [if_neg hb] at h
      cases h

/-- The empty context is well-formed. -/
theorem wf_empty : WF Ctx.empty := by
  refine ⟨⟨?_, ?_, ?_, ?_, ?_, ?_, ?_⟩, ⟨?_, ?_, ?_, ?_, ?_, ?_, ?_⟩, ⟨?_, ?_⟩, ?_⟩ <;>
    simp [Ctx.empty, ConnInv, List.Nodup]

/-- Every reachable context is well-formed. -/
theorem wf_reach {env : Env} {c : Ctx} (h : Reach env c) : WF c := by
  induction h with
  | empty => exact wf_empty
  | step hr hpre hstep ih => exact wf_applyAct ih hpre hstep

/-! ## A committed (all-OK) graph is a fixed point of the engine -/

theorem map_eq_self {α : Type} {l : List α} {f : α → α}
    (h : ∀ x ∈ l, f x = x) : l.map f = l := by
  induction l with
  | nil => rfl
  | cons x rest ih =>
    rw [List.map_cons, h x (List.mem_cons_self _ _),
      ih (fun y hy => h y (List.mem_cons_of_mem _ hy))]

theorem filterMap_eq_self {α : Type} {l : List α} {f : α → Option α}
    (h : ∀ x ∈ l, f x = some x) : l.filterMap f = l := by
  induction l with
  | nil => rfl
  | cons x rest ih =>
    rw [List.filterMap_cons, h x (List.mem_cons_self _ _),
      ih (fun y hy => h y (List.mem_cons_of_mem _ hy))]

/-- In a list whose ids are `Nodup`, `find?` by id finds the member. -/
theorem find_by_id_of_nodup {α : Type} {g : α → Id} :
    ∀ {l : List α}, ((l.map g).Nodup) → ∀ {x : α}, x ∈ l → ∀ {i : Id}, g x = i →
      l.find? (fun y => g y = i) = some x := by
  intro l
  induction l with
  | nil => intro _ x hx; cases hx
  | cons t rest ih =>
    intro hN x hx i hid
    rcases List.mem_cons.1 hx with heq | hmm
    · rw [List.find?_cons_of_pos]
      · rw [heq]
      · rw [heq] at hid
        simpa using hid
    · by_cases ht : g t = i
      · exfalso
        rw [List.map_cons, List.nodup_cons] at hN
        refine hN.1 ?_
        rw [ht, ← hid]
        exact List.mem_map_of_mem g hmm
      · rw [List.find?_cons_of_neg _ (by simpa using ht)]
        rw [List.map_cons, List.nodup_cons] at hN
        exact ih hN.2 hmm hid

theorem propagate_id {src dst : St} (h : src ≠ .renew) : propagate src dst = dst := by
  unfold propagate
  rw [if_neg]
  intro hc
  exact h hc.1

/-- On an all-OK graph, propagation changes nothing. -/
theorem propagatePhase_allok_id {c : Ctx} (h : AllOK c) : propagatePhase c = c := by
  obtain ⟨h1, h2, h3, h4, h5⟩ := h
  have hphys : ∀ i, (physOfD c i).state ≠ .renew := by
    intro i
    unfold physOfD
    cases hf : findPhys c i with
    | none => simp
    | some p =>
      simp only [Option.getD_some]
      rw [h3 p (List.mem_of_find?_eq_some hf)]
      simp
  have hnet : ∀ i, (netOfD c i).state ≠ .renew := by
    intro i
    unfold netOfD
    cases hf : findNet c i with
    | none => simp
    | some n =>
      simp only [Option.getD_some]
      rw [h2 n (List.mem_of_find?_eq_some hf)]
      simp
  have hpa : ∀ i, (paOfD c i).state ≠ .renew := by
    intro i
    unfold paOfD
    cases hf : findPA c i with
    | none => simp
    | some a =>
      simp only [Option.getD_some]
      rw [h4 a (List.mem_of_find?_eq_some hf)]
      simp
  unfold propagatePhase
  dsimp only
  have e1 : c.pasL.map (fun (a : PA) =>
      { a with state := propagate (physOfD c a.phys).state a.state }) = c.pasL := by
    refine map_eq_self (fun a ha => ?_)
    rw [propagate_id (hphys a.phys)]
  rw [e1]
  have e2 : c.pasL.map (fun (a : PA) =>
      { a with state := propagate (netOfD c a.net).state a.state }) = c.pasL := by
    refine map_eq_self (fun a ha => ?_)
    rw [propagate_id (hnet a.net)]
  rw [e2]
  have e3 : c.virtsL.map (fun (v : Virt) =>
      match v.connected_through with
      | some a => { v with state := propagate (paOfD c a).state v.state }
      | none => v) = c.virtsL := by
    refine map_eq_self (fun v hv => ?_)
    cases hct : v.connected_through with
    | some a =>
      dsimp only
      rw [propagate_id (hpa a), ← hct]
    | none => rfl
  rw [e3]

theorem updVirt_id_of_allok {c : Ctx} {vi : Id} (h : ∀ v ∈ c.virtsL, v.state = .ok) :
    updVirt c vi (fun x => { x with state := St.ok }) = c := by
  unfold updVirt
  have e : c.virtsL.map (fun v => if v.vid = vi then
      ({ v with state := St.ok } : Virt) else v) = c.virtsL := by
    refine map_eq_self (fun v hv => ?_)
    by_cases hc : v.vid = vi
    · rw [if_pos hc, ← h v hv]
    · rw [if_neg hc]
  rw [e]

theorem updPA_id_of_allok {c : Ctx} {ai : Id} (h : ∀ a ∈ c.pasL, a.state = .ok) :
    updPA c ai (fun x => { x with state := St.ok }) = c := by
  unfold updPA
  have e : c.pasL.map (fun a => if a.aid = ai then
      ({ a with state := St.ok } : PA) else a) = c.pasL := by
    refine map_eq_self (fun a ha => ?_)
    by_cases hc : a.aid = ai
    · rw [if_pos hc, ← h a ha]
    · rw [if_neg hc]
  rw [e]

theorem updNet_id_of_allok {c : Ctx} {ni : Id} (h : ∀ n ∈ c.netsL, n.state = .ok) :
    updNet c ni (fun x => { x with state := St.ok }) = c := by
  unfold updNet
  have e : c.netsL.map (fun n => if n.nid = ni then
      ({ n with state := St.ok } : Net) else n) = c.netsL := by
    refine map_eq_self (fun n hn => ?_)
    by_cases hc : n.nid = ni
    · rw [if_pos hc, ← h n hn]
    · rw [if_neg hc]
  rw [e]

theorem decommitVirtOne_allok {c : Ctx} (h : AllOK c) (vi : Id) :
    decommitVirtOne c vi = (c, []) := by
  unfold decommitVirtOne
  cases hfind : findVirt c vi with
  | none => rfl
  | some v =>
    dsimp only
    have hst : v.state = .ok := h.2.2.2.2 v (List.mem_of_find?_eq_some hfind)
    rw [hst]
    show (if false = true then _ else (updVirt c vi (fun x => { x with state := St.ok }), ([] : List Ev))) = (c, [])
    rw [if_neg (by simp)]
    rw [updVirt_id_of_allok h.2.2.2.2]

theorem decommitPAOne_allok {c : Ctx} (h : AllOK c) (ai : Id) :
    decommitPAOne c ai = some (c, []) := by
  unfold decommitPAOne
  cases hfind : findPA c ai with
  | none => rfl
  | some a =>
    dsimp only
    have hst : a.state = .ok := h.2.2.2.1 a (List.mem_of_find?_eq_some hfind)
    rw [hst]
    show (if false = true then _ else some (updPA c ai (fun x => { x with state := St.ok }), ([] : List Ev))) = some (c, [])
    rw [if_neg (by simp)]
    rw [updPA_id_of_allok h.2.2.2.1]

theorem virtFold_allok {c : Ctx} (h : AllOK c) :
    ∀ (l : List Id) (evs : List Ev),
      l.foldl (fun (acc : Ctx × List Ev) vi =>
        let r := decommitVirtOne acc.1 vi
        (r.1, acc.2 ++ r.2)) (c, evs) = (c, evs) := by
  intro l
  induction l with
  | nil => intro evs; rfl
  | cons vi rest ih =>
    intro evs
    rw [List.foldl_cons]
    show List.foldl _ ((decommitVirtOne c vi).1, evs ++ (decommitVirtOne c vi).2) rest = _
    rw [decommitVirtOne_allok h vi]
    show List.foldl _ (c, evs ++ []) rest = _
    rw [List.append_nil]
    exact ih evs

theorem paFold_allok {c : Ctx} (h : AllOK c) :
    ∀ (l : List Id) (evs : List Ev),
      foldEvM decommitPAOne l (c, evs) = some (c, evs) := by
  intro l
  induction l with
  | nil => intro evs; rfl
  | cons ai rest ih =>
    intro evs
    show (match decommitPAOne c ai with
      | none => none
      | some (c', evs') => foldEvM decommitPAOne rest (c', evs ++ evs')) = _
    rw [decommitPAOne_allok h ai]
    show foldEvM decommitPAOne rest (c, evs ++ []) = _
    rw [List.append_nil]
    exact ih evs

theorem decommitNetOne_allok {c : Ctx} (h : AllOK c) (ni : Id) :
    decommitNetOne c ni = some (c, []) := by
  unfold decommitNetOne
  dsimp only
  rw [virtFold_allok h]
  rw [paFold_allok h]
  dsimp only
  cases hfind : findNet c ni with
  | none => rfl
  | some n =>
    dsimp only
    have hst : n.state = .ok := h.2.1 n (List.mem_of_find?_eq_some hfind)
    rw [hst]
    show (if (false = true) ∧ (St.ok = St.delete) then _
      else some (updNet c ni (fun x => { x with state := St.ok }), ([] : List Ev))) = some (c, [])
    rw [if_neg (by simp)]
    rw [updNet_id_of_allok h.2.1]

theorem netFold_allok {c : Ctx} (h : AllOK c) :
    ∀ (l : List Id) (evs : List Ev),
      foldEvM decommitNetOne l (c, evs) = some (c, evs) := by
  intro l
  induction l with
  | nil => intro evs; rfl
  | cons ni rest ih =>
    intro evs
    show (match decommitNetOne c ni with
      | none => none
      | some (c', evs') => foldEvM decommitNetOne rest (c', evs ++ evs')) = _
    rw [decommitNetOne_allok h ni]
    show foldEvM decommitNetOne rest (c, evs ++ []) = _
    rw [List.append_nil]
    exact ih evs

theorem sweepPhys_allok {l : List Phys} (h : ∀ p ∈ l, p.state = .ok) :
    sweepPhys l = l := by
  unfold sweepPhys
  refine filterMap_eq_self (fun p hp => ?_)
  rw [h p hp]
  show (if (false = true) ∧ (St.ok = St.delete) then _
    else some ({ p with state := St.ok } : Phys)) = some p
  rw [if_neg (by simp), ← h p hp]

theorem sweepSettings_allok {ctx : Ctx} :
    ∀ {l : List Settings}, (∀ s ∈ l, s.state = .ok) →
      sweepSettings ctx l = some l := by
  intro l
  induction l with
  | nil => intro _; rfl
  | cons s rest ih =>
    intro h
    unfold sweepSettings
    have hst : s.state = .ok := h s (List.mem_cons_self _ _)
    rw [hst]
    simp only [ack_uncommit]
    rw [if_neg (by simp), ih (fun t ht => h t (List.mem_cons_of_mem _ ht)), ← hst]

theorem decommitPhase_allok {c : Ctx} (h : AllOK c) :
    decommitPhase c = some (c, []) := by
  unfold decommitPhase
  dsimp only
  rw [netFold_allok h]
  dsimp only
  rw [sweepPhys_allok h.2.2.1]
  show (match sweepSettings { c with physL := c.physL } c.settingsL with
    | none => none
    | some l => some (({ { c with physL := c.physL } with settingsL := l } : Ctx), ([] : List Ev))) = _
  rw [sweepSettings_allok h.1]

theorem commit_pa_allok {c : Ctx} (h : AllOK c) (ai : Id) :
    commit_pa c ai = (c, []) := by
  unfold commit_pa
  cases hfind : findPA c ai with
  | none => rfl
  | some pa =>
    dsimp only
    have hst : pa.state = .ok := h.2.2.2.1 pa (List.mem_of_find?_eq_some hfind)
    have hev0 : (if pa.state = St.new then [Ev.create_pa ai] else []) = [] := by
      rw [if_neg (by rw [hst]; simp)]
    have hr1 : ∀ (l : List Id) (acc : Ctx × List Ev), acc.1 = c →
        l.foldl (fun (acc : Ctx × List Ev) vi =>
          match findVirt acc.1 vi with
          | none => acc
          | some v =>
            if v.state = .new then
              (updVirt acc.1 vi (fun x =>
                 { x with committed_to := some ai, committed_if := x.connected_if }),
               acc.2 ++ [Ev.add_virt vi])
            else acc) acc = acc := by
      intro l
      induction l with
      | nil => intro acc hacc; rfl
      | cons vi rest ih =>
        intro acc hacc
        rw [List.foldl_cons]
        have hstep : (match findVirt acc.1 vi with
            | none => acc
            | some v =>
              if v.state = .new then
                (updVirt acc.1 vi (fun x =>
                   { x with committed_to := some ai, committed_if := x.connected_if }),
                 acc.2 ++ [Ev.add_virt vi])
              else acc) = acc := by
          cases hfv : findVirt acc.1 vi with
          | none => rfl
          | some v =>
            dsimp only
            rw [if_neg]
            rw [h.2.2.2.2 v (by rw [← hacc]; exact List.mem_of_find?_eq_some hfv)]
            simp
        rw [hstep]
        exact ih acc hacc
    rw [hr1 _ (c, []) rfl]
    have hrem : (pasOfNet c pa.net).filter (fun r => r.aid ≠ ai ∧ r.state = .new) = [] := by
      rw [List.filter_eq_nil]
      intro a ha
      have : a.state = .ok := h.2.2.2.1 a (by
        simp only [pasOfNet, List.mem_filter] at ha
        exact ha.1)
      simp [this]
    rw [hrem]
    have hr3 : ∀ (l : List RemotePA) (acc : Ctx × List Ev), acc.1 = c →
        l.foldl (fun (acc : Ctx × List Ev) rpa =>
          ((connectedVirts acc.1 rpa.rremote).map (fun v => v.vid)).foldl
            (fun (acc2 : Ctx × List Ev) wi =>
              match findVirt acc2.1 wi with
              | none => acc2
              | some w =>
                if w.state = .new then
                  ({ settingsL := acc2.1.settingsL, netsL := acc2.1.netsL,
                     physL := acc2.1.physL, pasL := acc2.1.pasL,
                     virtsL := acc2.1.virtsL, rpasL := acc2.1.rpasL,
                     rvirtsL := acc2.1.rvirtsL ++
                       [{ rvid := acc2.1.next_id, rv_pa := rpa.rid, rv_virt := wi }],
                     next_id := acc2.1.next_id + 1 },
                   acc2.2 ++ [Ev.add_remote_virt acc2.1.next_id])
                else acc2) acc) acc = acc := by
      intro l
      induction l with
      | nil => intro acc hacc; rfl
      | cons rpa rest ih =>
        intro acc hacc
        rw [List.foldl_cons]
        have hinner : ∀ (wl : List Id) (acc2 : Ctx × List Ev), acc2.1 = c →
            wl.foldl (fun (acc2 : Ctx × List Ev) wi =>
              match findVirt acc2.1 wi with
              | none => acc2
              | some w =>
                if w.state = .new then
                  ({ settingsL := acc2.1.settingsL, netsL := acc2.1.netsL,
                     physL := acc2.1.physL, pasL := acc2.1.pasL,
                     virtsL := acc2.1.virtsL, rpasL := acc2.1.rpasL,
                     rvirtsL := acc2.1.rvirtsL ++
                       [{ rvid := acc2.1.next_id, rv_pa := rpa.rid, rv_virt := wi }],
                     next_id := acc2.1.next_id + 1 },
                   acc2.2 ++ [Ev.add_remote_virt acc2.1.next_id])
                else acc2) acc2 = acc2 := by
          intro wl
          induction wl with
          | nil => intro acc2 hacc2; rfl
          | cons wi wrest wih =>
            intro acc2 hacc2
            rw [List.foldl_cons]
            have hstep : (match findVirt acc2.1 wi with
                | none => acc2
                | some w =>
                  if w.state = .new then
                    ({ settingsL := acc2.1.settingsL, netsL := acc2.1.netsL,
                       physL := acc2.1.physL, pasL := acc2.1.pasL,
                       virtsL := acc2.1.virtsL, rpasL := acc2.1.rpasL,
                       rvirtsL := acc2.1.rvirtsL ++
                         [{ rvid := acc2.1.next_id, rv_pa := rpa.rid, rv_virt := wi }],
                       next_id := acc2.1.next_id + 1 },
                     acc2.2 ++ [Ev.add_remote_virt acc2.1.next_id])
                  else acc2) = acc2 := by
              cases hfw : findVirt acc2.1 wi with
              | none => rfl
              | some w =>
                dsimp only
                rw [if_neg]
                rw [h.2.2.2.2 w (by rw [← hacc2]; exact List.mem_of_find?_eq_some hfw)]
                simp
            rw [hstep]
            exact wih acc2 hacc2
        rw [hinner _ acc hacc]
        exact ih acc hacc
    simp only [List.map_nil, List.foldl_nil]
    rw [hr3 (remotePAsOfLocal c ai) (c, []) rfl, hev0]
    rfl

theorem allok_updPhys {c : Ctx} {i : Id} {f : Phys → Phys}
    (hf : ∀ p, (f p).state = p.state) (h : AllOK c) : AllOK (updPhys c i f) := by
  obtain ⟨h1, h2, h3, h4, h5⟩ := h
  refine ⟨h1, h2, ?_, h4, h5⟩
  intro p hp
  simp only [updPhys, List.mem_map] at hp
  obtain ⟨p0, hp0, hmap⟩ := hp
  by_cases hc : p0.pid = i
  · rw [if_pos hc] at hmap
    rw [← hmap, hf p0]
    exact h3 p0 hp0
  · rw [if_neg hc] at hmap
    rw [← hmap]
    exact h3 p0 hp0

theorem foldl_inv {α β : Type} {g : β → α → β} (P : β → Prop)
    (hg : ∀ acc x, P acc → P (g acc x)) :
    ∀ (l : List α) (acc : β), P acc → P (l.foldl g acc) := by
  intro l
  induction l with
  | nil => intro acc h; exact h
  | cons x rest ih =>
    intro acc h
    rw [List.foldl_cons]
    exact ih (g acc x) (hg acc x h)

/-- On an all-OK graph, the recommit phase performs no driver calls and
keeps every state OK. -/
theorem recommitPhase_allok {c : Ctx} (h : AllOK c) :
    AllOK (recommitPhase c).1 ∧ (recommitPhase c).2 = [] := by
  unfold recommitPhase
  refine foldl_inv (fun (acc : Ctx × List Ev) => AllOK acc.1 ∧ acc.2 = [])
    ?_ _ (c, []) ⟨h, rfl⟩
  intro acc pi hacc
  dsimp only
  cases hfp : findPhys acc.1 pi with
  | none => exact hacc
  | some p =>
    dsimp only
    by_cases hloc : p.is_local = true
    · rw [if_pos hloc]
      have hup : AllOK (updPhys acc.1 pi (fun x => { x with commited_as_local := true })) :=
        allok_updPhys (fun x => rfl) hacc.1
      refine foldl_inv (fun (acc2 : Ctx × List Ev) => AllOK acc2.1 ∧ acc2.2 = []) ?_ _ _ ⟨hup, hacc.2⟩
      intro acc2 ai hacc2
      dsimp only
      rw [commit_pa_allok hacc2.1 ai]
      exact ⟨hacc2.1, by rw [hacc2.2]; rfl⟩
    · rw [if_neg hloc]
      exact hacc

/-- On an all-OK graph, the ack phase changes nothing. -/
theorem ackPhase_allok_id {c : Ctx} (h : AllOK c) : ackPhase c = c := by
  obtain ⟨h1, h2, h3, h4, h5⟩ := h
  unfold ackPhase
  have e1 : c.settingsL.map (fun s => { s with state := ack_state s.state }) = c.settingsL := by
    refine map_eq_self (fun s hs => ?_)
    have hs2 : ack_state s.state = s.state := by rw [h1 s hs]; decide
    rw [hs2]
  have e2 : c.physL.map (fun p => { p with state := ack_state p.state }) = c.physL := by
    refine map_eq_self (fun p hp => ?_)
    have hp2 : ack_state p.state = p.state := by rw [h3 p hp]; decide
    rw [hp2]
  have e3 : c.netsL.map (fun n => { n with state := ack_state n.state }) = c.netsL := by
    refine map_eq_self (fun n hn => ?_)
    have hn2 : ack_state n.state = n.state := by rw [h2 n hn]; decide
    rw [hn2]
  have e4 : c.pasL.map (fun a =>
      if (findNet c a.net).isSome then { a with state := ack_state a.state } else a) = c.pasL := by
    refine map_eq_self (fun a ha => ?_)
    by_cases hg : (findNet c a.net).isSome
    · have ha2 : ack_state a.state = a.state := by rw [h4 a ha]; decide
      rw [if_pos hg, ha2]
    · rw [if_neg hg]
  have e5 : c.virtsL.map (fun v =>
      if (findNet c v.network).isSome then { v with state := ack_state v.state } else v) = c.virtsL := by
    refine map_eq_self (fun v hv => ?_)
    by_cases hg : (findNet c v.network).isSome
    · have hv2 : ack_state v.state = v.state := by rw [h5 v hv]; decide
      rw [if_pos hg, hv2]
    · rw [if_neg hg]
  rw [e1, e2, e3, e4, e5]

theorem trigger_startup_hooks_shape {c : Ctx} :
    ∀ e ∈ trigger_startup_hooks c, e.isNettypeOp = false := by
  intro e he
  unfold trigger_startup_hooks at he
  simp only [List.mem_flatMap] at he
  obtain ⟨p, hp, he2⟩ := he
  by_cases hloc : p.is_local = true
  · rw [if_pos hloc] at he2
    simp only [List.mem_filterMap] at he2
    obtain ⟨a, ha, hmap⟩ := he2
    by_cases hg : (settingsOfD c (netOfD c a.net).settings).has_user_hooks = true
    · rw [if_pos hg] at hmap
      cases hmap
      rfl
    · rw [if_neg hg] at hmap
      cases hmap
  · rw [if_neg hloc] at he2
    exact absurd he2 (List.not_mem_nil _)

/-- A clean-validating all-OK context commits at once: OK result, unchanged
except for the phys commit flags, and only user hooks fire. -/
theorem lsdn_commit_of_allok {env : Env} {c : Ctx} (hA : AllOK c)
    (hnil : validateProblems env c = []) :
    lsdn_commit env c =
      some (.ret .eOK, (recommitPhase c).1, trigger_startup_hooks c) := by
  unfold lsdn_commit
  dsimp only [lsdn_validate]
  rw [propagatePhase_allok_id hA]
  rw [if_neg (by rw [hnil]; simp)]
  rw [decommitPhase_allok hA]
  dsimp only
  rw [ackPhase_allok_id (recommitPhase_allok hA).1]
  rw [hnil]
  rw [if_pos (by simp)]
  rw [(recommitPhase_allok hA).2]
  rw [List.append_nil, List.append_nil]

/-! ## Validation on a freshly committed graph -/

theorem flatMap_nil_of {α β : Type} {f : α → List β} {l : List α}
    (h : ∀ x ∈ l, f x = []) : l.flatMap f = [] := by
  induction l with
  | nil => rfl
  | cons x rest ih =>
    rw [List.flatMap_cons, h x (List.mem_cons_self _ _),
      ih (fun y hy => h y (List.mem_cons_of_mem _ hy)), List.nil_append]

theorem filterMap_nil_of {α β : Type} {f : α → Option β} {l : List α}
    (h : ∀ x ∈ l, f x = none) : l.filterMap f = [] := by
  induction l with
  | nil => rfl
  | cons x rest ih =>
    rw [List.filterMap_cons, h x (List.mem_cons_self _ _),
      ih (fun y hy => h y (List.mem_cons_of_mem _ hy))]

theorem mem_ite_list {α : Type} {c : Prop} [Decidable c] {l : List α} {x : α}
    (h : x ∈ if c then l else []) : c ∧ x ∈ l := by
  by_cases hc : c
  · rw [if_pos hc] at h
    exact ⟨hc, h⟩
  · rw [if_neg hc] at h
    exact absurd h (List.not_mem_nil _)

theorem report_virts_nil {c : Ctx} {a : PA} (h : ∀ v ∈ c.virtsL, v.state = .ok) :
    report_virts c a = [] := by
  unfold report_virts
  refine filterMap_nil_of (fun v hv => ?_)
  have hvc : v ∈ c.virtsL := by
    simp only [connectedVirts, List.mem_filter] at hv
    exact hv.1
  rw [if_neg]
  rw [h v hvc]
  simp [should_be_validated]

theorem validate_virts_pa_nil {env : Env} {c : Ctx} {a : PA}
    (h : ∀ v ∈ c.virtsL, v.state = .ok) : validate_virts_pa env c a = [] := by
  unfold validate_virts_pa
  refine filterMap_nil_of (fun v hv => ?_)
  have hvc : v ∈ c.virtsL := by
    simp only [connectedVirts, List.mem_filter] at hv
    exact hv.1
  rw [if_neg]
  rw [h v hvc]
  simp [should_be_validated]

theorem validate_virts_net_nil {c : Ctx} {net : Net}
    (h : ∀ v ∈ c.virtsL, v.state = .ok) : validate_virts_net c net = [] := by
  unfold validate_virts_net
  refine flatMap_nil_of (fun v1 hv1 => ?_)
  have hvc : v1 ∈ c.virtsL := by
    simp only [virtsOfNet, List.mem_filter] at hv1
    exact hv1.1
  rw [if_pos]
  left
  rw [h v1 hvc]
  simp [should_be_validated]

theorem will_be_deleted_false {s : St} (h : s ≠ .delete) :
    will_be_deleted s = false := by
  cases s <;> simp [will_be_deleted] at h ⊢

/-- Settings dereferences agree between a committed context and its
pre-commit ancestor, on every settings id some net of the committed context
still references. -/
theorem settingsOfD_lift {cP c1 : Ctx}
    (hNs : (cP.settingsL.map (fun s => s.sid)).Nodup)
    (hsubS : SubSettings c1.settingsL cP.settingsL)
    (hsetref : ∀ n ∈ c1.netsL, ∀ s ∈ cP.settingsL, s.sid = n.settings →
      ∃ s' ∈ c1.settingsL, s'.sid = n.settings) :
    ∀ n ∈ c1.netsL,
      (settingsOfD cP n.settings).nettype = (settingsOfD c1 n.settings).nettype ∧
      (settingsOfD cP n.settings).switch_type = (settingsOfD c1 n.settings).switch_type ∧
      (settingsOfD cP n.settings).vxlan_port = (settingsOfD c1 n.settings).vxlan_port := by
  intro n hn
  unfold settingsOfD findSettings
  cases hf1 : c1.settingsL.find? (fun s => s.sid = n.settings) with
  | some s' =>
    have hs'mem : s' ∈ c1.settingsL := List.mem_of_find?_eq_some hf1
    have hs'id : s'.sid = n.settings := by simpa using List.find?_some hf1
    obtain ⟨s0, hs0, hid0, h1, h2, h3, _, _⟩ := hsubS s' hs'mem
    have hfP : cP.settingsL.find? (fun s => s.sid = n.settings) = some s0 :=
      find_by_id_of_nodup hNs hs0 (by rw [hid0, hs'id])
    rw [hfP]
    simp only [Option.getD_some]
    exact ⟨h1, h2, h3⟩
  | none =>
    cases hfP : cP.settingsL.find? (fun s => s.sid = n.settings) with
    | none =>
      exact ⟨rfl, rfl, rfl⟩
    | some s0 =>
      exfalso
      have hs0mem : s0 ∈ cP.settingsL := List.mem_of_find?_eq_some hfP
      have hs0id : s0.sid = n.settings := by simpa using List.find?_some hfP
      obtain ⟨s', hs', hs'id⟩ := hsetref n hn s0 hs0mem hs0id
      have := List.find?_eq_none.1 hf1 s' hs'
      exact this (by simpa using hs'id)

/-- A locally-attached phys seen in the committed context is local in the
ancestor too. -/
theorem physOfD_local_lift {cP c1 : Ctx}
    (hNp : (cP.physL.map (fun p => p.pid)).Nodup)
    (hsubP : SubPhys c1.physL cP.physL) :
    ∀ i, (physOfD c1 i).is_local = true → (physOfD cP i).is_local = true := by
  intro i h
  unfold physOfD findPhys at h ⊢
  cases hf1 : c1.physL.find? (fun p => p.pid = i) with
  | none =>
    rw [hf1] at h
    simp only [Option.getD_none] at h
    cases h
  | some p' =>
    rw [hf1] at h
    simp only [Option.getD_some] at h
    have hp'mem : p' ∈ c1.physL := List.mem_of_find?_eq_some hf1
    have hp'id : p'.pid = i := by simpa using List.find?_some hf1
    obtain ⟨p0, hp0, hid0, _, _, hloc0, _⟩ := hsubP p' hp'mem
    have hfP : cP.physL.find? (fun p => p.pid = i) = some p0 :=
      find_by_id_of_nodup hNp hp0 (by rw [hid0, hp'id])
    rw [hfP]
    simp only [Option.getD_some]
    rw [hloc0, h]

/-- Validation of a committed graph reports nothing: every state-independent
check that could fire would already have fired on the pre-commit graph. -/
theorem validateProblems_nil_of_sub {env : Env} {cP c1 : Ctx}
    (hNs : (cP.settingsL.map (fun s => s.sid)).Nodup)
    (hNp : (cP.physL.map (fun p => p.pid)).Nodup)
    (hsubN : SubNets c1.netsL cP.netsL)
    (hsubP : SubPhys c1.physL cP.physL)
    (hsubA : SubPAs c1.pasL cP.pasL)
    (hsubS : SubSettings c1.settingsL cP.settingsL)
    (hsetref : ∀ n ∈ c1.netsL, ∀ s ∈ cP.settingsL, s.sid = n.settings →
      ∃ s' ∈ c1.settingsL, s'.sid = n.settings)
    (hok : AllOK c1)
    (hnil : validateProblems env cP = []) :
    validateProblems env c1 = [] := by
  rw [List.eq_nil_iff_forall_not_mem]
  intro pr hpr
  have habs : ∀ q, q ∈ validateProblems env cP → False := by
    intro q hq
    rw [hnil] at hq
    exact List.not_mem_nil _ hq
  have hvok : ∀ v ∈ c1.virtsL, v.state = .ok := hok.2.2.2.2
  have hset := settingsOfD_lift hNs hsubS hsetref
  have hploc := physOfD_local_lift hNp hsubP
  have lift_any : ∀ (nx nx0 : Net), nx0.nid = nx.nid →
      (pasOfNet c1 nx.nid).any (fun a1 => (physOfD c1 a1.phys).is_local) = true →
      (pasOfNet cP nx0.nid).any (fun a1 => (physOfD cP a1.phys).is_local) = true := by
    intro nx nx0 hnid hany
    obtain ⟨a1, ha1, hloc⟩ := List.any_eq_true.1 hany
    have ha1c : a1 ∈ c1.pasL ∧ a1.net = nx.nid := by
      simpa [pasOfNet, List.mem_filter] using ha1
    obtain ⟨a0, ha0, g1, g2, g3, g4, g5⟩ := hsubA a1 ha1c.1
    refine List.any_eq_true.2 ⟨a0, ?_, ?_⟩
    · simp only [pasOfNet, List.mem_filter]
      refine ⟨ha0, ?_⟩
      rw [g2, ha1c.2, hnid]
      simp
    · rw [g3]
      exact hploc a1.phys hloc
  unfold validateProblems at hpr
  rcases List.mem_append.1 hpr with hA | hB
  · obtain ⟨net1, hnet1, hpr1⟩ := List.mem_flatMap.1 hA
    have hnd1 : net1.state ≠ St.delete := by rw [hok.2.1 net1 hnet1]; simp
    rw [if_neg (by rw [will_be_deleted_false hnd1]; simp)] at hpr1
    rcases List.mem_append.1 hpr1 with hL | hR
    · rw [validate_virts_net_nil hvok] at hL
      exact List.not_mem_nil _ hL
    · obtain ⟨net2, hnet2, hpr2⟩ := List.mem_flatMap.1 hR
      obtain ⟨⟨hne12, hnd2⟩, hpr3⟩ := mem_ite_list hpr2
      obtain ⟨n10, hn10, e1nid, e1set, e1vnet, e1st⟩ := hsubN net1 hnet1
      obtain ⟨n20, hn20, e2nid, e2set, e2vnet, e2st⟩ := hsubN net2 hnet2
      obtain ⟨hset1a, hset1b, hset1c⟩ := hset net1 hnet1
      obtain ⟨hset2a, hset2b, hset2c⟩ := hset net2 hnet2
      have hne0 : n10.nid ≠ n20.nid := by rw [e1nid, e2nid]; exact hne12
      unfold cross_validate_networks at hpr3
      dsimp only at hpr3
      rcases List.mem_append.1 hpr3 with hdup | hbad
      · obtain ⟨⟨hnt, hvnet⟩, _⟩ := mem_ite_list hdup
        refine habs (⟨.NET_DUPID,
          [.rNET n10.nid, .rNET n20.nid, .rNETID n10.vnet_id]⟩ : Problem) ?_
        unfold validateProblems
        refine List.mem_append_left _ (List.mem_flatMap.2 ⟨n10, hn10, ?_⟩)
        rw [if_neg (by rw [will_be_deleted_false e1st]; simp)]
        refine List.mem_append_right _ (List.mem_flatMap.2 ⟨n20, hn20, ?_⟩)
        rw [if_pos ⟨hne0, by rw [will_be_deleted_false e2st]; simp⟩]
        unfold cross_validate_networks
        dsimp only
        refine List.mem_append_left _ ?_
        have hcnd1 : (settingsOfD cP n10.settings).nettype =
            (settingsOfD cP n20.settings).nettype := by
          rw [e1set, e2set, hset1a, hset2a]
          exact hnt
        have hcnd2 : n10.vnet_id = n20.vnet_id := by
          rw [e1vnet, e2vnet]
          exact hvnet
        rw [if_pos ⟨hcnd1, hcnd2⟩]
        exact List.mem_singleton_self _
      · obtain ⟨⟨⟨hany1, hany2⟩, hnt1, hnt2, hsw1, hsw2, hport⟩, _⟩ := mem_ite_list hbad
        refine habs (⟨.NET_BAD_NETTYPE,
          [.rNET n10.nid, .rNET n20.nid]⟩ : Problem) ?_
        unfold validateProblems
        refine List.mem_append_left _ (List.mem_flatMap.2 ⟨n10, hn10, ?_⟩)
        rw [if_neg (by rw [will_be_deleted_false e1st]; simp)]
        refine List.mem_append_right _ (List.mem_flatMap.2 ⟨n20, hn20, ?_⟩)
        rw [if_pos ⟨hne0, by rw [will_be_deleted_false e2st]; simp⟩]
        unfold cross_validate_networks
        dsimp only
        refine List.mem_append_right _ ?_
        have hb1 := lift_any net1 n10 e1nid hany1
        have hb2 := lift_any net2 n20 e2nid hany2
        have hb3 : (settingsOfD cP n10.settings).nettype = .vxlan := by
          rw [e1set, hset1a]
          exact hnt1
        have hb4 : (settingsOfD cP n20.settings).nettype = .vxlan := by
          rw [e2set, hset2a]
          exact hnt2
        have hb5 : (settingsOfD cP n10.settings).switch_type = .staticE2E := by
          rw [e1set, hset1b]
          exact hsw1
        have hb6 : (settingsOfD cP n20.settings).switch_type ≠ .staticE2E := by
          rw [e2set, hset2b]
          exact hsw2
        have hb7 : (settingsOfD cP n10.settings).vxlan_port =
            (settingsOfD cP n20.settings).vxlan_port := by
          rw [e1set, e2set, hset1c, hset2c]
          exact hport
        rw [if_pos ⟨⟨hb1, hb2⟩, hb3, hb4, hb5, hb6, hb7⟩]
        exact List.mem_singleton_self _
  · obtain ⟨p, hp, hpr1⟩ := List.mem_flatMap.1 hB
    have hndp : p.state ≠ St.delete := by rw [hok.2.2.1 p hp]; simp
    rw [if_neg (by rw [will_be_deleted_false hndp]; simp)] at hpr1
    rcases List.mem_append.1 hpr1 with hL | hR
    · obtain ⟨a, ha, hpr2⟩ := List.mem_flatMap.1 hL
      have hac1 : a ∈ c1.pasL ∧ a.phys = p.pid := by
        simpa [pasOfPhys, List.mem_filter] using ha
      by_cases hexp : a.explicitely_attached = true
      · rw [if_neg (by simp [hexp])] at hpr2
        rcases List.mem_append.1 hpr2 with hL2 | hR2
        · obtain ⟨⟨hlocp, hif⟩, _⟩ := mem_ite_list hL2
          obtain ⟨p0, hp0, k1, k2, k3, k4, k5⟩ := hsubP p hp
          obtain ⟨a0, ha0, g1, g2, g3, g4, g5⟩ := hsubA a hac1.1
          refine habs (⟨.PHYS_NOATTR,
            [.rATTR "iface", .rPHYS p0.pid, .rNET a0.net]⟩ : Problem) ?_
          unfold validateProblems
          refine List.mem_append_right _ (List.mem_flatMap.2 ⟨p0, hp0, ?_⟩)
          rw [if_neg (by rw [will_be_deleted_false k5]; simp)]
          refine List.mem_append_left _ (List.mem_flatMap.2 ⟨a0, ?_, ?_⟩)
          · simp only [pasOfPhys, List.mem_filter]
            refine ⟨ha0, ?_⟩
            rw [g3, hac1.2, k1]
            simp
          · rw [if_neg (by simp [g4, hexp])]
            refine List.mem_append_left _ ?_
            rw [if_pos ⟨by rw [k4]; exact hlocp, by rw [k2]; exact hif⟩]
            exact List.mem_singleton_self _
        · rw [validate_virts_pa_nil hvok] at hR2
          exact List.not_mem_nil _ hR2
      · rw [if_pos (by simp [hexp])] at hpr2
        rw [report_virts_nil hvok] at hpr2
        exact List.not_mem_nil _ hpr2
    · obtain ⟨q, hq, hpr2⟩ := List.mem_flatMap.1 hR
      obtain ⟨⟨hpq, hqnd⟩, hpr3⟩ := mem_ite_list hpr2
      cases hip1 : p.attr_ip with
      | none =>
        rw [hip1] at hpr3
        exact absurd hpr3 (List.not_mem_nil _)
      | some ip1 =>
        cases hip2 : q.attr_ip with
        | none =>
          rw [hip1, hip2] at hpr3
          exact absurd hpr3 (List.not_mem_nil _)
        | some ip2 =>
          rw [hip1, hip2] at hpr3
          dsimp only at hpr3
          obtain ⟨hipeq, _⟩ := mem_ite_list hpr3
          obtain ⟨p0, hp0, k1, k2, k3, k4, k5⟩ := hsubP p hp
          obtain ⟨q0, hq0, m1, m2, m3, m4, m5⟩ := hsubP q hq
          refine habs (⟨.PHYS_DUPATTR,
            [.rATTR "ip", .rPHYS p0.pid, .rPHYS q0.pid]⟩ : Problem) ?_
          unfold validateProblems
          refine List.mem_append_right _ (List.mem_flatMap.2 ⟨p0, hp0, ?_⟩)
          rw [if_neg (by rw [will_be_deleted_false k5]; simp)]
          refine List.mem_append_right _ (List.mem_flatMap.2 ⟨q0, hq0, ?_⟩)
          rw [if_pos ⟨by rw [k1, m1]; exact hpq,
            by rw [will_be_deleted_false m5]; simp⟩]
          rw [show p0.attr_ip = some ip1 from by rw [k3, hip1]]
          rw [show q0.attr_ip = some ip2 from by rw [m3, hip2]]
          dsimp only
          rw [if_pos hipeq]
          exact List.mem_singleton_self _

/-! ## DELETE is never re-promoted -/

/-- Relates a context to its successor: every surviving object either
descends from an object with the same identity whose DELETE mark it
inherits, or is freshly allocated. -/
structure Sources (c c' : Ctx) : Prop where
  next_mono : c.next_id ≤ c'.next_id
  settings : ∀ y ∈ c'.settingsL, (∃ x ∈ c.settingsL, x.sid = y.sid ∧
    (x.state = .delete → y.state = .delete)) ∨ c.next_id ≤ y.sid
  nets : ∀ y ∈ c'.netsL, (∃ x ∈ c.netsL, x.nid = y.nid ∧
    (x.state = .delete → y.state = .delete)) ∨ c.next_id ≤ y.nid
  phys : ∀ y ∈ c'.physL, (∃ x ∈ c.physL, x.pid = y.pid ∧
    (x.state = .delete → y.state = .delete)) ∨ c.next_id ≤ y.pid
  pas : ∀ y ∈ c'.pasL, (∃ x ∈ c.pasL, x.aid = y.aid ∧
    (x.state = .delete → y.state = .delete)) ∨ c.next_id ≤ y.aid
  virts : ∀ y ∈ c'.virtsL, (∃ x ∈ c.virtsL, x.vid = y.vid ∧
    (x.state = .delete → y.state = .delete)) ∨ c.next_id ≤ y.vid

theorem sources_refl (c : Ctx) : Sources c c :=
  ⟨Nat.le_refl _,
   fun y hy => Or.inl ⟨y, hy, rfl, fun h => h⟩,
   fun y hy => Or.inl ⟨y, hy, rfl, fun h => h⟩,
   fun y hy => Or.inl ⟨y, hy, rfl, fun h => h⟩,
   fun y hy => Or.inl ⟨y, hy, rfl, fun h => h⟩,
   fun y hy => Or.inl ⟨y, hy, rfl, fun h => h⟩⟩

theorem sources_trans {c c1 c2 : Ctx} (h1 : Sources c c1) (h2 : Sources c1 c2) :
    Sources c c2 := by
  refine ⟨h1.next_mono.trans h2.next_mono, ?_, ?_, ?_, ?_, ?_⟩
  · intro y hy
    rcases h2.settings y hy with ⟨x1, hx1, hid1, ht1⟩ | hfr
    · rcases h1.settings x1 hx1 with ⟨x0, hx0, hid0, ht0⟩ | hfr0
      · exact Or.inl ⟨x0, hx0, hid0.trans hid1, fun h => ht1 (ht0 h)⟩
      · exact Or.inr (by rw [← hid1]; exact hfr0)
    · exact Or.inr (h1.next_mono.trans hfr)
  · intro y hy
    rcases h2.nets y hy with ⟨x1, hx1, hid1, ht1⟩ | hfr
    · rcases h1.nets x1 hx1 with ⟨x0, hx0, hid0, ht0⟩ | hfr0
      · exact Or.inl ⟨x0, hx0, hid0.trans hid1, fun h => ht1 (ht0 h)⟩
      · exact Or.inr (by rw [← hid1]; exact hfr0)
    · exact Or.inr (h1.next_mono.trans hfr)
  · intro y hy
    rcases h2.phys y hy with ⟨x1, hx1, hid1, ht1⟩ | hfr
    · rcases h1.phys x1 hx1 with ⟨x0, hx0, hid0, ht0⟩ | hfr0
      · exact Or.inl ⟨x0, hx0, hid0.trans hid1, fun h => ht1 (ht0 h)⟩
      · exact Or.inr (by rw [← hid1]; exact hfr0)
    · exact Or.inr (h1.next_mono.trans hfr)
  · intro y hy
    rcases h2.pas y hy with ⟨x1, hx1, hid1, ht1⟩ | hfr
    · rcases h1.pas x1 hx1 with ⟨x0, hx0, hid0, ht0⟩ | hfr0
      · exact Or.inl ⟨x0, hx0, hid0.trans hid1, fun h => ht1 (ht0 h)⟩
      · exact Or.inr (by rw [← hid1]; exact hfr0)
    · exact Or.inr (h1.next_mono.trans hfr)
  · intro y hy
    rcases h2.virts y hy with ⟨x1, hx1, hid1, ht1⟩ | hfr
    · rcases h1.virts x1 hx1 with ⟨x0, hx0, hid0, ht0⟩ | hfr0
      · exact Or.inl ⟨x0, hx0, hid0.trans hid1, fun h => ht1 (ht0 h)⟩
      · exact Or.inr (by rw [← hid1]; exact hfr0)
    · exact Or.inr (h1.next_mono.trans hfr)

theorem sources_updVirt {c : Ctx} {j : Id} {f : Virt → Virt}
    (hf : ∀ v, (f v).vid = v.vid)
    (hdel : ∀ v ∈ c.virtsL, v.vid = j → v.state = .delete → (f v).state = .delete) :
    Sources c (updVirt c j f) := by
  refine ⟨Nat.le_refl _, fun y hy => Or.inl ⟨y, hy, rfl, fun h => h⟩,
    fun y hy => Or.inl ⟨y, hy, rfl, fun h => h⟩,
    fun y hy => Or.inl ⟨y, hy, rfl, fun h => h⟩,
    fun y hy => Or.inl ⟨y, hy, rfl, fun h => h⟩, ?_⟩
  intro y hy
  simp only [updVirt, List.mem_map] at hy
  obtain ⟨v, hv, hmap⟩ := hy
  by_cases hc : v.vid = j
  · rw [if_pos hc] at hmap
    exact Or.inl ⟨v, hv, by rw [← hmap, hf], fun h => by rw [← hmap]; exact hdel v hv hc h⟩
  · rw [if_neg hc] at hmap
    exact Or.inl ⟨v, hv, by rw [hmap], fun h => by rw [← hmap]; exact h⟩

theorem sources_updPA {c : Ctx} {j : Id} {f : PA → PA}
    (hf : ∀ a, (f a).aid = a.aid)
    (hdel : ∀ a ∈ c.pasL, a.aid = j → a.state = .delete → (f a).state = .delete) :
    Sources c (updPA c j f) := by
  refine ⟨Nat.le_refl _, fun y hy => Or.inl ⟨y, hy, rfl, fun h => h⟩,
    fun y hy => Or.inl ⟨y, hy, rfl, fun h => h⟩,
    fun y hy => Or.inl ⟨y, hy, rfl, fun h => h⟩, ?_,
    fun y hy => Or.inl ⟨y, hy, rfl, fun h => h⟩⟩
  intro y hy
  simp only [updPA, List.mem_map] at hy
  obtain ⟨a, ha, hmap⟩ := hy
  by_cases hc : a.aid = j
  · rw [if_pos hc] at hmap
    exact Or.inl ⟨a, ha, by rw [← hmap, hf], fun h => by rw [← hmap]; exact hdel a ha hc h⟩
  · rw [if_neg hc] at hmap
    exact Or.inl ⟨a, ha, by rw [hmap], fun h => by rw [← hmap]; exact h⟩

theorem sources_updPhys {c : Ctx} {j : Id} {f : Phys → Phys}
    (hf : ∀ p, (f p).pid = p.pid)
    (hdel : ∀ p ∈ c.physL, p.pid = j → p.state = .delete → (f p).state = .delete) :
    Sources c (updPhys c j f) := by
  refine ⟨Nat.le_refl _, fun y hy => Or.inl ⟨y, hy, rfl, fun h => h⟩,
    fun y hy => Or.inl ⟨y, hy, rfl, fun h => h⟩, ?_,
    fun y hy => Or.inl ⟨y, hy, rfl, fun h => h⟩,
    fun y hy => Or.inl ⟨y, hy, rfl, fun h => h⟩⟩
  intro y hy
  simp only [updPhys, List.mem_map] at hy
  obtain ⟨p, hp, hmap⟩ := hy
  by_cases hc : p.pid = j
  · rw [if_pos hc] at hmap
    exact Or.inl ⟨p, hp, by rw [← hmap, hf], fun h => by rw [← hmap]; exact hdel p hp hc h⟩
  · rw [if_neg hc] at hmap
    exact Or.inl ⟨p, hp, by rw [hmap], fun h => by rw [← hmap]; exact h⟩

theorem sources_updNet {c : Ctx} {j : Id} {f : Net → Net}
    (hf : ∀ n, (f n).nid = n.nid)
    (hdel : ∀ n ∈ c.netsL, n.nid = j → n.state = .delete → (f n).state = .delete) :
    Sources c (updNet c j f) := by
  refine ⟨Nat.le_refl _, fun y hy => Or.inl ⟨y, hy, rfl, fun h => h⟩, ?_,
    fun y hy => Or.inl ⟨y, hy, rfl, fun h => h⟩,
    fun y hy => Or.inl ⟨y, hy, rfl, fun h => h⟩,
    fun y hy => Or.inl ⟨y, hy, rfl, fun h => h⟩⟩
  intro y hy
  simp only [updNet, List.mem_map] at hy
  obtain ⟨n, hn, hmap⟩ := hy
  by_cases hc : n.nid = j
  · rw [if_pos hc] at hmap
    exact Or.inl ⟨n, hn, by rw [← hmap, hf], fun h => by rw [← hmap]; exact hdel n hn hc h⟩
  · rw [if_neg hc] at hmap
    exact Or.inl ⟨n, hn, by rw [hmap], fun h => by rw [← hmap]; exact h⟩

theorem sources_updSettings {c : Ctx} {j : Id} {f : Settings → Settings}
    (hf : ∀ s, (f s).sid = s.sid)
    (hdel : ∀ s ∈ c.settingsL, s.sid = j → s.state = .delete → (f s).state = .delete) :
    Sources c (updSettings c j f) := by
  refine ⟨Nat.le_refl _, ?_, fun y hy => Or.inl ⟨y, hy, rfl, fun h => h⟩,
    fun y hy => Or.inl ⟨y, hy, rfl, fun h => h⟩,
    fun y hy => Or.inl ⟨y, hy, rfl, fun h => h⟩,
    fun y hy => Or.inl ⟨y, hy, rfl, fun h => h⟩⟩
  intro y hy
  simp only [updSettings, List.mem_map] at hy
  obtain ⟨t, ht, hmap⟩ := hy
  by_cases hc : t.sid = j
  · rw [if_pos hc] at hmap
    exact Or.inl ⟨t, ht, by rw [← hmap, hf], fun h => by rw [← hmap]; exact hdel t ht hc h⟩
  · rw [if_neg hc] at hmap
    exact Or.inl ⟨t, ht, by rw [hmap], fun h => by rw [← hmap]; exact h⟩

theorem sources_removeVirt {c : Ctx} {j : Id} : Sources c (removeVirt c j) :=
  ⟨Nat.le_refl _, fun y hy => Or.inl ⟨y, hy, rfl, fun h => h⟩,
   fun y hy => Or.inl ⟨y, hy, rfl, fun h => h⟩,
   fun y hy => Or.inl ⟨y, hy, rfl, fun h => h⟩,
   fun y hy => Or.inl ⟨y, hy, rfl, fun h => h⟩,
   fun y hy => Or.inl ⟨y, removeVirt_subset hy, rfl, fun h => h⟩⟩

theorem sources_removePA {c : Ctx} {j : Id} : Sources c (removePA c j) :=
  ⟨Nat.le_refl _, fun y hy => Or.inl ⟨y, hy, rfl, fun h => h⟩,
   fun y hy => Or.inl ⟨y, hy, rfl, fun h => h⟩,
   fun y hy => Or.inl ⟨y, hy, rfl, fun h => h⟩,
   fun y hy => Or.inl ⟨y, removePA_subset hy, rfl, fun h => h⟩,
   fun y hy => Or.inl ⟨y, hy, rfl, fun h => h⟩⟩

theorem sources_removePhys {c : Ctx} {j : Id} : Sources c (removePhys c j) := by
  refine ⟨Nat.le_refl _, fun y hy => Or.inl ⟨y, hy, rfl, fun h => h⟩,
    fun y hy => Or.inl ⟨y, hy, rfl, fun h => h⟩, ?_,
    fun y hy => Or.inl ⟨y, hy, rfl, fun h => h⟩,
    fun y hy => Or.inl ⟨y, hy, rfl, fun h => h⟩⟩
  intro y hy
  simp only [removePhys, List.mem_filter] at hy
  exact Or.inl ⟨y, hy.1, rfl, fun h => h⟩

theorem sources_removeNet {c : Ctx} {j : Id} : Sources c (removeNet c j) :=
  ⟨Nat.le_refl _, fun y hy => Or.inl ⟨y, hy, rfl, fun h => h⟩,
   fun y hy => Or.inl ⟨y, removeNet_subset hy, rfl, fun h => h⟩,
   fun y hy => Or.inl ⟨y, hy, rfl, fun h => h⟩,
   fun y hy => Or.inl ⟨y, hy, rfl, fun h => h⟩,
   fun y hy => Or.inl ⟨y, hy, rfl, fun h => h⟩⟩

theorem sources_removeSettings {c : Ctx} {j : Id} : Sources c (removeSettings c j) := by
  refine ⟨Nat.le_refl _, ?_, fun y hy => Or.inl ⟨y, hy, rfl, fun h => h⟩,
    fun y hy => Or.inl ⟨y, hy, rfl, fun h => h⟩,
    fun y hy => Or.inl ⟨y, hy, rfl, fun h => h⟩,
    fun y hy => Or.inl ⟨y, hy, rfl, fun h => h⟩⟩
  intro y hy
  simp only [removeSettings, List.mem_filter] at hy
  exact Or.inl ⟨y, hy.1, rfl, fun h => h⟩

theorem sources_append_settings {c : Ctx} {s : Settings} (hs : s.sid = c.next_id) :
    Sources c { c with settingsL := c.settingsL ++ [s], next_id := c.next_id + 1 } := by
  refine ⟨Nat.le_succ _, ?_, fun y hy => Or.inl ⟨y, hy, rfl, fun h => h⟩,
    fun y hy => Or.inl ⟨y, hy, rfl, fun h => h⟩,
    fun y hy => Or.inl ⟨y, hy, rfl, fun h => h⟩,
    fun y hy => Or.inl ⟨y, hy, rfl, fun h => h⟩⟩
  intro y hy
  rcases List.mem_append.1 hy with hmm | hend
  · exact Or.inl ⟨y, hmm, rfl, fun h => h⟩
  · simp only [List.mem_singleton] at hend
    exact Or.inr (by rw [hend, hs])

theorem sources_append_net {c : Ctx} {n : Net} (hn : n.nid = c.next_id) :
    Sources c { c with netsL := c.netsL ++ [n], next_id := c.next_id + 1 } := by
  refine ⟨Nat.le_succ _, fun y hy => Or.inl ⟨y, hy, rfl, fun h => h⟩, ?_,
    fun y hy => Or.inl ⟨y, hy, rfl, fun h => h⟩,
    fun y hy => Or.inl ⟨y, hy, rfl, fun h => h⟩,
    fun y hy => Or.inl ⟨y, hy, rfl, fun h => h⟩⟩
  intro y hy
  rcases List.mem_append.1 hy with hmm | hend
  · exact Or.inl ⟨y, hmm, rfl, fun h => h⟩
  · simp only [List.mem_singleton] at hend
    exact Or.inr (by rw [hend, hn])

theorem sources_append_phys {c : Ctx} {p : Phys} (hp : p.pid = c.next_id) :
    Sources c { c with physL := c.physL ++ [p], next_id := c.next_id + 1 } := by
  refine ⟨Nat.le_succ _, fun y hy => Or.inl ⟨y, hy, rfl, fun h => h⟩,
    fun y hy => Or.inl ⟨y, hy, rfl, fun h => h⟩, ?_,
    fun y hy => Or.inl ⟨y, hy, rfl, fun h => h⟩,
    fun y hy => Or.inl ⟨y, hy, rfl, fun h => h⟩⟩
  intro y hy
  rcases List.mem_append.1 hy with hmm | hend
  · exact Or.inl ⟨y, hmm, rfl, fun h => h⟩
  · simp only [List.mem_singleton] at hend
    exact Or.inr (by rw [hend, hp])

theorem sources_append_virt {c : Ctx} {v : Virt} (hv : v.vid = c.next_id) :
    Sources c { c with virtsL := c.virtsL ++ [v], next_id := c.next_id + 1 } := by
  refine ⟨Nat.le_succ _, fun y hy => Or.inl ⟨y, hy, rfl, fun h => h⟩,
    fun y hy => Or.inl ⟨y, hy, rfl, fun h => h⟩,
    fun y hy => Or.inl ⟨y, hy, rfl, fun h => h⟩,
    fun y hy => Or.inl ⟨y, hy, rfl, fun h => h⟩, ?_⟩
  intro y hy
  rcases List.mem_append.1 hy with hmm | hend
  · exact Or.inl ⟨y, hmm, rfl, fun h => h⟩
  · simp only [List.mem_singleton] at hend
    exact Or.inr (by rw [hend, hv])

theorem sources_append_pa {c : Ctx} {a : PA} (ha : a.aid = c.next_id) :
    Sources c { c with pasL := c.pasL ++ [a], next_id := c.next_id + 1 } := by
  refine ⟨Nat.le_succ _, fun y hy => Or.inl ⟨y, hy, rfl, fun h => h⟩,
    fun y hy => Or.inl ⟨y, hy, rfl, fun h => h⟩,
    fun y hy => Or.inl ⟨y, hy, rfl, fun h => h⟩, ?_,
    fun y hy => Or.inl ⟨y, hy, rfl, fun h => h⟩⟩
  intro y hy
  rcases List.mem_append.1 hy with hmm | hend
  · exact Or.inl ⟨y, hmm, rfl, fun h => h⟩
  · simp only [List.mem_singleton] at hend
    exact Or.inr (by rw [hend, ha])

theorem sources_foldlM {α : Type} {g : Ctx → α → Option Ctx}
    (hg : ∀ c x c', g c x = some c' → Sources c c') :
    ∀ (l : List α) (c c' : Ctx), l.foldlM g c = some c' → Sources c c' := by
  intro l
  induction l with
  | nil =>
    intro c c' hf
    simp only [List.foldlM] at hf
    cases hf
    exact sources_refl c
  | cons x rest ih =>
    intro c c' hf
    rw [List.foldlM_cons] at hf
    cases hgx : g c x with
    | none => rw [hgx] at hf; cases hf
    | some c1 =>
      rw [hgx] at hf
      exact sources_trans (hg c x c1 hgx) (ih c1 c' hf)

theorem sources_foldl {α : Type} {g : Ctx → α → Ctx}
    (hg : ∀ c x, Sources c (g c x)) :
    ∀ (l : List α) (c : Ctx), Sources c (l.foldl g c) := by
  intro l
  induction l with
  | nil => intro c; exact sources_refl c
  | cons x rest ih =>
    intro c
    exact sources_trans (hg c x) (ih (g c x))

theorem sources_settings_new {c : Ctx} {nt : NetType} {sw : SwitchType}
    {port : Nat} {hooks al : Bool} {i : Id} {c' : Ctx}
    (h : lsdn_settings_new c nt sw port hooks al = some (i, c')) : Sources c c' := by
  unfold lsdn_settings_new at h
  by_cases hal : al = true
  · rw [if_pos hal] at h
    cases h
    exact sources_append_settings rfl
  · rw [if_neg hal] at h
    cases h

theorem sources_net_new {c : Ctx} {s : Id} {vnet : Nat} {al : Bool} {i : Id} {c' : Ctx}
    (h : lsdn_net_new c s vnet al = some (i, c')) : Sources c c' := by
  unfold lsdn_net_new at h
  by_cases hal : al = true
  · rw [if_pos hal] at h
    cases h
    exact sources_append_net rfl
  · rw [if_neg hal] at h
    cases h

theorem sources_phys_new {c : Ctx} {al : Bool} {i : Id} {c' : Ctx}
    (h : lsdn_phys_new c al = some (i, c')) : Sources c c' := by
  unfold lsdn_phys_new at h
  by_cases hal : al = true
  · rw [if_pos hal] at h
    cases h
    exact sources_append_phys rfl
  · rw [if_neg hal] at h
    cases h

theorem sources_virt_new {c : Ctx} {n : Id} {al : Bool} {i : Id} {c' : Ctx}
    (h : lsdn_virt_new c n al = some (i, c')) : Sources c c' := by
  unfold lsdn_virt_new at h
  by_cases hal : al = true
  · rw [if_pos hal] at h
    cases h
    exact sources_append_virt rfl
  · rw [if_neg hal] at h
    cases h

theorem sources_find_or_create {c : Ctx} {p n : Id} {al : Bool} {a : Id} {c1 : Ctx}
    (h : find_or_create_attachement c p n al = some (a, c1)) : Sources c c1 := by
  unfold find_or_create_attachement at h
  cases hfind : (pasOfPhys c p).find? (fun a => a.net = n) with
  | some a0 =>
    rw [hfind] at h
    cases h
    exact sources_refl c
  | none =>
    rw [hfind] at h
    by_cases hal : al = true
    · rw [if_pos hal] at h
      cases h
      exact sources_append_pa rfl
    · rw [if_neg hal] at h
      cases h

theorem sources_free_pa_if_possible {c : Ctx} {i : Id} :
    Sources c (free_pa_if_possible c i) := by
  unfold free_pa_if_possible
  cases hfind : findPA c i with
  | none => exact sources_refl c
  | some a =>
    dsimp only
    by_cases hg : connectedVirts c a.aid = [] ∧ ¬ a.explicitely_attached = true
    · rw [if_pos hg]
      by_cases hnew : a.state = St.new
      · rw [if_pos hnew]
        unfold pa_do_free
        rw [if_neg (by simpa using hg.1), if_neg (by simpa using hg.2)]
        simp only [Option.getD_some]
        exact sources_removePA
      · rw [if_neg hnew]
        exact sources_updPA (fun x => rfl) (fun x hx hid hd => rfl)
    · rw [if_neg hg]
      exact sources_refl c

theorem sources_phys_detach_by_pa {c : Ctx} {i : Id} :
    Sources c (phys_detach_by_pa c i) := by
  unfold phys_detach_by_pa
  refine sources_trans ?_ sources_free_pa_if_possible
  exact sources_updPA (fun x => rfl) (fun x hx hid hd => hd)

theorem sources_phys_attach {c : Ctx} {p n : Id} {al : Bool} {e : Err} {c' : Ctx}
    (h : lsdn_phys_attach c p n al = (e, c')) : Sources c c' := by
  unfold lsdn_phys_attach at h
  cases hfoc : find_or_create_attachement c p n al with
  | none =>
    rw [hfoc] at h
    cases h
    exact sources_refl c
  | some r =>
    rw [hfoc] at h
    obtain ⟨a, c1⟩ := r
    dsimp only at h
    cases h
    exact sources_trans (sources_find_or_create hfoc)
      (sources_updPA (fun x => rfl) (fun x hx hid hd => hd))

theorem sources_phys_detach {c : Ctx} {p n : Id} :
    Sources c (lsdn_phys_detach c p n) := by
  unfold lsdn_phys_detach
  cases (pasOfPhys c p).find? (fun a => a.net = n) with
  | some a => exact sources_phys_detach_by_pa
  | none => exact sources_refl c

theorem sources_phys_set_iface {c : Ctx} {p : Id} {iface : String} {al : Bool}
    {e : Err} {c' : Ctx} (h : lsdn_phys_set_iface c p iface al = some (e, c')) :
    Sources c c' := by
  unfold lsdn_phys_set_iface at h
  cases hfind : findPhys c p with
  | none => rw [hfind] at h; cases h
  | some ph =>
    rw [hfind] at h
    dsimp only at h
    by_cases hal : al = true
    · rw [if_pos hal] at h
      cases h
      exact sources_updPhys (fun x => rfl) (fun x hx hid hd => hd)
    · rw [if_neg hal] at h
      cases h
      exact sources_refl c

theorem sources_phys_clear_iface {c : Ctx} {p : Id} {e : Err} {c' : Ctx}
    (h : lsdn_phys_clear_iface c p = some (e, c')) : Sources c c' := by
  unfold lsdn_phys_clear_iface at h
  cases hfind : findPhys c p with
  | none => rw [hfind] at h; cases h
  | some ph =>
    rw [hfind] at h
    cases h
    exact sources_updPhys (fun x => rfl) (fun x hx hid hd => hd)

theorem sources_phys_set_ip {c : Ctx} {p : Id} {ip : Ip} {al : Bool}
    {e : Err} {c' : Ctx} (h : lsdn_phys_set_ip c p ip al = some (e, c')) :
    Sources c c' := by
  unfold lsdn_phys_set_ip at h
  cases hfind : findPhys c p with
  | none => rw [hfind] at h; cases h
  | some ph =>
    rw [hfind] at h
    dsimp only at h
    by_cases hal : al = true
    · rw [if_pos hal] at h
      cases h
      exact sources_updPhys (fun x => rfl) (fun x hx hid hd => hd)
    · rw [if_neg hal] at h
      cases h
      exact sources_refl c

theorem sources_virt_set_mac {c : Ctx} {vi : Id} {mac : Mac} {al : Bool}
    {e : Err} {c' : Ctx} (h : lsdn_virt_set_mac c vi mac al = some (e, c')) :
    Sources c c' := by
  unfold lsdn_virt_set_mac at h
  cases hfind : findVirt c vi with
  | none => rw [hfind] at h; cases h
  | some v =>
    rw [hfind] at h
    dsimp only at h
    by_cases hal : al = true
    · rw [if_pos hal] at h
      cases h
      exact sources_updVirt (fun x => rfl) (fun x hx hid hd => hd)
    · rw [if_neg hal] at h
      cases h
      exact sources_refl c

theorem sources_phys_claim_local {c : Ctx} {p : Id} {e : Err} {c' : Ctx}
    (hN : (c.physL.map (fun p => p.pid)).Nodup)
    (h : lsdn_phys_claim_local c p = some (e, c')) : Sources c c' := by
  unfold lsdn_phys_claim_local at h
  cases hfind : findPhys c p with
  | none => rw [hfind] at h; cases h
  | some ph =>
    rw [hfind] at h
    dsimp only at h
    by_cases hloc : ph.is_local = true
    · rw [if_neg (by simp [hloc])] at h
      cases h
      exact sources_refl c
    · rw [if_pos (by simp [hloc])] at h
      cases hrn : renew ph.state with
      | none => rw [hrn] at h; cases h
      | some s' =>
        rw [hrn] at h
        cases h
        refine sources_updPhys (fun x => rfl) ?_
        intro x hx hid hd
        have hmem : ph ∈ c.physL := List.mem_of_find?_eq_some hfind
        have hpid : ph.pid = p := by simpa using List.find?_some hfind
        have hxe : x = ph := List.inj_on_of_nodup_map hN hx hmem (by rw [hid, hpid])
        rw [hxe] at hd
        rw [hd] at hrn
        simp [renew] at hrn

theorem sources_phys_unclaim_local {c : Ctx} {p : Id} {e : Err} {c' : Ctx}
    (hN : (c.physL.map (fun p => p.pid)).Nodup)
    (h : lsdn_phys_unclaim_local c p = some (e, c')) : Sources c c' := by
  unfold lsdn_phys_unclaim_local at h
  cases hfind : findPhys c p with
  | none => rw [hfind] at h; cases h
  | some ph =>
    rw [hfind] at h
    dsimp only at h
    by_cases hloc : ph.is_local = true
    · rw [if_pos hloc] at h
      cases hrn : renew ph.state with
      | none => rw [hrn] at h; cases h
      | some s' =>
        rw [hrn] at h
        cases h
        refine sources_updPhys (fun x => rfl) ?_
        intro x hx hid hd
        have hmem : ph ∈ c.physL := List.mem_of_find?_eq_some hfind
        have hpid : ph.pid = p := by simpa using List.find?_some hfind
        have hxe : x = ph := List.inj_on_of_nodup_map hN hx hmem (by rw [hid, hpid])
        rw [hxe] at hd
        rw [hd] at hrn
        simp [renew] at hrn
    · rw [if_neg hloc] at h
      cases h
      exact sources_refl c

theorem sources_virt_disconnect {c c' : Ctx} {vi : Id}
    (hN : (c.virtsL.map (fun v => v.vid)).Nodup)
    (h : lsdn_virt_disconnect c vi = some c') : Sources c c' := by
  unfold lsdn_virt_disconnect at h
  cases hfind : findVirt c vi with
  | none => rw [hfind] at h; cases h
  | some v =>
    rw [hfind] at h
    dsimp only at h
    cases hct : v.connected_through with
    | none =>
      rw [hct] at h
      cases h
      exact sources_refl c
    | some a =>
      rw [hct] at h
      dsimp only at h
      cases hrn : renew v.state with
      | none => rw [hrn] at h; cases h
      | some s' =>
        rw [hrn] at h
        cases h
        refine sources_updVirt (fun x => rfl) ?_
        intro x hx hid hd
        have hmem : v ∈ c.virtsL := List.mem_of_find?_eq_some hfind
        have hvid : v.vid = vi := by simpa using List.find?_some hfind
        have hxe : x = v := List.inj_on_of_nodup_map hN hx hmem (by rw [hid, hvid])
        rw [hxe] at hd
        rw [hd] at hrn
        simp [renew] at hrn

theorem sources_virt_do_free {c : Ctx} {v : Virt} : Sources c (virt_do_free c v) := by
  unfold virt_do_free
  cases v.connected_through with
  | some a =>
    refine sources_trans ?_ sources_free_pa_if_possible
    exact sources_removeVirt
  | none => exact sources_removeVirt

theorem sources_virt_free {c c' : Ctx} {vi : Id}
    (h : lsdn_virt_free c vi = some c') : Sources c c' := by
  unfold lsdn_virt_free at h
  cases hfind : findVirt c vi with
  | none => rw [hfind] at h; cases h
  | some v =>
    rw [hfind] at h
    dsimp only at h
    by_cases hnew : v.state = St.new
    · rw [if_pos hnew] at h
      cases h
      exact sources_virt_do_free
    · rw [if_neg hnew] at h
      cases h
      exact sources_updVirt (fun x => rfl) (fun x hx hid hd => rfl)

theorem sources_virt_connect {c c' : Ctx} {vi p : Id} {iface : String}
    {aA aN : Bool} {e : Err}
    (h : lsdn_virt_connect c vi p iface aA aN = some (e, c')) (hW : WF c) :
    Sources c c' := by
  unfold lsdn_virt_connect at h
  cases hfind : findVirt c vi with
  | none => rw [hfind] at h; cases h
  | some v =>
    rw [hfind] at h
    dsimp only at h
    have hvmem : v ∈ c.virtsL := List.mem_of_find?_eq_some hfind
    have hvnet : ∃ m ∈ c.netsL, m.nid = v.network := hW.2.2.1.1 v hvmem
    cases hfoc : find_or_create_attachement c p v.network aA with
    | none =>
      rw [hfoc] at h
      cases h
      exact sources_refl c
    | some r1 =>
      rw [hfoc] at h
      obtain ⟨a, ctx1⟩ := r1
      dsimp only at h
      have hS1 : Sources c ctx1 := sources_find_or_create hfoc
      obtain ⟨hW1, hpa1, hv1, hn1⟩ := find_or_create_post hfoc hvnet hW
      by_cases hname : aN = true
      · rw [if_neg (by simp [hname])] at h
        have hW2 : WF (updVirt ctx1 vi (fun x => { x with connected_if := some iface })) :=
          wf_updVirt_conn (fun x => ⟨rfl, rfl⟩)
            (fun w hw hwvid a' hfa' => Or.inl hfa') hW1
        have hS2 : Sources ctx1
            (updVirt ctx1 vi (fun x => { x with connected_if := some iface })) :=
          sources_updVirt (fun x => rfl) (fun x hx hid hd => hd)
        cases hdis : lsdn_virt_disconnect
            (updVirt ctx1 vi (fun x => { x with connected_if := some iface })) vi with
        | none => rw [hdis] at h; cases h
        | some ctx3 =>
          rw [hdis] at h
          dsimp only at h
          have hS3 : Sources
              (updVirt ctx1 vi (fun x => { x with connected_if := some iface })) ctx3 :=
            sources_virt_disconnect hW2.1.2.2.2.2.1 hdis
          obtain ⟨hW3, hpas3, hnets3, hvirts3⟩ := wf_virt_disconnect hdis hW2
          cases hfind3 : findVirt ctx3 vi with
          | none => rw [hfind3] at h; cases h
          | some v3 =>
            rw [hfind3] at h
            dsimp only at h
            cases hrn : renew v3.state with
            | none => rw [hrn] at h; cases h
            | some s2 =>
              rw [hrn] at h
              cases h
              refine sources_trans hS1 (sources_trans hS2 (sources_trans hS3 ?_))
              refine sources_updVirt (fun x => rfl) ?_
              intro x hx hid hd
              have hmem3 : v3 ∈ ctx3.virtsL := List.mem_of_find?_eq_some hfind3
              have hvid3 : v3.vid = vi := by simpa using List.find?_some hfind3
              have hxe : x = v3 :=
                List.inj_on_of_nodup_map hW3.1.2.2.2.2.1 hx hmem3 (by rw [hid, hvid3])
              rw [hxe] at hd
              rw [hd] at hrn
              simp [renew] at hrn
      · rw [if_pos (by simp [hname])] at h
        cases h
        exact hS1

theorem sources_wf_foldlM {α : Type} {g : Ctx → α → Option Ctx}
    (hg : ∀ c x c', WF c → g c x = some c' → WF c' ∧ Sources c c') :
    ∀ (l : List α) (c c' : Ctx), WF c → l.foldlM g c = some c' →
      WF c' ∧ Sources c c' := by
  intro l
  induction l with
  | nil =>
    intro c c' h hf
    simp only [List.foldlM] at hf
    cases hf
    exact ⟨h, sources_refl c⟩
  | cons x rest ih =>
    intro c c' h hf
    rw [List.foldlM_cons] at hf
    cases hgx : g c x with
    | none => rw [hgx] at hf; cases hf
    | some c1 =>
      rw [hgx] at hf
      obtain ⟨hW1, hS1⟩ := hg c x c1 h hgx
      obtain ⟨hW2, hS2⟩ := ih c1 c' hW1 hf
      exact ⟨hW2, sources_trans hS1 hS2⟩

theorem sources_phys_free {c c' : Ctx} {p : Id}
    (h : lsdn_phys_free c p = some c') (hW : WF c) : Sources c c' := by
  unfold lsdn_phys_free at h
  cases hfind : findPhys c p with
  | none => rw [hfind] at h; cases h
  | some ph =>
    rw [hfind] at h
    dsimp only at h
    cases hfold : ((pasOfPhys c p).map (fun a => a.aid)).foldlM (fun c2 ai =>
        match ((connectedVirts c2 ai).map (fun v => v.vid)).foldlM
            (fun c3 vi => lsdn_virt_disconnect c3 vi) c2 with
        | none => none
        | some c2' => some (phys_detach_by_pa c2' ai)) c with
    | none => rw [hfold] at h; cases h
    | some ctx1 =>
      rw [hfold] at h
      dsimp only at h
      have hWS1 : WF ctx1 ∧ Sources c ctx1 := by
        refine sources_wf_foldlM ?_ _ c ctx1 hW hfold
        intro c2 ai c2'' hW2 hstep
        cases hinner : ((connectedVirts c2 ai).map (fun v => v.vid)).foldlM
            (fun c3 vi => lsdn_virt_disconnect c3 vi) c2 with
        | none => rw [hinner] at hstep; cases hstep
        | some c2' =>
          rw [hinner] at hstep
          cases hstep
          have hWS2' : WF c2' ∧ Sources c2 c2' := by
            refine sources_wf_foldlM ?_ _ c2 c2' hW2 hinner
            intro c3 vi c3' hW3 hdis
            exact ⟨(wf_virt_disconnect hdis hW3).1,
              sources_virt_disconnect hW3.1.2.2.2.2.1 hdis⟩
          exact ⟨wf_phys_detach_by_pa hWS2'.1,
            sources_trans hWS2'.2 sources_phys_detach_by_pa⟩
      cases hfind1 : findPhys ctx1 p with
      | none => rw [hfind1] at h; cases h
      | some ph1 =>
        rw [hfind1] at h
        dsimp only at h
        by_cases hnew : ph1.state = St.new
        · rw [if_pos hnew] at h
          cases h
          exact sources_trans hWS1.2 sources_removePhys
        · rw [if_neg hnew] at h
          cases h
          exact sources_trans hWS1.2
            (sources_updPhys (fun x => rfl) (fun x hx hid hd => rfl))

theorem sources_net_free {c c' : Ctx} {n : Id}
    (h : lsdn_net_free c n = some c') : Sources c c' := by
  unfold lsdn_net_free at h
  cases hfind : findNet c n with
  | none => rw [hfind] at h; cases h
  | some net0 =>
    rw [hfind] at h
    dsimp only at h
    cases hfold : ((virtsOfNet c n).map (fun v => v.vid)).foldlM
        (fun c2 vi => lsdn_virt_free c2 vi) c with
    | none => rw [hfold] at h; cases h
    | some ctx1 =>
      rw [hfold] at h
      dsimp only at h
      have hS1 : Sources c ctx1 :=
        sources_foldlM (fun c2 vi c2' hstep => sources_virt_free hstep) _ c ctx1 hfold
      have hS2 : Sources ctx1 (((pasOfNet ctx1 n).map (fun a => a.aid)).foldl
          (fun c2 ai => phys_detach_by_pa c2 ai) ctx1) :=
        sources_foldl (fun c2 ai => sources_phys_detach_by_pa) _ ctx1
      cases hfind2 : findNet (((pasOfNet ctx1 n).map (fun a => a.aid)).foldl
          (fun c2 ai => phys_detach_by_pa c2 ai) ctx1) n with
      | none => rw [hfind2] at h; cases h
      | some net2 =>
        rw [hfind2] at h
        dsimp only at h
        by_cases hnew : net2.state = St.new
        · rw [if_pos hnew] at h
          obtain ⟨hc', hpa0, hv0⟩ := net_do_free_some h
          rw [hc']
          exact sources_trans hS1 (sources_trans hS2 sources_removeNet)
        · rw [if_neg hnew] at h
          cases h
          exact sources_trans hS1 (sources_trans hS2
            (sources_updNet (fun x => rfl) (fun x hx hid hd => rfl)))

theorem sources_settings_free {c c' : Ctx} {s : Id}
    (h : lsdn_settings_free c s = some c') : Sources c c' := by
  unfold lsdn_settings_free at h
  cases hfind : findSettings c s with
  | none => rw [hfind] at h; cases h
  | some st0 =>
    rw [hfind] at h
    dsimp only at h
    cases hfold : ((netsOfSettings c s).map (fun n => n.nid)).foldlM
        (fun c2 ni => lsdn_net_free c2 ni) c with
    | none => rw [hfold] at h; cases h
    | some ctx1 =>
      rw [hfold] at h
      dsimp only at h
      have hS1 : Sources c ctx1 :=
        sources_foldlM (fun c2 ni c2' hstep => sources_net_free hstep) _ c ctx1 hfold
      cases hfind1 : findSettings ctx1 s with
      | none => rw [hfind1] at h; cases h
      | some st1 =>
        rw [hfind1] at h
        dsimp only at h
        by_cases hnew : st1.state = St.new
        · rw [if_pos hnew] at h
          unfold settings_do_free at h
          by_cases hns : netsOfSettings ctx1 s ≠ []
          · rw [if_pos (by simpa using hns)] at h
            cases h
          · rw [if_neg (by simpa using hns)] at h
            cases h
            exact sources_trans hS1 sources_removeSettings
        · rw [if_neg hnew] at h
          cases h
          exact sources_trans hS1
            (sources_updSettings (fun x => rfl) (fun x hx hid hd => rfl))

theorem sources_propagatePhase (c : Ctx) : Sources c (propagatePhase c) := by
  refine ⟨Nat.le_of_eq ((propagatePhase_frames c).2.2.2.2.2).symm, ?_, ?_, ?_, ?_, ?_⟩
  · intro y hy
    rw [(propagatePhase_frames c).1] at hy
    exact Or.inl ⟨y, hy, rfl, fun h => h⟩
  · intro y hy
    rw [(propagatePhase_frames c).2.1] at hy
    exact Or.inl ⟨y, hy, rfl, fun h => h⟩
  · intro y hy
    rw [(propagatePhase_frames c).2.2.1] at hy
    exact Or.inl ⟨y, hy, rfl, fun h => h⟩
  · intro y hy
    obtain ⟨a, ha, haid, _, _, _, hiff⟩ := propagatePhase_pas_mem y hy
    exact Or.inl ⟨a, ha, haid, fun h => hiff.mpr h⟩
  · intro y hy
    obtain ⟨v, hv, hvid, _, _, _, _, hiff⟩ := propagatePhase_virts_mem y hy
    exact Or.inl ⟨v, hv, hvid, fun h => hiff.mpr h⟩

theorem sources_dpost {c c' : Ctx} (h : DPost c c') : Sources c c' := by
  refine ⟨Nat.le_of_eq h.next_eq.symm, ?_, ?_, ?_, ?_, ?_⟩
  · intro y hy
    obtain ⟨s, hs, hsid, _, _, _, _, hne⟩ := h.sub_settings y hy
    exact Or.inl ⟨s, hs, hsid, fun hd => absurd hd hne⟩
  · intro y hy
    obtain ⟨n, hn, hnid, _, _, hne⟩ := h.sub_nets y hy
    exact Or.inl ⟨n, hn, hnid, fun hd => absurd hd hne⟩
  · intro y hy
    obtain ⟨p, hp, hpid, _, _, _, hne⟩ := h.sub_phys y hy
    exact Or.inl ⟨p, hp, hpid, fun hd => absurd hd hne⟩
  · intro y hy
    obtain ⟨a, ha, haid, _, _, _, hne⟩ := h.sub_pas y hy
    exact Or.inl ⟨a, ha, haid, fun hd => absurd hd hne⟩
  · intro y hy
    obtain ⟨v, hv, hvid, _, hne⟩ := h.virt_src y hy
    exact Or.inl ⟨v, hv, hvid, fun hd => absurd hd hne⟩

theorem sources_rstep {c c' : Ctx} (h : RStep c c') : Sources c c' := by
  refine ⟨h.next_mono, ?_, ?_, ?_, ?_, ?_⟩
  · intro y hy
    rw [h.settings_eq] at hy
    exact Or.inl ⟨y, hy, rfl, fun hd => hd⟩
  · intro y hy
    rw [h.nets_eq] at hy
    exact Or.inl ⟨y, hy, rfl, fun hd => hd⟩
  · intro y hy
    obtain ⟨p, hp, hpid, hst, _⟩ := rstep_phys_mem h y hy
    exact Or.inl ⟨p, hp, hpid, fun hd => by rw [← hst]; exact hd⟩
  · intro y hy
    rw [h.pas_eq] at hy
    exact Or.inl ⟨y, hy, rfl, fun hd => hd⟩
  · intro y hy
    obtain ⟨v, hv, hvid, hst, _⟩ := rstep_virt_mem h y hy
    exact Or.inl ⟨v, hv, hvid, fun hd => by rw [← hst]; exact hd⟩

theorem ack_state_delete : ack_state .delete = .delete := by decide

theorem sources_ackPhase (c : Ctx) : Sources c (ackPhase c) := by
  refine ⟨Nat.le_refl _, ?_, ?_, ?_, ?_, ?_⟩
  · intro y hy
    obtain ⟨s, hs, hsid, _, _, _, _, hst⟩ := ackPhase_settings_mem y hy
    refine Or.inl ⟨s, hs, hsid, fun hd => ?_⟩
    rw [hst, hd]
    exact ack_state_delete
  · intro y hy
    obtain ⟨n, hn, hnid, _, _, hst⟩ := ackPhase_nets_mem y hy
    refine Or.inl ⟨n, hn, hnid, fun hd => ?_⟩
    rw [hst, hd]
    exact ack_state_delete
  · intro y hy
    obtain ⟨p, hp, hpid, _, _, _, hst⟩ := ackPhase_phys_mem y hy
    refine Or.inl ⟨p, hp, hpid, fun hd => ?_⟩
    rw [hst, hd]
    exact ack_state_delete
  · intro y hy
    obtain ⟨a, ha, haid, _, _, _, hst⟩ := ackPhase_pas_mem y hy
    refine Or.inl ⟨a, ha, haid, fun hd => ?_⟩
    rcases hst with hst | hst
    · rw [hst, hd]
      exact ack_state_delete
    · rw [hst, hd]
  · intro y hy
    obtain ⟨v, hv, hvid, _, _, _, _, hst⟩ := ackPhase_virts_mem y hy
    refine Or.inl ⟨v, hv, hvid, fun hd => ?_⟩
    rcases hst with hst | hst
    · rw [hst, hd]
      exact ack_state_delete
    · rw [hst, hd]

theorem sources_commit {env : Env} {c : Ctx} {ret : CommitRet} {c' : Ctx}
    {evs : List Ev} (hU : UniqueIds c) (hF : FreshIds c) (hC : ConnInv c)
    (hN : NetRefs c) (h : lsdn_commit env c = some (ret, c', evs)) :
    Sources c c' := by
  unfold lsdn_commit at h
  dsimp only [lsdn_validate] at h
  by_cases hval : (validateProblems env (propagatePhase c)).length ≠ 0
  · rw [if_pos hval] at h
    simp only [Option.some.injEq, Prod.mk.injEq] at h
    rw [← h.2.1]
    exact sources_propagatePhase c
  · rw [if_neg hval] at h
    cases hdec : decommitPhase (propagatePhase c) with
    | none => rw [hdec] at h; cases h
    | some rD =>
      rw [hdec] at h
      obtain ⟨cD, evD⟩ := rD
      dsimp only at h
      simp only [Option.some.injEq, Prod.mk.injEq] at h
      obtain ⟨hret, hc', hevs⟩ := h
      obtain ⟨hUP, hFP, hCP, hNP⟩ := propagatePhase_wf hU hF hC hN
      have hdp : DPost (propagatePhase c) cD := decommitPhase_post hUP hCP hNP hdec
      have hFD : FreshIds cD := dpost_fresh hdp hFP
      have hrs : RStep cD (recommitPhase cD).1 :=
        recommitPhase_rstep cD hdp.uq hFD hdp.cn hdp.nr
      rw [← hc']
      exact sources_trans (sources_propagatePhase c)
        (sources_trans (sources_dpost hdp)
          (sources_trans (sources_rstep hrs) (sources_ackPhase _)))

/-- Every public entry point relates its output graph to its input graph by
`Sources`: each surviving object descends from a same-identity object whose
DELETE mark it inherits, or is freshly allocated. -/
theorem sources_applyAct {env : Env} {a : Act} {c c' : Ctx}
    (hW : WF c) (h : applyAct env a c = some c') : Sources c c' := by
  cases a with
  | settingsNew nt sw port hooks alloc =>
    dsimp only [applyAct] at h
    cases hop : lsdn_settings_new c nt sw port hooks alloc with
    | none => rw [hop] at h; cases h; exact sources_refl c
    | some r =>
      rw [hop] at h
      obtain ⟨i0, c0⟩ := r
      dsimp only at h
      cases h
      exact sources_settings_new hop
  | netNew s vnet alloc =>
    dsimp only [applyAct] at h
    cases hop : lsdn_net_new c s vnet alloc with
    | none => rw [hop] at h; cases h; exact sources_refl c
    | some r =>
      rw [hop] at h
      obtain ⟨i0, c0⟩ := r
      dsimp only at h
      cases h
      exact sources_net_new hop
  | physNew alloc =>
    dsimp only [applyAct] at h
    cases hop : lsdn_phys_new c alloc with
    | none => rw [hop] at h; cases h; exact sources_refl c
    | some r =>
      rw [hop] at h
      obtain ⟨i0, c0⟩ := r
      dsimp only at h
      cases h
      exact sources_phys_new hop
  | virtNew n alloc =>
    dsimp only [applyAct] at h
    cases hop : lsdn_virt_new c n alloc with
    | none => rw [hop] at h; cases h; exact sources_refl c
    | some r =>
      rw [hop] at h
      obtain ⟨i0, c0⟩ := r
      dsimp only at h
      cases h
      exact sources_virt_new hop
  | physAttach p n alloc =>
    dsimp only [applyAct] at h
    rcases hat : lsdn_phys_attach c p n alloc with ⟨e0, c0⟩
    rw [hat] at h
    cases h
    exact sources_phys_attach hat
  | physDetach p n =>
    dsimp only [applyAct] at h
    cases h
    exact sources_phys_detach
  | physSetIface p iface alloc =>
    dsimp only [applyAct] at h
    rw [Option.map_eq_some'] at h
    obtain ⟨r, hop, hc'⟩ := h
    obtain ⟨e0, c0⟩ := r
    cases hc'
    exact sources_phys_set_iface hop
  | physClearIface p =>
    dsimp only [applyAct] at h
    rw [Option.map_eq_some'] at h
    obtain ⟨r, hop, hc'⟩ := h
    obtain ⟨e0, c0⟩ := r
    cases hc'
    exact sources_phys_clear_iface hop
  | physSetIp p ip alloc =>
    dsimp only [applyAct] at h
    rw [Option.map_eq_some'] at h
    obtain ⟨r, hop, hc'⟩ := h
    obtain ⟨e0, c0⟩ := r
    cases hc'
    exact sources_phys_set_ip hop
  | physClaimLocal p =>
    dsimp only [applyAct] at h
    rw [Option.map_eq_some'] at h
    obtain ⟨r, hop, hc'⟩ := h
    obtain ⟨e0, c0⟩ := r
    cases hc'
    exact sources_phys_claim_local hW.1.2.2.1 hop
  | physUnclaimLocal p =>
    dsimp only [applyAct] at h
    rw [Option.map_eq_some'] at h
    obtain ⟨r, hop, hc'⟩ := h
    obtain ⟨e0, c0⟩ := r
    cases hc'
    exact sources_phys_unclaim_local hW.1.2.2.1 hop
  | physFree p =>
    dsimp only [applyAct] at h
    exact sources_phys_free h hW
  | virtConnect v p iface aA aN =>
    dsimp only [applyAct] at h
    rw [Option.map_eq_some'] at h
    obtain ⟨r, hop, hc'⟩ := h
    obtain ⟨e0, c0⟩ := r
    cases hc'
    exact sources_virt_connect hop hW
  | virtDisconnect v =>
    dsimp only [applyAct] at h
    exact sources_virt_disconnect hW.1.2.2.2.2.1 h
  | virtSetMac v mac alloc =>
    dsimp only [applyAct] at h
    rw [Option.map_eq_some'] at h
    obtain ⟨r, hop, hc'⟩ := h
    obtain ⟨e0, c0⟩ := r
    cases hc'
    exact sources_virt_set_mac hop
  | virtFree v =>
    dsimp only [applyAct] at h
    exact sources_virt_free h
  | netFree n =>
    dsimp only [applyAct] at h
    exact sources_net_free h
  | settingsFree s =>
    dsimp only [applyAct] at h
    exact sources_settings_free h
  | validateAct =>
    dsimp only [applyAct] at h
    cases h
    exact sources_propagatePhase c
  | commitAct =>
    dsimp only [applyAct] at h
    rw [Option.map_eq_some'] at h
    obtain ⟨r, hop, hc'⟩ := h
    obtain ⟨ret, c0, evs⟩ := r
    cases hc'
    exact sources_commit hW.1 hW.2.1 hW.2.2.2 hW.2.2.1 hop

theorem delete_sticky_list {α : Type} {g : α → Id} {st : α → St} {l l' : List α}
    {nx : Id}
    (hNod : (l.map g).Nodup)
    (hFr : ∀ x ∈ l, g x < nx)
    (hsrc : ∀ y ∈ l', (∃ x ∈ l, g x = g y ∧ (st x = .delete → st y = .delete)) ∨
      nx ≤ g y)
    {i : Id} {x : α} (hfind : l.find? (fun z => g z = i) = some x)
    (hx : st x = .delete)
    {y : α} (hfind' : l'.find? (fun z => g z = i) = some y) : st y = .delete := by
  have hym : y ∈ l' := List.mem_of_find?_eq_some hfind'
  have hyid : g y = i := by simpa using List.find?_some hfind'
  have hxm : x ∈ l := List.mem_of_find?_eq_some hfind
  have hxid : g x = i := by simpa using List.find?_some hfind
  rcases hsrc y hym with ⟨x0, hx0, hid0, ht0⟩ | hfr
  · have hxe : x0 = x :=
      List.inj_on_of_nodup_map hNod hx0 hxm (by rw [hid0, hyid, hxid])
    rw [hxe] at ht0
    exact ht0 hx
  · rw [hyid] at hfr
    have hlt := hFr x hxm
    rw [hxid] at hlt
    exact absurd hlt (Nat.not_lt.mpr hfr)

/-- The master DELETE-stickiness fact for one public call: an object marked
DELETE can only be observed as DELETE afterwards. -/
theorem stateOf_applyAct_delete {env : Env} {a : Act} {c c' : Ctx}
    (hW : WF c) (h : applyAct env a c = some c') {k : Kind} {i : Id}
    (hdel : stateOf c k i = some .delete) {s : St}
    (hs : stateOf c' k i = some s) : s = .delete := by
  have hsrc := sources_applyAct hW h
  obtain ⟨⟨u1, u2, u3, u4, u5, u6, u7⟩, ⟨f1, f2, f3, f4, f5, f6, f7⟩, _, _⟩ := hW
  cases k with
  | kSettings =>
    simp only [stateOf] at hdel hs
    rw [Option.map_eq_some'] at hdel hs
    obtain ⟨x, hfx, hxs⟩ := hdel
    obtain ⟨y, hfy, hys⟩ := hs
    rw [← hys]
    exact delete_sticky_list u1 f1 hsrc.settings hfx hxs hfy
  | kNet =>
    simp only [stateOf] at hdel hs
    rw [Option.map_eq_some'] at hdel hs
    obtain ⟨x, hfx, hxs⟩ := hdel
    obtain ⟨y, hfy, hys⟩ := hs
    rw [← hys]
    exact delete_sticky_list u2 f2 hsrc.nets hfx hxs hfy
  | kPhys =>
    simp only [stateOf] at hdel hs
    rw [Option.map_eq_some'] at hdel hs
    obtain ⟨x, hfx, hxs⟩ := hdel
    obtain ⟨y, hfy, hys⟩ := hs
    rw [← hys]
    exact delete_sticky_list u3 f3 hsrc.phys hfx hxs hfy
  | kPA =>
    simp only [stateOf] at hdel hs
    rw [Option.map_eq_some'] at hdel hs
    obtain ⟨x, hfx, hxs⟩ := hdel
    obtain ⟨y, hfy, hys⟩ := hs
    rw [← hys]
    exact delete_sticky_list u4 f4 hsrc.pas hfx hxs hfy
  | kVirt =>
    simp only [stateOf] at hdel hs
    rw [Option.map_eq_some'] at hdel hs
    obtain ⟨x, hfx, hxs⟩ := hdel
    obtain ⟨y, hfy, hys⟩ := hs
    rw [← hys]
    exact delete_sticky_list u5 f5 hsrc.virts hfx hxs hfy

theorem report_virts_mem_iff {ctx : Ctx} {a : PA} {pr : Problem} :
    pr ∈ report_virts ctx a ↔ ∃ v ∈ ctx.virtsL, v.connected_through = some a.aid ∧
      should_be_validated v.state = true ∧
      pr = { code := .PHYS_NOT_ATTACHED,
             refs := [.rVIRT v.vid, .rNET a.net, .rPHYS a.phys] } := by
  unfold report_virts
  simp only [List.mem_filterMap, connectedVirts, List.mem_filter]
  constructor
  · rintro ⟨v, ⟨hv, hct⟩, hif⟩
    by_cases hsv : should_be_validated v.state = true
    · rw [if_pos hsv] at hif
      exact ⟨v, hv, by simpa using hct, hsv, (Option.some.inj hif).symm⟩
    · rw [if_neg hsv] at hif
      cases hif
  · rintro ⟨v, hv, hct, hsv, hpr⟩
    refine ⟨v, ⟨hv, by simpa using hct⟩, ?_⟩
    rw [if_pos hsv, hpr]

theorem validate_virts_pa_code {env : Env} {ctx : Ctx} {a : PA} {pr : Problem}
    (h : pr ∈ validate_virts_pa env ctx a) : pr.code = .VIRT_NOIF := by
  unfold validate_virts_pa at h
  simp only [List.mem_filterMap] at h
  obtain ⟨v, hv, hif⟩ := h
  by_cases hsv : should_be_validated v.state = true
  · rw [if_pos hsv] at hif
    by_cases hg : a.explicitely_attached = true ∧ (physOfD ctx a.phys).is_local = true ∧
        ¬ ifResolves env v.connected_if = true
    · rw [if_pos hg] at hif
      rw [← Option.some.inj hif]
    · rw [if_neg hg] at hif
      cases hif
  · rw [if_neg hsv] at hif
    cases hif

theorem validate_virts_net_mem_iff {ctx : Ctx} {net : Net} {pr : Problem} :
    pr ∈ validate_virts_net ctx net ↔ ∃ v1 ∈ ctx.virtsL, v1.network = net.nid ∧
      should_be_validated v1.state = true ∧ v1.attr_mac ≠ none ∧
      ∃ v2 ∈ ctx.virtsL, v2.network = net.nid ∧
        should_be_validated v2.state = true ∧ v1.vid ≠ v2.vid ∧
        v1.attr_mac = v2.attr_mac ∧
        pr = { code := .VIRT_DUPATTR,
               refs := [.rATTR "mac", .rVIRT v1.vid, .rVIRT v2.vid, .rNET net.nid] } := by
  unfold validate_virts_net
  simp only [List.mem_flatMap, virtsOfNet, List.mem_filter]
  constructor
  · rintro ⟨v1, ⟨hv1, hn1⟩, hin1⟩
    by_cases hg1 : ¬ should_be_validated v1.state = true ∨ v1.attr_mac = none
    · rw [if_pos hg1] at hin1
      exact absurd hin1 (List.not_mem_nil _)
    · rw [if_neg hg1] at hin1
      push_neg at hg1
      simp only [List.mem_flatMap, List.mem_filter] at hin1
      obtain ⟨v2, ⟨hv2, hn2⟩, hin2⟩ := hin1
      by_cases hg2 : v1.vid = v2.vid ∨ ¬ should_be_validated v2.state = true ∨
          v2.attr_mac = none
      · rw [if_pos hg2] at hin2
        exact absurd hin2 (List.not_mem_nil _)
      · rw [if_neg hg2] at hin2
        push_neg at hg2
        by_cases hmac : v1.attr_mac = v2.attr_mac
        · rw [if_pos hmac] at hin2
          simp only [List.mem_singleton] at hin2
          exact ⟨v1, hv1, by simpa using hn1, hg1.1, hg1.2, v2, hv2,
            by simpa using hn2, hg2.2.1, hg2.1, hmac, hin2⟩
        · rw [if_neg hmac] at hin2
          exact absurd hin2 (List.not_mem_nil _)
  · rintro ⟨v1, hv1, hn1, hsv1, hm1, v2, hv2, hn2, hsv2, hne, hmac, hpr⟩
    refine ⟨v1, ⟨hv1, by simpa using hn1⟩, ?_⟩
    rw [if_neg (by push_neg; exact ⟨by simpa using hsv1, hm1⟩)]
    simp only [List.mem_flatMap]
    refine ⟨v2, List.mem_filter.2 ⟨hv2, by simpa using hn2⟩, ?_⟩
    rw [if_neg (by push_neg; exact ⟨hne, by simpa using hsv2, by rw [← hmac]; exact hm1⟩)]
    rw [if_pos hmac, hpr]
    exact List.mem_singleton_self _

theorem cross_validate_code {ctx : Ctx} {n1 n2 : Net} {pr : Problem}
    (h : pr ∈ cross_validate_networks ctx n1 n2) :
    pr.code = .NET_DUPID ∨ pr.code = .NET_BAD_NETTYPE := by
  unfold cross_validate_networks at h
  rcases List.mem_append.1 h with h1 | h2
  · obtain ⟨-, h1⟩ := mem_ite_list h1
    simp only [List.mem_singleton] at h1
    rw [h1]
    exact Or.inl rfl
  · obtain ⟨-, h2⟩ := mem_ite_list h2
    simp only [List.mem_singleton] at h2
    rw [h2]
    exact Or.inr rfl

theorem find?_congr_pred {α : Type} {p q : α → Bool} (h : ∀ a, p a = q a) :
    ∀ l : List α, l.find? p = l.find? q := by
  intro l
  induction l with
  | nil => rfl
  | cons x xs ih =>
    by_cases hx : p x = true
    · rw [List.find?_cons_of_pos _ hx, List.find?_cons_of_pos _ (by rw [← h x]; exact hx)]
    · rw [List.find?_cons_of_neg _ (by simpa using hx),
        List.find?_cons_of_neg _ (by rw [← h x]; simpa using hx)]
      exact ih

theorem findPA_updPA {c : Ctx} {i : Id} {f : PA → PA} (hf : ∀ a, (f a).aid = a.aid) :
    findPA (updPA c i f) i = (findPA c i).map (fun a => if a.aid = i then f a else a) := by
  show (c.pasL.map (fun a => if a.aid = i then f a else a)).find? (fun a => a.aid = i) = _
  rw [List.find?_map]
  unfold findPA
  congr 1
  apply find?_congr_pred
  intro a
  by_cases ha : a.aid = i
  · simp only [Function.comp_apply, if_pos ha]
    rw [hf a]
  · simp only [Function.comp_apply, if_neg ha]

/-- C7 (amended): `lsdn_phys_detach` on an attachment with no connected
virts frees it at once only when it is still NEW; a committed attachment is
instead left in place, implicit (`explicitely_attached = false`) and marked
DELETE for the next commit's decommit sweep. -/
theorem c7_detach_gc {c : Ctx} {p n : Id} {a : PA}
    (hN : (c.pasL.map (fun x => x.aid)).Nodup)
    (hfind : (pasOfPhys c p).find? (fun x => x.net = n) = some a)
    (hempty : connectedVirts c a.aid = []) :
    (a.state = .new → findPA (lsdn_phys_detach c p n) a.aid = none) ∧
    (a.state ≠ .new →
      (findPA (lsdn_phys_detach c p n) a.aid).map
        (fun x => (x.state, x.explicitely_attached)) = some (St.delete, false)) := by
  have hamem : a ∈ c.pasL := by
    have hm := List.mem_of_find?_eq_some hfind
    simp only [pasOfPhys, List.mem_filter] at hm
    exact hm.1
  have hfa : findPA c a.aid = some a := find_by_id_of_nodup hN hamem rfl
  have hf1 : findPA (updPA c a.aid (fun x =>
      { aid := x.aid, state := x.state, net := x.net, phys := x.phys,
        explicitely_attached := false })) a.aid =
      some { aid := a.aid, state := a.state, net := a.net, phys := a.phys,
             explicitely_attached := false } := by
    rw [@findPA_updPA c a.aid (fun x =>
      { aid := x.aid, state := x.state, net := x.net, phys := x.phys,
        explicitely_attached := false }) (fun x => rfl), hfa]
    simp only [Option.map_some', if_true]
  have hcv1 : connectedVirts (updPA c a.aid (fun x =>
      { aid := x.aid, state := x.state, net := x.net, phys := x.phys,
        explicitely_attached := false })) a.aid = [] := hempty
  unfold lsdn_phys_detach
  rw [hfind]
  dsimp only
  unfold phys_detach_by_pa free_pa_if_possible
  rw [hf1]
  dsimp only
  rw [if_pos (⟨hcv1, by simp⟩ :
    connectedVirts (updPA c a.aid (fun x =>
      { aid := x.aid, state := x.state, net := x.net, phys := x.phys,
        explicitely_attached := false })) a.aid = [] ∧
    ¬ (false = true))]
  constructor
  · intro hnew
    rw [if_pos (hnew :
      ({ aid := a.aid, state := a.state, net := a.net, phys := a.phys,
         explicitely_attached := false } : PA).state = St.new)]
    unfold pa_do_free
    rw [if_neg (by simpa using hcv1), if_neg (by simp)]
    simp only [Option.getD_some]
    rw [findPA, List.find?_eq_none]
    intro x hx
    simp only [removePA, List.mem_filter] at hx
    simpa using hx.2
  · intro hnew
    rw [if_neg (hnew :
      ¬ ({ aid := a.aid, state := a.state, net := a.net, phys := a.phys,
           explicitely_attached := false } : PA).state = St.new)]
    rw [@findPA_updPA _ a.aid (fun x =>
      { aid := x.aid, state := St.delete, net := x.net, phys := x.phys,
        explicitely_attached := x.explicitely_attached }) (fun x => rfl)]
    rw [hf1]
    simp only [Option.map_some', if_true]

/-- C9 (amended): when `lsdn_virt_connect` fails with NOMEM it leaves the
settings, net, phys and virt lists exactly as they were (in particular the
virt's connection is unchanged), but the attachment list may retain one
freshly allocated implicit NEW attachment on the requested phys: the partial
mutation is not rolled back. -/
theorem c9_connect_nomem_frame {c : Ctx} {vi p : Id} {iface : String} {aA aN : Bool} {c' : Ctx}
    (h : lsdn_virt_connect c vi p iface aA aN = some (.eNOMEM, c')) :
    c'.settingsL = c.settingsL ∧ c'.netsL = c.netsL ∧ c'.physL = c.physL ∧
    c'.virtsL = c.virtsL ∧
    (c'.pasL = c.pasL ∨ ∃ pa, c'.pasL = c.pasL ++ [pa] ∧ pa.state = .new ∧
      pa.explicitely_attached = false ∧ pa.phys = p) := by
  unfold lsdn_virt_connect at h
  cases hfind : findVirt c vi with
  | none => rw [hfind] at h; cases h
  | some v =>
    rw [hfind] at h
    dsimp only at h
    cases hfoc : find_or_create_attachement c p v.network aA with
    | none =>
      rw [hfoc] at h
      simp only [Option.some.injEq, Prod.mk.injEq] at h
      rw [← h.2]
      exact ⟨rfl, rfl, rfl, rfl, Or.inl rfl⟩
    | some r1 =>
      rw [hfoc] at h
      obtain ⟨a, ctx1⟩ := r1
      dsimp only at h
      have hshape : ctx1.settingsL = c.settingsL ∧ ctx1.netsL = c.netsL ∧
          ctx1.physL = c.physL ∧ ctx1.virtsL = c.virtsL ∧
          (ctx1.pasL = c.pasL ∨ ∃ pa, ctx1.pasL = c.pasL ++ [pa] ∧
            pa.state = .new ∧ pa.explicitely_attached = false ∧ pa.phys = p) := by
        unfold find_or_create_attachement at hfoc
        cases hfind2 : (pasOfPhys c p).find? (fun x => x.net = v.network) with
        | some a0 =>
          rw [hfind2] at hfoc
          cases hfoc
          exact ⟨rfl, rfl, rfl, rfl, Or.inl rfl⟩
        | none =>
          rw [hfind2] at hfoc
          by_cases hal : aA = true
          · rw [if_pos hal] at hfoc
            simp only [Option.some.injEq, Prod.mk.injEq] at hfoc
            rw [← hfoc.2]
            exact ⟨rfl, rfl, rfl, rfl, Or.inr ⟨_, rfl, rfl, rfl, rfl⟩⟩
          · rw [if_neg hal] at hfoc
            cases hfoc
      by_cases hname : aN = true
      · rw [if_neg (by simp [hname])] at h
        cases hdis : lsdn_virt_disconnect
            (updVirt ctx1 vi (fun x => { x with connected_if := some iface })) vi with
        | none => rw [hdis] at h; cases h
        | some ctx3 =>
          rw [hdis] at h
          dsimp only at h
          cases hfind3 : findVirt ctx3 vi with
          | none => rw [hfind3] at h; cases h
          | some v3 =>
            rw [hfind3] at h
            dsimp only at h
            cases hrn : renew v3.state with
            | none => rw [hrn] at h; cases h
            | some s2 =>
              rw [hrn] at h
              simp only [Option.some.injEq, Prod.mk.injEq] at h
              cases h.1
      · rw [if_pos (by simp [hname])] at h
        simp only [Option.some.injEq, Prod.mk.injEq] at h
        rw [← h.2]
        exact hshape

/-- C5 (amended): a PHYS_NOT_ATTACHED problem is reported exactly for the
to-be-validated (NEW or RENEW) connected virts of a not-explicitly-attached
attachment of a non-deleted phys — whether or not the phys is local, and
skipping connected virts already in state OK. -/
theorem c5_not_attached_exact {env : Env} {ctx : Ctx} :
    (∀ p ∈ ctx.physL, will_be_deleted p.state = false →
      ∀ a ∈ ctx.pasL, a.phys = p.pid → a.explicitely_attached = false →
      ∀ v ∈ ctx.virtsL, v.connected_through = some a.aid →
      should_be_validated v.state = true →
      ({ code := .PHYS_NOT_ATTACHED,
         refs := [.rVIRT v.vid, .rNET a.net, .rPHYS a.phys] } : Problem)
        ∈ validateProblems env ctx) ∧
    (∀ pr ∈ validateProblems env ctx, pr.code = .PHYS_NOT_ATTACHED →
      ∃ p ∈ ctx.physL, will_be_deleted p.state = false ∧
      ∃ a ∈ ctx.pasL, a.phys = p.pid ∧ a.explicitely_attached = false ∧
      ∃ v ∈ ctx.virtsL, v.connected_through = some a.aid ∧
        should_be_validated v.state = true ∧
        pr = { code := .PHYS_NOT_ATTACHED,
               refs := [.rVIRT v.vid, .rNET a.net, .rPHYS a.phys] }) := by
  constructor
  · intro p hp hwbd a ha haphys hexp v hv hct hsv
    unfold validateProblems
    refine List.mem_append_right _ ?_
    simp only [List.mem_flatMap]
    refine ⟨p, hp, ?_⟩
    rw [if_neg (by simp [hwbd])]
    refine List.mem_append_left _ ?_
    simp only [List.mem_flatMap]
    refine ⟨a, List.mem_filter.2 ⟨ha, by simp [haphys]⟩, ?_⟩
    rw [if_pos (by simp [hexp])]
    exact report_virts_mem_iff.2 ⟨v, hv, hct, hsv, rfl⟩
  · intro pr hpr hcode
    unfold validateProblems at hpr
    rcases List.mem_append.1 hpr with hA | hB
    · exfalso
      simp only [List.mem_flatMap] at hA
      obtain ⟨net1, hnet1, hin⟩ := hA
      by_cases hw : will_be_deleted net1.state = true
      · rw [if_pos (by simp [hw])] at hin
        exact List.not_mem_nil _ hin
      · rw [if_neg (by simpa using hw)] at hin
        rcases List.mem_append.1 hin with h1 | h2
        · obtain ⟨v1, _, _, _, _, v2, _, _, _, _, _, hpr2⟩ :=
            validate_virts_net_mem_iff.1 h1
          rw [hpr2] at hcode
          cases hcode
        · simp only [List.mem_flatMap] at h2
          obtain ⟨net2, hnet2, hin2⟩ := h2
          obtain ⟨-, hin3⟩ := mem_ite_list hin2
          rcases cross_validate_code hin3 with hc | hc
          · rw [hcode] at hc
            cases hc
          · rw [hcode] at hc
            cases hc
    · simp only [List.mem_flatMap] at hB
      obtain ⟨p, hp, hin⟩ := hB
      by_cases hw : will_be_deleted p.state = true
      · rw [if_pos (by simp [hw])] at hin
        exact absurd hin (List.not_mem_nil _)
      · rw [if_neg (by simpa using hw)] at hin
        rcases List.mem_append.1 hin with h1 | h2
        · simp only [List.mem_flatMap] at h1
          obtain ⟨a, ha, hina⟩ := h1
          simp only [pasOfPhys, List.mem_filter] at ha
          by_cases hexp : a.explicitely_attached = true
          · rw [if_neg (by simp [hexp])] at hina
            exfalso
            rcases List.mem_append.1 hina with h3 | h4
            · obtain ⟨-, h3b⟩ := mem_ite_list h3
              simp only [List.mem_singleton] at h3b
              rw [h3b] at hcode
              cases hcode
            · have hc := validate_virts_pa_code h4
              rw [hcode] at hc
              cases hc
          · rw [if_pos (by simp [hexp])] at hina
            obtain ⟨v, hv, hct, hsv, hpr2⟩ := report_virts_mem_iff.1 hina
            exact ⟨p, hp, by simpa using hw, a, ha.1, by simpa using ha.2,
              by simpa using hexp, v, hv, hct, hsv, hpr2⟩
        · exfalso
          simp only [List.mem_flatMap] at h2
          obtain ⟨q, hq, hinq⟩ := h2
          obtain ⟨-, hinq2⟩ := mem_ite_list hinq
          cases hip : p.attr_ip with
          | none =>
            rw [hip] at hinq2
            exact List.not_mem_nil _ hinq2
          | some ip1 =>
            rw [hip] at hinq2
            cases hiq : q.attr_ip with
            | none =>
              rw [hiq] at hinq2
              exact List.not_mem_nil _ hinq2
            | some ip2 =>
              rw [hiq] at hinq2
              obtain ⟨-, hinq3⟩ := mem_ite_list hinq2
              simp only [List.mem_singleton] at hinq3
              rw [hinq3] at hcode
              cases hcode

/-- C6 (amended): a VIRT_DUPATTR problem is reported exactly for two
distinct virts of one non-deleted net with equal set MAC attributes when both
virts are to-be-validated (NEW or RENEW); already committed (OK) virts are
not re-checked, so equal MACs among OK virts pass validation. -/
theorem c6_dupattr_exact {env : Env} {ctx : Ctx} :
    (∀ net ∈ ctx.netsL, will_be_deleted net.state = false →
      ∀ v1 ∈ ctx.virtsL, v1.network = net.nid →
      ∀ v2 ∈ ctx.virtsL, v2.network = net.nid →
      should_be_validated v1.state = true → should_be_validated v2.state = true →
      v1.vid ≠ v2.vid → v1.attr_mac ≠ none → v1.attr_mac = v2.attr_mac →
      ({ code := .VIRT_DUPATTR,
         refs := [.rATTR "mac", .rVIRT v1.vid, .rVIRT v2.vid, .rNET net.nid] } : Problem)
        ∈ validateProblems env ctx) ∧
    (∀ pr ∈ validateProblems env ctx, pr.code = .VIRT_DUPATTR →
      ∃ net ∈ ctx.netsL, will_be_deleted net.state = false ∧
      ∃ v1 ∈ ctx.virtsL, v1.network = net.nid ∧ should_be_validated v1.state = true ∧
      ∃ v2 ∈ ctx.virtsL, v2.network = net.nid ∧ should_be_validated v2.state = true ∧
        v1.vid ≠ v2.vid ∧ v1.attr_mac ≠ none ∧ v1.attr_mac = v2.attr_mac ∧
        pr = { code := .VIRT_DUPATTR,
               refs := [.rATTR "mac", .rVIRT v1.vid, .rVIRT v2.vid, .rNET net.nid] }) := by
  constructor
  · intro net hnet hwbd v1 hv1 hn1 v2 hv2 hn2 hsv1 hsv2 hne hm1 hmac
    unfold validateProblems
    refine List.mem_append_left _ ?_
    simp only [List.mem_flatMap]
    refine ⟨net, hnet, ?_⟩
    rw [if_neg (by simp [hwbd])]
    refine List.mem_append_left _ ?_
    exact validate_virts_net_mem_iff.2
      ⟨v1, hv1, by simp [hn1], hsv1, hm1, v2, hv2, by simp [hn2], hsv2, hne, hmac, rfl⟩
  · intro pr hpr hcode
    unfold validateProblems at hpr
    rcases List.mem_append.1 hpr with hA | hB
    · simp only [List.mem_flatMap] at hA
      obtain ⟨net1, hnet1, hin⟩ := hA
      by_cases hw : will_be_deleted net1.state = true
      · rw [if_pos (by simp [hw])] at hin
        exact absurd hin (List.not_mem_nil _)
      · rw [if_neg (by simpa using hw)] at hin
        rcases List.mem_append.1 hin with h1 | h2
        · obtain ⟨v1, hv1, hn1, hsv1, hm1, v2, hv2, hn2, hsv2, hne, hmac, hpr2⟩ :=
            validate_virts_net_mem_iff.1 h1
          exact ⟨net1, hnet1, by simpa using hw, v1, hv1, by simpa using hn1, hsv1,
            v2, hv2, by simpa using hn2, hsv2, hne, hm1, hmac, hpr2⟩
        · exfalso
          simp only [List.mem_flatMap] at h2
          obtain ⟨net2, hnet2, hin2⟩ := h2
          obtain ⟨-, hin3⟩ := mem_ite_list hin2
          rcases cross_validate_code hin3 with hc | hc
          · rw [hcode] at hc
            cases hc
          · rw [hcode] at hc
            cases hc
    · exfalso
      simp only [List.mem_flatMap] at hB
      obtain ⟨p, hp, hin⟩ := hB
      by_cases hw : will_be_deleted p.state = true
      · rw [if_pos (by simp [hw])] at hin
        exact List.not_mem_nil _ hin
      · rw [if_neg (by simpa using hw)] at hin
        rcases List.mem_append.1 hin with h1 | h2
        · simp only [List.mem_flatMap] at h1
          obtain ⟨a, ha, hina⟩ := h1
          by_cases hexp : a.explicitely_attached = true
          · rw [if_neg (by simp [hexp])] at hina
            rcases List.mem_append.1 hina with h3 | h4
            · obtain ⟨-, h3b⟩ := mem_ite_list h3
              simp only [List.mem_singleton] at h3b
              rw [h3b] at hcode
              cases hcode
            · have hc := validate_virts_pa_code h4
              rw [hcode] at hc
              cases hc
          · rw [if_pos (by simp [hexp])] at hina
            obtain ⟨v, hv, hct, hsv, hpr2⟩ := report_virts_mem_iff.1 hina
            rw [hpr2] at hcode
            cases hcode
        · simp only [List.mem_flatMap] at h2
          obtain ⟨q, hq, hinq⟩ := h2
          obtain ⟨-, hinq2⟩ := mem_ite_list hinq
          cases hip : p.attr_ip with
          | none =>
            rw [hip] at hinq2
            exact List.not_mem_nil _ hinq2
          | some ip1 =>
            rw [hip] at hinq2
            cases hiq : q.attr_ip with
            | none =>
              rw [hiq] at hinq2
              exact List.not_mem_nil _ hinq2
            | some ip2 =>
              rw [hiq] at hinq2
              obtain ⟨-, hinq3⟩ := mem_ite_list hinq2
              simp only [List.mem_singleton] at hinq3
              rw [hinq3] at hcode
              cases hcode

/-! ## The claims -/

theorem filter_nettype_hooks_nil (c : Ctx) :
    (trigger_startup_hooks c).filter Ev.isNettypeOp = [] := by
  rw [List.filter_eq_nil_iff]
  intro e he
  simp [trigger_startup_hooks_shape e he]

/-- C1: after any valid call sequence from a fresh context, a commit that
returns OK leaves every object of the graph (settings, nets, physes,
attachments, virts) in lifecycle state OK. -/
theorem c1_commit_all_ok {env : Env} {c c' : Ctx} {evs : List Ev}
    (hR : Reach env c) (h : lsdn_commit env c = some (.ret .eOK, c', evs)) :
    AllOK c' := by
  have hW := wf_reach hR
  exact (lsdn_commit_ret hW.1 hW.2.1 hW.2.2.2 hW.2.2.1 h).2.2.allok

theorem c1_commit_all_ok_witness : AllOK ctxSingleHostC :=
  c1_commit_all_ok
    (reach_applyActsOK Reach.empty (by decide :
      applyActsOK envAll stepsSingleHost Ctx.empty = some ctxSingleHost))
    (by decide :
      lsdn_commit envAll ctxSingleHost =
        some (.ret .eOK, ctxSingleHostC, [Ev.create_pa 3, Ev.add_virt 4]))

/-- C2: when validation inside commit reports problems, commit indeed makes
no nettype driver call, but it does not return VALIDATE: it executes
`return err;` (lsdn.c:942) with no `err` in scope (modelled `.retErrIdent`),
so the claimed VALIDATE return value never materialises. -/
theorem c2_validate_fail_no_validate_ret :
    (lsdn_validate envAll ctxDupMacNew).2.length = 2 ∧
    (lsdn_commit envAll ctxDupMacNew).map
        (fun r => (r.1, r.2.2.filter Ev.isNettypeOp)) =
      some (.retErrIdent, []) := by decide

/-- C3: a second commit immediately after a `.ret`-returning commit returns
OK and performs no nettype driver call. -/
theorem c3_commit_idempotent {env : Env} {c c' : Ctx} {e : Err} {evs : List Ev}
    (hW : WF c) (h : lsdn_commit env c = some (.ret e, c', evs)) :
    (lsdn_commit env c').map (fun r => (r.1, r.2.2.filter Ev.isNettypeOp)) =
      some (.ret .eOK, []) := by
  obtain ⟨hU, hF, hN, hC⟩ := hW
  obtain ⟨he, hnil, hcp⟩ := lsdn_commit_ret hU hF hC hN h
  obtain ⟨hUP, hFP, hCP, hNP⟩ := propagatePhase_wf hU hF hC hN
  have hnil2 : validateProblems env c' = [] :=
    validateProblems_nil_of_sub hUP.1 hUP.2.2.1 hcp.sub_nets hcp.sub_phys
      hcp.sub_pas hcp.sub_settings hcp.set_ref hcp.allok hnil
  rw [lsdn_commit_of_allok hcp.allok hnil2]
  simp only [Option.map_some']
  rw [filter_nettype_hooks_nil]

theorem c3_commit_idempotent_witness :
    (lsdn_commit envAll ctxSingleHostC).map
        (fun r => (r.1, r.2.2.filter Ev.isNettypeOp)) = some (.ret .eOK, []) :=
  c3_commit_idempotent (by decide) (by decide :
    lsdn_commit envAll ctxSingleHost =
      some (.ret .eOK, ctxSingleHostC, [Ev.create_pa 3, Ev.add_virt 4]))

/-- C4: `lsdn_virt_set_mac` on a committed (OK) virt stores the attribute
without renewing the virt: the state stays OK and the next commit performs no
`remove_virt`/`add_virt` for it, contradicting the spec's RENEW story. -/
theorem c4_set_mac_no_renew :
    stateOf ctxSingleHostC .kVirt 4 = some .ok ∧
    (lsdn_virt_set_mac ctxSingleHostC 4 2 true).map
        (fun r => (r.1, stateOf r.2 .kVirt 4)) = some (.eOK, some .ok) ∧
    ((lsdn_virt_set_mac ctxSingleHostC 4 2 true).bind
        (fun r => lsdn_commit envAll r.2)).map
        (fun r => (r.1, r.2.2.filter Ev.isNettypeOp)) = some (.ret .eOK, []) := by
  decide

theorem c5_counterexample :
    ((lsdn_validate envAll ctxImplicitNonLocal).2.filter
        (fun pr => pr.code = .PHYS_NOT_ATTACHED)) =
      [{ code := .PHYS_NOT_ATTACHED, refs := [.rVIRT 3, .rNET 1, .rPHYS 2] }] ∧
    (physOfD ctxImplicitNonLocal 2).is_local = false ∧
    (findVirt ctxImplicitLocalMixed 4).map (fun v => (v.state, v.connected_through)) =
      some (.ok, some 3) ∧
    (findPA ctxImplicitLocalMixed 3).map (fun a => a.explicitely_attached) =
      some false ∧
    (physOfD ctxImplicitLocalMixed 2).is_local = true ∧
    ((lsdn_validate envAll ctxImplicitLocalMixed).2.filter
        (fun pr => pr.code = .PHYS_NOT_ATTACHED)) =
      [{ code := .PHYS_NOT_ATTACHED, refs := [.rVIRT 5, .rNET 1, .rPHYS 2] }] := by
  decide

theorem c6_counterexample :
    (∃ v1 ∈ ctxDupMacCommitted.virtsL, ∃ v2 ∈ ctxDupMacCommitted.virtsL,
      v1.vid ≠ v2.vid ∧ v1.network = v2.network ∧ v1.attr_mac = some 9 ∧
      v2.attr_mac = some 9 ∧ v1.state ≠ .delete ∧ v2.state ≠ .delete) ∧
    validateProblems envAll ctxDupMacCommitted = [] ∧
    (lsdn_commit envAll ctxDupMacCommitted).map (fun r => r.1) =
      some (.ret .eOK) := by
  decide

theorem c7_detach_gc_witness :
    (findPA (lsdn_phys_detach ctxCommittedEmptyPA 2 1) 3).map
        (fun x => (x.state, x.explicitely_attached)) = some (St.delete, false) :=
  (@c7_detach_gc ctxCommittedEmptyPA 2 1
    { aid := 3, state := .ok, net := 1, phys := 2, explicitely_attached := true }
    (by decide) (by decide) (by decide)).2 (by decide)

theorem c7_counterexample :
    connectedVirts ctxCommittedEmptyPA 3 = [] ∧
    (findPA ctxCommittedEmptyPA 3).map (fun a => (a.state, a.explicitely_attached)) =
      some (.ok, true) ∧
    (findPA (lsdn_phys_detach ctxCommittedEmptyPA 2 1) 3).map
        (fun a => (a.state, a.explicitely_attached)) = some (.delete, false) := by
  decide

/-- C8: an object in state DELETE is never re-promoted: the lifecycle
primitives keep DELETE in place (`renew` asserts, `ack_state`, `ack_uncommit`
and `propagate` fix it), and across every public entry point a DELETE-marked
object can only be observed as DELETE afterwards. -/
theorem c8_delete_sticky {env : Env} {a : Act} {c c' : Ctx}
    (hW : WF c) (h : applyAct env a c = some c') :
    (∀ k i, stateOf c k i = some .delete →
      ∀ s, stateOf c' k i = some s → s = .delete) ∧
    renew .delete = none ∧ ack_state .delete = .delete ∧
    ack_uncommit .delete = (true, .delete) ∧
    (∀ src, propagate src .delete = .delete) := by
  refine ⟨fun k i hdel s hs => stateOf_applyAct_delete hW h hdel hs,
    rfl, by decide, rfl, ?_⟩
  intro src
  cases src <;> decide

theorem c8_delete_sticky_witness :
    ((∀ k i, stateOf ctxVirtDel k i = some .delete →
        ∀ s, stateOf (propagatePhase ctxVirtDel) k i = some s → s = .delete) ∧
      renew .delete = none ∧ ack_state .delete = .delete ∧
      ack_uncommit .delete = (true, .delete) ∧
      (∀ src, propagate src .delete = .delete)) ∧
    stateOf ctxVirtDel .kVirt 4 = some .delete :=
  ⟨c8_delete_sticky (by decide) (by decide :
      applyAct envAll Act.validateAct ctxVirtDel =
        some (propagatePhase ctxVirtDel)),
   by decide⟩

theorem c9_connect_nomem_frame_witness :
    ((lsdn_virt_connect ctxConnNomem 3 2 "tap0" true false).map
      (fun r => r.2.virtsL)) = some ctxConnNomem.virtsL := by
  rcases hc : lsdn_virt_connect ctxConnNomem 3 2 "tap0" true false with _ | ⟨e, c2⟩
  · exact absurd hc (by decide)
  · have he : e = .eNOMEM := by
      have h2 : (lsdn_virt_connect ctxConnNomem 3 2 "tap0" true false).map
          (fun r => r.1) = some .eNOMEM := by decide
      rw [hc] at h2
      simpa using h2
    subst he
    have h3 := c9_connect_nomem_frame hc
    simp only [Option.map_some']
    rw [h3.2.2.2.1]

theorem c9_counterexample :
    ctxConnNomem.pasL = [] ∧
    (lsdn_virt_connect ctxConnNomem 3 2 "tap0" true false).map (fun r => r.1) =
      some .eNOMEM ∧
    (lsdn_virt_connect ctxConnNomem 3 2 "tap0" true false).map (fun r => r.2.pasL) =
      some [{ aid := 4, state := .new, net := 1, phys := 2,
              explicitely_attached := false }] := by
  decide

/-- C10: in every reachable context, a virt with a non-null
`connected_through` pointer points at a live attachment of the virt's own
network; since `Reach` closes the public API (connect, disconnect, free,
attach, detach, commit), every operation preserves the invariant. -/
theorem c10_connected_attachment_same_net {env : Env} {c : Ctx}
    (hR : Reach env c) :
    ∀ v ∈ c.virtsL, ∀ a, v.connected_through = some a →
      ∃ pa ∈ c.pasL, pa.aid = a ∧ pa.net = v.network :=
  (wf_reach hR).2.2.2

theorem c10_connected_attachment_same_net_witness :
    ∃ pa ∈ ctxSingleHostC.pasL, pa.aid = 3 ∧ pa.net = 1 := by
  have hR0 : Reach envAll ctxSingleHost :=
    reach_applyActsOK Reach.empty (by decide :
      applyActsOK envAll stepsSingleHost Ctx.empty = some ctxSingleHost)
  have hR : Reach envAll ctxSingleHostC :=
    Reach.step hR0 (show ActPre ctxSingleHost Act.commitAct from trivial) (by decide :
      applyAct envAll Act.commitAct ctxSingleHost = some ctxSingleHostC)
  have hfind : ∃ v ∈ ctxSingleHostC.virtsL, v.connected_through = some 3 ∧
      v.network = 1 := by decide
  obtain ⟨v, hv, hct, hnet⟩ := hfind
  have h := c10_connected_attachment_same_net hR v hv 3 hct
  rw [hnet] at h
  exact h

end LSDN
